import Mathlib

/-!
# Uniform: a stochastic local-search SAT engine

A shallow embedding of `uniform.c`, its parser and its solver section, and a
verification of its bookkeeping.

Conventions of the embedding.

* A C `int` is an `Int` that holds a value between `-2147483648` and
  `2147483647`; a loop counter that starts at `0` and is only incremented is a
  `Nat`.  Where the source computes a value that may leave the range of `int`,
  the embedding says what happens: the negation `-x` wraps (`negate`), and
  `initiate` is undefined (`none`) when an allocation size, an occurrence count
  or a product `i * step` overflows.  The other `int` values of the solver
  (clause indices, active counts, block offsets) are bounded by the sizes that
  `initiate` has computed.
* A C array is a `List`; every read and write is checked, and an access outside
  the allocation makes the enclosing function return `none`.  `none` therefore
  stands for undefined behaviour (or for a loop that does not terminate).
* A clause `cnf[i]` is the list of the literals stored before its terminating
  `0`; the database `cnf` is the list of the clauses stored before the
  terminating null pointer.
* A stored literal is never `0`, which is the terminator; `well_formed` states
  this for a database given as a list.
* The process-wide variables are the fields of `Solver`, passed explicitly.
* `rand()` is a stream `rnd : Nat → Nat` of non-negative draws together with
  the number `p` of draws already consumed.
-/

namespace Uniform

/-! ## Memory model -/

/-- Checked read `xs[i]` at a signed index. -/
def rd {α : Type} (xs : List α) (i : Int) : Option α :=
  if 0 ≤ i then xs[i.toNat]? else none

/-- Checked write `xs[i] = v` at a signed index. -/
def wr {α : Type} (xs : List α) (i : Int) (v : α) : Option (List α) :=
  if 0 ≤ i ∧ i.toNat < xs.length then some (xs.set i.toNat v) else none

/-- Checked write `xs[i] = v` at a counter index. -/
def wrN {α : Type} (xs : List α) (i : Nat) (v : α) : Option (List α) :=
  if i < xs.length then some (xs.set i v) else none

/-! ## Data model -/

/-- The literals of one clause, in order, without the terminating `0`. -/
abbrev Clause := List Int

/-- The clause database, without the terminating null pointer. -/
abbrev Cnf := List Clause

/-- The global variables of the solver section, and the `buffer` of `elect`. -/
structure Solver where
  num_variables : Int
  num_clauses : Nat
  hold_size : List Int
  hold : List (List Int)
  num_constraints : Int
  constraints : List Char
  solution : List Char
  milestones : List Int
  step : Nat
  buffer : List Int
  deriving DecidableEq, Repr

/-- The globals at program start: zero-initialised, `buffer` has 69 entries. -/
def boot : Solver :=
  { num_variables := 0, num_clauses := 0, hold_size := [], hold := [],
    num_constraints := 0, constraints := [], solution := [], milestones := [],
    step := 0, buffer := List.replicate 69 0 }

/-- `SAMPLE_PARAM`. -/
def SAMPLE_PARAM : Nat := 10

/-- `MILESTONE_PARAM`. -/
def MILESTONE_PARAM : Nat := 100

/-! ## `abs`, `get_size` -/

/-- The negation `-x` of an `int`: `-2147483648` is the one value whose negation
is not an `int`; the 32-bit negation returns it unchanged. -/
def negate (x : Int) : Int :=
  if x = -2147483648 then x else -x

/-- `abs`. -/
def abs (x : Int) : Int :=
  if x < 0 then negate x else x

/-- Inner loop of `get_size` over the literals of one clause. -/
def get_size_clause : Clause → Int → Int
  | [], size => size
  | l :: ls, size =>
    let size := if l > size then l else size
    let size := if negate l > size then negate l else size
    get_size_clause ls size

/-- Outer loop of `get_size`: returns the final `size` and `i`. -/
def get_size_loop : Cnf → Int → Nat → Int × Nat
  | [], size, i => (size, i)
  | c :: cs, size, i => get_size_loop cs (get_size_clause c size) (i + 1)

/-- `get_size`: sets `num_variables` and `num_clauses`. -/
def get_size (cnf : Cnf) (s : Solver) : Solver :=
  let r := get_size_loop cnf 0 0
  { s with num_variables := r.1, num_clauses := r.2 }

/-! ## `is_solved`, `verify` -/

/-- The loop of `is_solved` over the literals of the clause. -/
def is_solved_scan (solution : List Char) : Clause → Option Char
  | [] => some 'F'
  | l :: ls =>
    match rd solution (abs l) with
    | none => none
    | some c =>
      if l * ((c.toNat : Int) - ('|'.toNat : Int)) ≤ 0 then is_solved_scan solution ls
      else some 'T'

/-- `is_solved`. -/
def is_solved (s : Solver) (cnf : Cnf) (i : Nat) : Option Char :=
  match cnf[i]? with
  | none => none
  | some c => is_solved_scan s.solution c

/-- The loop of `verify`; `rest` is the part of the database from index `i` on. -/
def verify_from (s : Solver) (cnf : Cnf) : Cnf → Nat → Option Int
  | [], _ => some 1
  | _ :: rest, i =>
    match is_solved s cnf i with
    | none => none
    | some r => if r = 'F' then some 0 else verify_from s cnf rest (i + 1)

/-- `verify`. -/
def verify (s : Solver) (cnf : Cnf) : Option Int :=
  verify_from s cnf cnf 0

/-! ## `insert`, `extract` -/

/-- First loop of `insert`/`extract`: `while (j * step <= i) j++`. -/
def block_after (step i : Nat) : Nat → Nat → Option Nat
  | 0, _ => none
  | fuel + 1, j => if j * step ≤ i then block_after step i fuel (j + 1) else some j

/-- Second loop of `insert`/`extract` and the statement after it:
`while (j * step < num_clauses) { milestones[j] += d; j++; } milestones[j] += d`. -/
def bump (d : Int) (step num_clauses : Nat) : Nat → Nat → List Int → Option (List Int)
  | 0, _, _ => none
  | fuel + 1, j, ms =>
    match ms[j]? with
    | none => none
    | some v =>
      if j * step < num_clauses then bump d step num_clauses fuel (j + 1) (ms.set j (v + d))
      else some (ms.set j (v + d))

/-- `insert`. -/
def insert (s : Solver) (i : Nat) : Option (Char × Solver) :=
  match s.constraints[i]? with
  | none => none
  | some c =>
    if c = 'y' then some ('E', s)
    else
      match block_after s.step i (i + 2) 0 with
      | none => none
      | some j =>
        match bump 1 s.step s.num_clauses (s.num_clauses + 1) j s.milestones with
        | none => none
        | some ms =>
          some ('C', { s with milestones := ms, constraints := s.constraints.set i 'y',
                              num_constraints := s.num_constraints + 1 })

/-- `extract`. -/
def extract (s : Solver) (i : Nat) : Option (Char × Solver) :=
  match s.constraints[i]? with
  | none => none
  | some c =>
    if c = 'n' then some ('E', s)
    else
      match block_after s.step i (i + 2) 0 with
      | none => none
      | some j =>
        match bump (-1) s.step s.num_clauses (s.num_clauses + 1) j s.milestones with
        | none => none
        | some ms =>
          some ('C', { s with milestones := ms, constraints := s.constraints.set i 'n',
                              num_constraints := s.num_constraints - 1 })

/-! ## `initiate` -/

/-- Counting loop over one clause: `hold_size[num_variables + cnf[i][j] + 1]++`.
Incrementing a count of `2147483647` is an overflow of `int`: the loop is
undefined. -/
def count_lits (nv : Int) : Clause → List Int → Option (List Int)
  | [], hs => some hs
  | l :: ls, hs =>
    match rd hs (nv + l + 1) with
    | none => none
    | some v =>
      if 2147483647 < v + 1 then none
      else
        match wr hs (nv + l + 1) (v + 1) with
        | none => none
        | some hs1 => count_lits nv ls hs1

/-- Counting loop over the database. -/
def count_cnf (nv : Int) : Cnf → List Int → Option (List Int)
  | [], hs => some hs
  | c :: cs, hs =>
    match count_lits nv c hs with
    | none => none
    | some hs1 => count_cnf nv cs hs1

/-- The scan `k = 0; while (row[k] >= 0) k++` (started with counter `k`). -/
def hold_end : List Int → Nat → Option Nat
  | [], _ => none
  | e :: es, k => if e ≥ 0 then hold_end es (k + 1) else some k

/-- Appending clause index `i` to one occurrence row:
the scan, then `row[k] = i; row[k + 1] = -1`. -/
def hold_push (row : List Int) (i : Nat) : Option (List Int) :=
  match hold_end row 0 with
  | none => none
  | some k =>
    match wrN row k (i : Int) with
    | none => none
    | some row1 => wrN row1 (k + 1) (-1)

/-- Filling loop over the literals of clause `i`. -/
def fill_lits (nv : Int) (i : Nat) : Clause → List (List Int) → Option (List (List Int))
  | [], hold => some hold
  | l :: ls, hold =>
    match rd hold (nv + l + 1) with
    | none => none
    | some row =>
      match hold_push row i with
      | none => none
      | some row1 =>
        match wr hold (nv + l + 1) row1 with
        | none => none
        | some hold1 => fill_lits nv i ls hold1

/-- Filling loop over the database, from clause index `i` on. -/
def fill_cnf (nv : Int) : Cnf → Nat → List (List Int) → Option (List (List Int))
  | [], _, hold => some hold
  | c :: cs, i, hold =>
    match fill_lits nv i c hold with
    | none => none
    | some hold1 => fill_cnf nv cs (i + 1) hold1

/-- The loop `i = 0; while (i * step < num_clauses) i++`.  A product `i * step`
above `2147483647` is an overflow of `int`: the loop is undefined. -/
def count_blocks (step nc : Nat) : Nat → Nat → Option Nat
  | 0, _ => none
  | fuel + 1, i =>
    if 2147483647 < i * step then none
    else if i * step < nc then count_blocks step nc fuel (i + 1) else some i

/-- The loop writing `milestones[i] = i * step`, then `milestones[i] = num_clauses`. -/
def fill_milestones (step nc : Nat) : Nat → Nat → List Int → Option (List Int)
  | 0, _, _ => none
  | fuel + 1, i, ms =>
    if 2147483647 < i * step then none
    else if i * step < nc then
      match wrN ms i ((i * step : Nat) : Int) with
      | none => none
      | some ms1 => fill_milestones step nc fuel (i + 1) ms1
    else wrN ms i (nc : Int)

/-- `initiate`.  `junk` is the content of freshly allocated `int` cells.  The
sizes `num_variables + 2`, `num_clauses + 1`, `2 * (num_variables + 1) + 1` and
`hold_size[i] + 1` are computed in `int`; when one of them exceeds `2147483647`
the computation overflows and `initiate` is undefined. -/
def initiate (junk : Int) (cnf : Cnf) (s : Solver) : Option Solver :=
  let nv := s.num_variables
  let nc := s.num_clauses
  if 2147483647 < nv + 2 ∨ 2147483647 < (nc : Int) + 1 ∨ 2147483647 < 2 * (nv + 1) + 1 then none
  else
  let solution := 's' :: (List.replicate nv.toNat '|' ++ ['\x00'])
  let constraints := List.replicate nc 'y' ++ ['\x00']
  match count_cnf nv cnf (List.replicate (2 * (nv + 1) + 1).toNat 0) with
  | none => none
  | some hold_size =>
    if ∃ n ∈ hold_size, 2147483647 < n + 1 then none
    else
    let hold0 := hold_size.map (fun n => (-1 : Int) :: List.replicate n.toNat junk)
    match fill_cnf nv cnf 0 hold0 with
    | none => none
    | some hold =>
      let step := if nc / MILESTONE_PARAM < 100 then 100 else nc / MILESTONE_PARAM
      match count_blocks step nc (nc + 1) 0 with
      | none => none
      | some b =>
        match fill_milestones step nc (nc + 1) 0 (List.replicate (b + 1) junk) with
        | none => none
        | some milestones =>
          some { s with solution := solution, constraints := constraints,
                        num_constraints := (nc : Int), hold_size := hold_size,
                        hold := hold, step := step, milestones := milestones }

/-! ## `find` -/

/-- `strchr` on the rest `cs` of a string whose first character has index `p`:
the index of the first `c`, or `none` when the terminator (or the end of the
allocation) comes first. -/
def strchr_from (c : Char) : List Char → Nat → Option Nat
  | [], _ => none
  | x :: xs, p => if x = c then some p else if x = '\x00' then none else strchr_from c xs (p + 1)

/-- `strchr(str + p, c) - str`; `none` for a null result or a start outside `str`. -/
def strchr (str : List Char) (p : Int) (c : Char) : Option Nat :=
  if 0 ≤ p ∧ p.toNat < str.length then strchr_from c (str.drop p.toNat) p.toNat else none

/-- The random-probe loop of `find`, with `n` trials left: the hit (if any) and
the number of draws consumed. -/
def probe (s : Solver) (rnd : Nat → Nat) : Nat → Nat → Option (Option Nat × Nat)
  | 0, p => some (none, p)
  | n + 1, p =>
    if s.num_clauses = 0 then none
    else
      match s.constraints[rnd p % s.num_clauses]? with
      | none => none
      | some c =>
        if c = 'y' then some (some (rnd p % s.num_clauses), p + 1)
        else probe s rnd n (p + 1)

/-- The boundary scan of `find`:
`while (j * step < num_clauses && milestones[j] <= r) j++`. -/
def find_scan (s : Solver) (r : Int) : Nat → Nat → Option Nat
  | 0, _ => none
  | fuel + 1, j =>
    if j * s.step < s.num_clauses then
      match s.milestones[j]? with
      | none => none
      | some m => if m ≤ r then find_scan s r fuel (j + 1) else some j
    else some j

/-- The loop `while (a <= r) { ret++; ret = strchr(ret, 'y'); a++; }` with `n`
iterations left; `ret` is kept as an offset into `constraints`. -/
def find_walk (cs : List Char) : Nat → Int → Option Int
  | 0, ret => some ret
  | n + 1, ret =>
    match strchr cs (ret + 1) 'y' with
    | none => none
    | some q => find_walk cs n (q : Int)

/-- The block-index part of `find` (from `j = 0` on). -/
def find_block (s : Solver) (r : Int) : Option Int :=
  match find_scan s r (s.num_clauses + 1) 0 with
  | none => none
  | some j =>
    match rd s.milestones ((j : Int) - 1) with
    | none => none
    | some a => find_walk s.constraints (r - a + 1).toNat (((j : Int) - 1) * (s.step : Int) - 1)

/-- `find`: the index returned and the number of draws consumed. -/
def find (s : Solver) (rnd : Nat → Nat) (p : Nat) (r : Int) : Option (Int × Nat) :=
  if s.num_constraints = 0 then none
  else if Int.tdiv (s.num_clauses : Int) s.num_constraints < (SAMPLE_PARAM : Int) then
    match probe s rnd SAMPLE_PARAM p with
    | none => none
    | some (some i, p1) => some ((i : Int), p1)
    | some (none, p1) =>
      match find_block s r with
      | none => none
      | some i => some (i, p1)
  else
    match find_block s r with
    | none => none
    | some i => some (i, p)

/-! ## `elect` -/

/-- The loop of `elect`: returns the final `buffer`, `a` and `j`. -/
def elect_scan (solution : List Char) :
    Clause → List Int → Nat → Nat → Option (List Int × Nat × Nat)
  | [], buf, a, j => some (buf, a, j)
  | l :: ls, buf, a, j =>
    match rd solution (abs l) with
    | none => none
    | some c =>
      if c = '|' then
        match wrN buf a l with
        | none => none
        | some buf1 =>
          match wrN buf1 (a + 1) 0 with
          | none => none
          | some buf2 => elect_scan solution ls buf2 (a + 1) (j + 1)
      else elect_scan solution ls buf a (j + 1)

/-- `elect`: the literal returned, the state (its `buffer` is written) and the
number of draws consumed. -/
def elect (s : Solver) (cnf : Cnf) (rnd : Nat → Nat) (p : Nat) (i : Int) :
    Option (Int × Solver × Nat) :=
  match rd cnf i with
  | none => none
  | some cl =>
    match wrN s.buffer 0 0 with
    | none => none
    | some buf0 =>
      match elect_scan s.solution cl buf0 0 0 with
      | none => none
      | some (buf, a, j) =>
        if a > 0 then
          match buf[rnd p % a]? with
          | none => none
          | some x => some (x, { s with buffer := buf }, p + 1)
        else if j = 0 then none
        else
          match cl[rnd p % j]? with
          | none => none
          | some x => some (x, { s with buffer := buf }, p + 1)

/-! ## `solve` -/

/-- The loop `while (row[k] >= 0) { extract(row[k]); k++; }` over the rest of
an occurrence row. -/
def extract_all : List Int → Solver → Option Solver
  | [], _ => none
  | e :: es, s =>
    if e ≥ 0 then
      match extract s e.toNat with
      | none => none
      | some (_, s1) => extract_all es s1
    else some s

/-- The loop `while (row[k] >= 0) { i = row[k];
if (constraints[i] == 'n' && is_solved(cnf, i) == 'F') insert(i); k++; }`. -/
def insert_all (cnf : Cnf) : List Int → Solver → Option Solver
  | [], _ => none
  | e :: es, s =>
    if e ≥ 0 then
      match s.constraints[e.toNat]? with
      | none => none
      | some c =>
        if c = 'n' then
          match is_solved s cnf e.toNat with
          | none => none
          | some r =>
            if r = 'F' then
              match insert s e.toNat with
              | none => none
              | some (_, s1) => insert_all cnf es s1
            else insert_all cnf es s
        else insert_all cnf es s
    else some s

/-- The body of the loop of `solve` after the literal `x` has been elected. -/
def move (cnf : Cnf) (s : Solver) (x : Int) : Option Solver :=
  match rd s.solution (abs x) with
  | none => none
  | some c =>
    if c = '|' then
      match wr s.solution (abs x) (if x > 0 then '}' else '{') with
      | none => none
      | some sol =>
        match rd s.hold (s.num_variables + x + 1) with
        | none => none
        | some row =>
          match extract_all row { s with solution := sol } with
          | none => none
          | some s1 =>
            match rd s1.hold (s1.num_variables - x + 1) with
            | none => none
            | some row1 => insert_all cnf row1 s1
    else
      match wr s.solution (abs x) '|' with
      | none => none
      | some sol =>
        match rd s.hold (s.num_variables + x + 1) with
        | none => none
        | some row =>
          match insert_all cnf row { s with solution := sol } with
          | none => none
          | some s1 =>
            match rd s1.hold (s1.num_variables - x + 1) with
            | none => none
            | some row1 => insert_all cnf row1 s1

/-- The literal elected in one iteration of the loop of `solve`, with the state
and draw count at that point. -/
def choose (cnf : Cnf) (rnd : Nat → Nat) (s : Solver) (p : Nat) :
    Option (Int × Solver × Nat) :=
  match find s rnd (p + 1) (Int.tmod (rnd p : Int) s.num_constraints) with
  | none => none
  | some (i, p1) => elect s cnf rnd p1 i

/-- One iteration of the loop of `solve` (entered with `num_constraints > 0`). -/
def solve_step (cnf : Cnf) (rnd : Nat → Nat) (s : Solver) (p : Nat) : Option (Solver × Nat) :=
  match choose cnf rnd s p with
  | none => none
  | some (x, s1, p1) =>
    match move cnf s1 x with
    | none => none
    | some s2 => some (s2, p1)

/-- The state of `solve` after `n` iterations of its loop, or its final state
when the loop exits earlier. -/
def solve_moves (cnf : Cnf) (rnd : Nat → Nat) : Nat → Solver → Nat → Option (Solver × Nat)
  | 0, s, p => some (s, p)
  | n + 1, s, p =>
    if s.num_constraints > 0 then
      match solve_step cnf rnd s p with
      | none => none
      | some (s1, p1) => solve_moves cnf rnd n s1 p1
    else some (s, p)

/-- The state in which `main` enters `solve`: `get_size` then `initiate`. -/
def start (junk : Int) (cnf : Cnf) : Option Solver :=
  initiate junk cnf (get_size cnf boot)

/-! ## Specification vocabulary -/

/-- The three states of a variable: Unassigned, True, False. -/
def valid_state (ch : Char) : Prop :=
  ch = '|' ∨ ch = '}' ∨ ch = '{'

/-- Literal `l` evaluates to true: its variable is assigned with the matching
polarity. -/
def lit_true (solution : List Char) (l : Int) : Prop :=
  (l > 0 ∧ rd solution (abs l) = some '}') ∨ (l < 0 ∧ rd solution (abs l) = some '{')

/-- Clause `c` is satisfied: one of its literals evaluates to true. -/
def satisfied (solution : List Char) (c : Clause) : Prop :=
  ∃ l ∈ c, lit_true solution l

/-- Number of active flags among the first `m` entries of `cs`. -/
def active_upto (cs : List Char) (m : Nat) : Nat :=
  (cs.take m).count 'y'

/-- Number of blocks: the least `j` with `j * step >= nc`. -/
def num_blocks (step nc : Nat) : Nat :=
  (nc + step - 1) / step

/-- The naive rank query of the specification: scan the flags from index `i`
on, counting active entries, and stop at the `r`-th one. -/
def select_naive : List Char → Nat → Nat → Option Nat
  | [], _, _ => none
  | x :: xs, i, r =>
    if x = 'y' then
      match r with
      | 0 => some i
      | r1 + 1 => select_naive xs (i + 1) r1
    else select_naive xs (i + 1) r

/-- The occurrence sequence of literal `l` in the clauses from index `i` on:
clause indices in database order, one entry per occurrence of `l`. -/
def occurrences_from (l : Int) : Cnf → Nat → List Nat
  | [], _ => []
  | c :: cs, i => List.replicate (c.count l) i ++ occurrences_from l cs (i + 1)

/-- The occurrence sequence of literal `l` in the database. -/
def occurrences (cnf : Cnf) (l : Int) : List Nat :=
  occurrences_from l cnf 0

/-- The literals of a clause whose variable is Unassigned, in clause order. -/
def unassigned_lits (solution : List Char) (c : Clause) : List Int :=
  c.filter (fun l => decide (rd solution (abs l) = some '|'))

/-- The database is well formed: no stored literal is the terminator `0`. -/
def well_formed (cnf : Cnf) : Prop :=
  ∀ c ∈ cnf, ∀ l ∈ c, l ≠ 0

/-- The database is within the sizes that the `int` arithmetic of `get_size` and
`initiate` can handle: there are at most `2000000000` clauses, so that no
product `i * step` overflows; the clauses hold fewer than `2147483647` literals
in total, so that no occurrence count overflows; and every literal has a
magnitude of at most `2^30 - 2 = 1073741822`, so that
`2 * (num_variables + 1) + 1` does not overflow. -/
def int_sized (cnf : Cnf) : Prop :=
  cnf.length ≤ 2000000000 ∧ (cnf.map List.length).sum < 2147483647 ∧
    ∀ c ∈ cnf, ∀ l ∈ c, -1073741822 ≤ l ∧ l ≤ 1073741822

/-- The sizes for which the `int` arithmetic of `initiate` does not overflow, and
the range of the literals it can index. -/
structure Fits (cnf : Cnf) (s : Solver) : Prop where
  size : 2 * (s.num_variables + 1) + 1 ≤ 2147483647
  count : (s.num_clauses : Int) + 1 ≤ 2147483647
  prod : num_blocks (if s.num_clauses / MILESTONE_PARAM < 100 then 100
      else s.num_clauses / MILESTONE_PARAM) s.num_clauses
    * (if s.num_clauses / MILESTONE_PARAM < 100 then 100
      else s.num_clauses / MILESTONE_PARAM) ≤ 2147483647
  lits : ∀ c ∈ cnf, ∀ l ∈ c, -s.num_variables - 1 ≤ l ∧ l ≤ s.num_variables + 1
  occ : ∀ m : Int, ((occurrences cnf m).length : Int) + 1 ≤ 2147483647

/-- An occurrence row holds the entries `A`, then the terminator `-1`, then
`room` further cells. -/
def row_ok (row : List Int) (A : List Nat) (room : Nat) : Prop :=
  ∃ rest, row = A.map (fun (i : Nat) => (i : Int)) ++ (-1 : Int) :: rest ∧ rest.length = room

/-- The membership array, the count and the block index agree. -/
structure ActiveOK (s : Solver) : Prop where
  step_pos : 0 < s.step
  len : s.constraints.length = s.num_clauses + 1
  flags : ∀ i, i < s.num_clauses → s.constraints[i]? = some 'y' ∨ s.constraints[i]? = some 'n'
  term : s.constraints[s.num_clauses]? = some '\x00'
  count : s.num_constraints = (active_upto s.constraints s.num_clauses : Int)
  marks : ∀ k, k ≤ num_blocks s.step s.num_clauses →
    s.milestones[k]? = some ((active_upto s.constraints (min (k * s.step) s.num_clauses) : Nat) : Int)

/-- The states reachable from `s0` by `insert` and `extract` calls on clause
indices. -/
inductive Reach (s0 : Solver) : Solver → Prop
  | init : Reach s0 s0
  | ins (s s1 : Solver) (i : Nat) (r : Char) :
      Reach s0 s → i < s.num_clauses → insert s i = some (r, s1) → Reach s0 s1
  | ext (s s1 : Solver) (i : Nat) (r : Char) :
      Reach s0 s → i < s.num_clauses → extract s i = some (r, s1) → Reach s0 s1

/-- The solver state is set up for the database `cnf`: sizes, assignment array,
occurrence index and election buffer. -/
structure Setup (cnf : Cnf) (s : Solver) : Prop where
  nc : s.num_clauses = cnf.length
  nv : 0 ≤ s.num_variables
  lits : ∀ c ∈ cnf, ∀ l ∈ c, 1 ≤ abs l ∧ abs l ≤ s.num_variables
  sol : ∀ v : Int, 1 ≤ v → v ≤ s.num_variables →
    ∃ ch, rd s.solution v = some ch ∧ valid_state ch
  occ : ∀ l : Int, l ≠ 0 → -s.num_variables ≤ l → l ≤ s.num_variables →
    ∃ rest, rd s.hold (s.num_variables + l + 1)
      = some ((occurrences cnf l).map (fun (i : Nat) => (i : Int)) ++ (-1 : Int) :: rest)
  buf : s.buffer.length = 69

/-- State `s1` differs from `s` at most in the ActiveSet (`constraints`,
`num_constraints`, `milestones`). -/
def same_frame (s s1 : Solver) : Prop :=
  s1.num_variables = s.num_variables ∧ s1.num_clauses = s.num_clauses ∧
    s1.hold_size = s.hold_size ∧ s1.hold = s.hold ∧ s1.solution = s.solution ∧
    s1.step = s.step ∧ s1.buffer = s.buffer

/-- The ActiveSet consistency invariant: clause `i` is flagged active exactly
when `is_solved` reports it unsatisfied. -/
def in_sync (cnf : Cnf) (s : Solver) : Prop :=
  ∀ i, i < s.num_clauses → (s.constraints[i]? = some 'y' ↔ is_solved s cnf i = some 'F')

/-! ## Example databases -/

/-- The single clause `(1 ∨ -2)`. -/
def single_clause : Cnf := [[1, -2]]

/-- The state in which `solve` is entered on `single_clause`. -/
def single_clause_start : Solver :=
  { num_variables := 2, num_clauses := 1, hold_size := [0, 1, 0, 0, 1, 0, 0],
    hold := [[-1], [0, -1], [-1], [-1], [0, -1], [-1], [-1]], num_constraints := 1,
    constraints := ['y', '\x00'], solution := ['s', '|', '|', '\x00'],
    milestones := [0, 1], step := 100, buffer := List.replicate 69 0 }

/-- The state of `solve` on `single_clause` after the move that assigns
variable 1 to True. -/
def single_clause_end : Solver :=
  { single_clause_start with
    num_constraints := 0, constraints := ['n', '\x00'], solution := ['s', '}', '|', '\x00'],
    milestones := [0, 0], buffer := 1 :: -2 :: List.replicate 67 0 }

/-- The two unit clauses `(1)` and `(-1)`. -/
def two_units : Cnf := [[1], [-1]]

/-- The state in which `solve` is entered on `two_units`. -/
def two_units_start : Solver :=
  { num_variables := 1, num_clauses := 2, hold_size := [0, 1, 0, 1, 0],
    hold := [[-1], [1, -1], [-1], [0, -1], [-1]], num_constraints := 2,
    constraints := ['y', 'y', '\x00'], solution := ['s', '|', '\x00'],
    milestones := [0, 2], step := 100, buffer := List.replicate 69 0 }

/-- `two_units_start` after `extract(0)`. -/
def two_units_mixed : Solver :=
  { two_units_start with
    num_constraints := 1, constraints := ['n', 'y', '\x00'], milestones := [0, 1] }

/-- One clause with the 69 literals `1, 2, ..., 69`. -/
def wide_clause : Cnf := [(List.range 69).map (fun (k : Nat) => (k : Int) + 1)]

/-- The writes of the loop of `elect`, as the list of `buffer` indices written
when the counter starts at `a`: `buffer[a]` and `buffer[a + 1]` for every
literal whose variable is Unassigned. -/
def elect_trace_scan (solution : List Char) : Clause → Nat → List Nat
  | [], _ => []
  | l :: ls, a =>
    if rd solution (abs l) = some '|' then a :: (a + 1) :: elect_trace_scan solution ls (a + 1)
    else elect_trace_scan solution ls a

/-- All `buffer` indices that `elect` writes for a clause: `buffer[0] = 0`
first, then the writes of its loop. -/
def elect_trace (solution : List Char) (cl : Clause) : List Nat :=
  0 :: elect_trace_scan solution cl 0

/-! ## The parser section

The input is the byte sequence handed to `parse_cnf`.  A `char *` into it is the
list of bytes from that position to the end of the input; reading `*data` at the
end of the input is outside the buffer and makes the function return `none`.
`isdigit`, `isblank`, `isspace` and `strtol` are the C library functions in the
"C" locale, with a 64-bit `long` and a 32-bit `int`.  Allocation is assumed to
succeed, except for a request computed from a negative element count. -/

/-- `isdigit`. -/
def isdigit (ch : Char) : Bool :=
  decide (48 ≤ ch.toNat ∧ ch.toNat ≤ 57)

/-- `isblank`: space and horizontal tab. -/
def isblank (ch : Char) : Bool :=
  decide (ch = ' ' ∨ ch = '\t')

/-- `isspace`: space, `\t`, `\n`, `\v`, `\f`, `\r`. -/
def isspace (ch : Char) : Bool :=
  decide (ch = ' ' ∨ ch = '\t' ∨ ch = '\n' ∨ ch = '\x0b' ∨ ch = '\x0c' ∨ ch = '\r')

/-- The conversion of a `long` to `int` by the cast `(int)`: reduction modulo
`2^32` into the range of `int`. -/
def to_int (v : Int) : Int :=
  (v + 2147483648) % 4294967296 - 2147483648

/-- The value `strtol` returns for the mathematical value `v`: clamped to the
range of `long`. -/
def clamp_long (v : Int) : Int :=
  if v > 9223372036854775807 then 9223372036854775807
  else if v < -9223372036854775808 then -9223372036854775808
  else v

/-- The loop `while (isspace(*s)) s++` at the start of `strtol`. -/
def skip_space : List Char → Option (List Char)
  | [] => none
  | ch :: rest => if isspace ch then skip_space rest else some (ch :: rest)

/-- The digit loop of `strtol`: accumulates the decimal value, returns it with
the first position that holds no digit. -/
def read_digits : List Char → Nat → Option (Nat × List Char)
  | [], _ => none
  | ch :: rest, acc =>
    if isdigit ch then read_digits rest (acc * 10 + (ch.toNat - 48)) else some (acc, ch :: rest)

/-- `strtol(s, &end, 10)`: the value and `end`.  Without a digit after the
optional sign no conversion is performed: the value is `0` and `end` is `s`. -/
def strtol (s : List Char) : Option (Int × List Char) :=
  match skip_space s with
  | none => none
  | some [] => none
  | some (ch :: rest) =>
    match (if ch = '-' ∨ ch = '+' then rest else ch :: rest) with
    | [] => none
    | d :: body =>
      if isdigit d then
        match read_digits (d :: body) 0 with
        | none => none
        | some (n, rest1) =>
          some (clamp_long (if ch = '-' then -(n : Int) else (n : Int)), rest1)
      else some (0, s)

/-- The inner loop of `skip_comments_line`: `while (**data != '\n') *data += 1`. -/
def skip_line : List Char → Option (List Char)
  | [] => none
  | ch :: rest => if ch = '\n' then some (ch :: rest) else skip_line rest

/-- `skip_comments_line`. -/
def skip_comments_line : Nat → List Char → Option (List Char)
  | 0, _ => none
  | _ + 1, [] => none
  | fuel + 1, ch :: rest =>
    if ch = 'c' ∨ ch = '%' ∨ ch = '\n' then
      match skip_line (ch :: rest) with
      | none => none
      | some [] => none
      | some (_ :: rest1) => skip_comments_line fuel rest1
    else some (ch :: rest)

/-- The loop `while (isdigit(**data)) *data += 1`. -/
def skip_digits : List Char → Option (List Char)
  | [] => none
  | ch :: rest => if isdigit ch then skip_digits rest else some (ch :: rest)

/-- The loop `while (isblank(**data)) *data += 1`. -/
def skip_blanks : List Char → Option (List Char)
  | [] => none
  | ch :: rest => if isblank ch then skip_blanks rest else some (ch :: rest)

/-- The loop `while (!isdigit(*data)) data += 1`. -/
def skip_nondigits : List Char → Option (List Char)
  | [] => none
  | ch :: rest => if isdigit ch then some (ch :: rest) else skip_nondigits rest

/-- `get_line_length`, started with counter `num`: the count and the new
`*data`. -/
def get_line_length : Nat → List Char → Nat → Option (Nat × List Char)
  | 0, _, _ => none
  | _ + 1, [], _ => none
  | fuel + 1, ch :: rest, num =>
    if ch ≠ '0' then
      match skip_digits rest with
      | none => none
      | some d1 =>
        match skip_blanks d1 with
        | none => none
        | some d2 => get_line_length fuel d2 (num + 1)
    else
      match rest with
      | [] => none
      | _ :: rest2 => some (num, rest2)

/-- The loop `for (p = 0; *line != '\n'; p += 1)` of `parse_cnf` that stores the
values of one line into `array[k]`. -/
def map_values : Nat → List Char → Nat → List Int → Option (List Int)
  | 0, _, _, _ => none
  | _ + 1, [], _, _ => none
  | fuel + 1, ch :: rest, p, row =>
    if ch ≠ '\n' then
      match strtol (ch :: rest) with
      | none => none
      | some (v, line1) =>
        match wrN row p (to_int v) with
        | none => none
        | some row1 =>
          if to_int v = 0 then some row1
          else
            match line1 with
            | [] => none
            | _ :: line2 => map_values fuel line2 (p + 1) row1
    else some row

/-- One cell of the array of clause pointers: not yet written, the null
pointer, or a pointer to an allocated row of `int`. -/
inductive Cell where
  | junk : Cell
  | null : Cell
  | row : List Int → Cell
  deriving DecidableEq, Repr

/-- The result of `parse_cnf`: `NULL` or the array it allocated. -/
inductive Loaded where
  | null : Loaded
  | array : List Cell → Loaded
  deriving DecidableEq, Repr

/-- The loop `for (int k = 0; k < column_number;)` of `parse_cnf`. -/
def parse_lines (junk : Int) (column_number : Int) :
    Nat → List Char → Nat → List Cell → Option (List Cell)
  | 0, _, _, _ => none
  | fuel + 1, data, k, array =>
    if (k : Int) < column_number then
      match skip_comments_line (data.length + 1) data with
      | none => none
      | some line =>
        match get_line_length (line.length + 1) line 0 with
        | none => none
        | some (n, data1) =>
          if n > 0 then
            match map_values (line.length + 1) line 0 (List.replicate (n + 1) junk) with
            | none => none
            | some row =>
              match wrN array k (Cell.row row) with
              | none => none
              | some array1 =>
                if ((k + 1 : Nat) : Int) = column_number then wrN array1 (k + 1) Cell.null
                else parse_lines junk column_number fuel data1 (k + 1) array1
          else parse_lines junk column_number fuel data1 k array
    else some array

/-- `parse_cnf`.  `junk` is the content of freshly allocated `int` cells. -/
def parse_cnf (junk : Int) (data : List Char) : Option Loaded :=
  match skip_comments_line (data.length + 1) data with
  | none => none
  | some [] => none
  | some (ch :: rest) =>
    if ch ≠ 'p' then some Loaded.null
    else
      match skip_nondigits (ch :: rest) with
      | none => none
      | some d1 =>
        match skip_digits d1 with
        | none => none
        | some d2 =>
          match skip_nondigits d2 with
          | none => none
          | some d3 =>
            match strtol d3 with
            | none => none
            | some (v, d4) =>
              match d4 with
              | [] => none
              | _ :: d5 =>
                if to_int v = 2147483647 then none
                else if to_int v + 1 < 0 then some Loaded.null
                else
                  match parse_lines junk (to_int v) (d5.length + 1) d5 0
                      (List.replicate (to_int v + 1).toNat Cell.junk) with
                  | none => none
                  | some array => some (Loaded.array array)

/-- What `main` does with the result of the load. -/
inductive Action where
  | print_invalid : Action
  | run_solver : List Cell → Action
  deriving DecidableEq, Repr

/-- The branch at the start of `main`: on `NULL` it prints `Invalid` and
returns; otherwise it goes on to `get_size`, `initiate` and `solve`. -/
def main_action (r : Loaded) : Action :=
  match r with
  | Loaded.null => Action.print_invalid
  | Loaded.array a => Action.run_solver a

/-- The clause stored in a row: the entries before the first `0`; `none` when
the row holds no `0`. -/
def decode_row : List Int → Option Clause
  | [] => none
  | v :: vs =>
    if v = 0 then some []
    else
      match decode_row vs with
      | none => none
      | some cl => some (v :: cl)

/-- The database stored in the array: the clauses before the first null
pointer; `none` when a cell read on the way was never written. -/
def decode_cells : List Cell → Option Cnf
  | [] => none
  | Cell.junk :: _ => none
  | Cell.null :: _ => some []
  | Cell.row r :: cells =>
    match decode_row r with
    | none => none
    | some cl =>
      match decode_cells cells with
      | none => none
      | some cnf => some (cl :: cnf)

/-! ## Well-formed input, as text -/

/-- The value of a string of decimal digits. -/
def decimal (ds : List Char) : Nat :=
  ds.foldl (fun acc ch => acc * 10 + (ch.toNat - 48)) 0

/-- The text of a sequence of comment lines, each with its newline. -/
def comments_text : List (List Char) → List Char
  | [] => []
  | l :: ls => l ++ '\n' :: comments_text ls

/-- A comment line (given without its newline): empty, or starting with `c` or
`%`. -/
def comment_ok (l : List Char) : Prop :=
  '\n' ∉ l ∧ (l = [] ∨ l.head? = some 'c' ∨ l.head? = some '%')

/-- One integer of a clause line as written: an optional sign, a leading digit,
further digits, and the blanks that follow it. -/
structure Token where
  sign : List Char
  first : Char
  more : List Char
  sep : List Char
  deriving DecidableEq, Repr

/-- The characters of a token. -/
def Token.text (t : Token) : List Char :=
  t.sign ++ t.first :: (t.more ++ t.sep)

/-- The integer a token denotes. -/
def Token.value (t : Token) : Int :=
  if t.sign = ['-'] then -(decimal (t.first :: t.more) : Int)
  else (decimal (t.first :: t.more) : Int)

/-- A token is a nonzero decimal integer within the range of `int`, written
with an optional sign and, when it has no sign, without leading zero, and
followed by at least one blank. -/
def Token.ok (t : Token) : Prop :=
  (t.sign = [] ∨ t.sign = ['-'] ∨ t.sign = ['+']) ∧
    isdigit t.first = true ∧ (t.sign = [] → t.first ≠ '0') ∧
    (∀ ch ∈ t.more, isdigit ch = true) ∧
    t.sep ≠ [] ∧ (∀ ch ∈ t.sep, isblank ch = true) ∧
    t.value ≠ 0 ∧ -2147483648 ≤ t.value ∧ t.value ≤ 2147483647

/-- The text of a sequence of tokens. -/
def tokens_text : List Token → List Char
  | [] => []
  | t :: ts => t.text ++ tokens_text ts

/-- A clause line with the comment lines that precede it. -/
structure ClauseLine where
  comments : List (List Char)
  tokens : List Token
  deriving DecidableEq, Repr

/-- The text of a clause line: its comments, its tokens, `0` and the newline. -/
def ClauseLine.text (l : ClauseLine) : List Char :=
  comments_text l.comments ++ (tokens_text l.tokens ++ ['0', '\n'])

/-- A clause line is well formed. -/
def ClauseLine.ok (l : ClauseLine) : Prop :=
  (∀ c ∈ l.comments, comment_ok c) ∧ l.tokens ≠ [] ∧ ∀ t ∈ l.tokens, t.ok

/-- The integers of a clause line. -/
def ClauseLine.values (l : ClauseLine) : List Int :=
  l.tokens.map Token.value

/-- The text of a sequence of clause lines. -/
def lines_text : List ClauseLine → List Char
  | [] => []
  | l :: ls => l.text ++ lines_text ls

/-- The text of a whole input: comment lines; the header line, made of `p`, the
characters `w1` (as ` cnf `), the digits `V`, the characters `w2` (blanks), the
digits `C` and a newline; the clause lines; and whatever follows them. -/
def cnf_text (pre : List (List Char)) (w1 V w2 C : List Char) (lines : List ClauseLine)
    (trailer : List Char) : List Char :=
  comments_text pre ++
    ('p' :: (w1 ++ (V ++ (w2 ++ (C ++ '\n' :: (lines_text lines ++ trailer))))))

instance comment_ok_decidable (l : List Char) : Decidable (comment_ok l) := by
  unfold comment_ok; infer_instance

instance token_ok_decidable (t : Token) : Decidable t.ok := by
  unfold Token.ok; infer_instance

instance line_ok_decidable (l : ClauseLine) : Decidable l.ok := by
  unfold ClauseLine.ok; infer_instance

/-! ## Example inputs -/

/-- An input without header: its first line starts with `x`. -/
def headless_input : List Char := "c demo\nx cnf 3 2\n1 -2 0\n".toList

/-- An input whose only clause line holds the token `x`. -/
def stray_token_input : List Char := "p cnf 2 1\n1 x 2 0\n".toList

/-- A clause line holding the single literal `2147483648`. -/
def wide_literal_line : ClauseLine :=
  ⟨[], [⟨[], '2', "147483648".toList, [' ']⟩]⟩

/-- The input `p cnf 1 1`, then the line `2147483648 0`. -/
def wide_literal_input : List Char :=
  cnf_text [] [' ', 'c', 'n', 'f', ' '] ['1'] [' '] ['1'] [wide_literal_line] []

/-- Two clause lines: `1 -02 0`, and after an empty line and a comment `+3 0`. -/
def sample_lines : List ClauseLine :=
  [⟨[], [⟨[], '1', [], [' ']⟩, ⟨['-'], '0', ['2'], [' ', '\t']⟩]⟩,
   ⟨[[], "c next".toList], [⟨['+'], '3', [], [' ']⟩]⟩]

/-- A well-formed input with comments before the header, blanks of several
kinds in the header, and a comment after the clauses. -/
def sample_input : List Char :=
  cnf_text ["c demo".toList, "% note".toList] [' ', 'c', 'n', 'f', ' ', ' '] ['3'] ['\t', ' ']
    ['0', '2'] sample_lines "c end\n".toList

/-- A well-formed input that announces no clause. -/
def empty_input : List Char :=
  cnf_text [] [' ', 'c', 'n', 'f', ' '] ['3'] [' '] ['0'] [] []

/-! ## Lemmas: memory and arithmetic -/

theorem rd_natCast {α : Type} (xs : List α) (i : Nat) : rd xs (i : Int) = xs[i]? := by
  simp [rd]

theorem rd_some {α : Type} {xs : List α} {i : Int} {v : α} (h : rd xs i = some v) :
    0 ≤ i ∧ xs[i.toNat]? = some v := by
  unfold rd at h
  split at h
  · exact ⟨by assumption, h⟩
  · cases h

theorem rd_of_nonneg {α : Type} (xs : List α) {i : Int} (h : 0 ≤ i) : rd xs i = xs[i.toNat]? := by
  simp [rd, h]

theorem wr_some {α : Type} {xs ys : List α} {i : Int} {v : α} (h : wr xs i v = some ys) :
    0 ≤ i ∧ i.toNat < xs.length ∧ ys = xs.set i.toNat v := by
  unfold wr at h
  split at h
  · rename_i hc
    exact ⟨hc.1, hc.2, by simpa using h.symm⟩
  · cases h

theorem wrN_some {α : Type} {xs ys : List α} {i : Nat} {v : α} (h : wrN xs i v = some ys) :
    i < xs.length ∧ ys = xs.set i v := by
  unfold wrN at h
  split at h
  · rename_i hc
    exact ⟨hc, by simpa using h.symm⟩
  · cases h

theorem abs_nonneg {x : Int} (h : x ≠ -2147483648) : 0 ≤ abs x := by
  unfold abs negate; split_ifs <;> omega

theorem abs_eq_natAbs {x : Int} (h : x ≠ -2147483648) : abs x = (x.natAbs : Int) := by
  unfold abs negate; split_ifs <;> omega

theorem abs_min : abs (-2147483648) = -2147483648 := by
  decide

/-- A value with `1 ≤ abs x` is a nonzero `x` other than `-2147483648`, and
`abs x` is its magnitude. -/
theorem abs_cases {x : Int} (h : 1 ≤ abs x) :
    (0 < x ∧ abs x = x) ∨ (x < 0 ∧ x ≠ -2147483648 ∧ abs x = -x) := by
  unfold abs negate at h ⊢; split_ifs at h ⊢ <;> omega

theorem abs_pos_of {x : Int} (h0 : x ≠ 0) (h : x ≠ -2147483648) : 1 ≤ abs x := by
  unfold abs negate; split_ifs <;> omega

theorem abs_eq_zero {x : Int} : abs x = 0 ↔ x = 0 := by
  unfold abs negate; split_ifs <;> omega

/-! ### get_size -/

theorem get_size_clause_mono (c : Clause) (size : Int) : size ≤ get_size_clause c size := by
  induction c generalizing size with
  | nil => simp [get_size_clause]
  | cons l ls ih =>
    simp only [get_size_clause]
    refine le_trans ?_ (ih _)
    split <;> split <;> omega

theorem get_size_clause_bound (c : Clause) (size : Int) :
    ∀ l ∈ c, abs l ≤ get_size_clause c size := by
  induction c generalizing size with
  | nil => simp
  | cons l ls ih =>
    intro x hx
    simp only [get_size_clause]
    rcases List.mem_cons.1 hx with rfl | hx
    · refine le_trans ?_ (get_size_clause_mono ls _)
      unfold abs negate
      split_ifs <;> omega
    · exact ih _ x hx

theorem get_size_clause_attained (c : Clause) (size : Int) :
    get_size_clause c size = size ∨ ∃ l ∈ c, abs l = get_size_clause c size := by
  induction c generalizing size with
  | nil => simp [get_size_clause]
  | cons l ls ih =>
    simp only [get_size_clause]
    have key : (if negate l > (if l > size then l else size) then negate l
          else (if l > size then l else size))
        = size ∨ abs l
        = (if negate l > (if l > size then l else size) then negate l
          else (if l > size then l else size)) := by
      unfold abs negate
      split_ifs <;> omega
    rcases ih (if negate l > (if l > size then l else size) then negate l
        else (if l > size then l else size))
      with h | ⟨x, hx, hxe⟩
    · rw [h]
      rcases key with k | k
      · left; exact k
      · right; exact ⟨l, List.mem_cons_self _ _, k⟩
    · right; exact ⟨x, List.mem_cons_of_mem _ hx, hxe⟩

theorem get_size_loop_count (cnf : Cnf) (size : Int) (i : Nat) :
    (get_size_loop cnf size i).2 = i + cnf.length := by
  induction cnf generalizing size i with
  | nil => simp [get_size_loop]
  | cons c cs ih => simp only [get_size_loop, ih, List.length_cons]; omega

theorem get_size_loop_mono (cnf : Cnf) (size : Int) (i : Nat) :
    size ≤ (get_size_loop cnf size i).1 := by
  induction cnf generalizing size i with
  | nil => simp [get_size_loop]
  | cons c cs ih =>
    simp only [get_size_loop]
    exact le_trans (get_size_clause_mono c size) (ih _ _)

theorem get_size_loop_bound (cnf : Cnf) (size : Int) (i : Nat) :
    ∀ c ∈ cnf, ∀ l ∈ c, abs l ≤ (get_size_loop cnf size i).1 := by
  induction cnf generalizing size i with
  | nil => simp
  | cons c cs ih =>
    intro d hd l hl
    simp only [get_size_loop]
    rcases List.mem_cons.1 hd with rfl | hd
    · exact le_trans (get_size_clause_bound _ size l hl) (get_size_loop_mono _ _ _)
    · exact ih _ _ d hd l hl

theorem get_size_loop_attained (cnf : Cnf) (size : Int) (i : Nat) :
    (get_size_loop cnf size i).1 = size ∨
      ∃ c ∈ cnf, ∃ l ∈ c, abs l = (get_size_loop cnf size i).1 := by
  induction cnf generalizing size i with
  | nil => simp [get_size_loop]
  | cons c cs ih =>
    simp only [get_size_loop]
    rcases ih (get_size_clause c size) (i + 1) with h | ⟨d, hd, l, hl, hle⟩
    · rw [h]
      rcases get_size_clause_attained c size with h1 | ⟨l, hl, hle⟩
      · left; exact h1
      · right; exact ⟨c, List.mem_cons_self _ _, l, hl, hle⟩
    · right; exact ⟨d, List.mem_cons_of_mem _ hd, l, hl, hle⟩

/-! ### is_solved and verify -/

theorem lit_test {l : Int} {ch : Char} (hv : valid_state ch) :
    (l * ((ch.toNat : Int) - ('|'.toNat : Int)) ≤ 0) ↔
      ¬ ((l > 0 ∧ ch = '}') ∨ (l < 0 ∧ ch = '{')) := by
  have h1 : ('|'.toNat : Int) = 124 := by decide
  have h2 : ('}'.toNat : Int) = 125 := by decide
  have h3 : ('{'.toNat : Int) = 123 := by decide
  rcases hv with rfl | rfl | rfl
  · rw [h1]
    have e1 : ('|' : Char) ≠ '}' := by decide
    have e2 : ('|' : Char) ≠ '{' := by decide
    simp [e1, e2]
  · rw [h1, h2]
    have e2 : ('}' : Char) ≠ '{' := by decide
    simp [e2]
  · rw [h1, h3]
    have e2 : ('{' : Char) ≠ '}' := by decide
    simp [e2]

theorem lit_true_iff {sol : List Char} {l : Int} {ch : Char}
    (h : rd sol (abs l) = some ch) :
    lit_true sol l ↔ ((l > 0 ∧ ch = '}') ∨ (l < 0 ∧ ch = '{')) := by
  unfold lit_true
  rw [h]
  simp

theorem is_solved_scan_cases (sol : List Char) (c : Clause)
    (hv : ∀ l ∈ c, ∃ ch, rd sol (abs l) = some ch ∧ valid_state ch) :
    (satisfied sol c ∧ is_solved_scan sol c = some 'T') ∨
      (¬ satisfied sol c ∧ is_solved_scan sol c = some 'F') := by
  induction c with
  | nil => right; simp [satisfied, is_solved_scan]
  | cons l ls ih =>
    obtain ⟨ch, hch, hvs⟩ := hv l (List.mem_cons_self _ _)
    have ih1 := ih (fun x hx => hv x (List.mem_cons_of_mem _ hx))
    simp only [is_solved_scan, hch]
    by_cases ht : l * ((ch.toNat : Int) - ('|'.toNat : Int)) ≤ 0
    · rw [if_pos ht]
      have hnl : ¬ lit_true sol l := by
        rw [lit_true_iff hch]; exact (lit_test hvs).1 ht
      rcases ih1 with ⟨hs, he⟩ | ⟨hs, he⟩
      · left
        obtain ⟨x, hx, hxt⟩ := hs
        exact ⟨⟨x, List.mem_cons_of_mem _ hx, hxt⟩, he⟩
      · right
        refine ⟨?_, he⟩
        rintro ⟨x, hx, hxt⟩
        rcases List.mem_cons.1 hx with rfl | hx
        · exact hnl hxt
        · exact hs ⟨x, hx, hxt⟩
    · rw [if_neg ht]
      left
      refine ⟨⟨l, List.mem_cons_self _ _, ?_⟩, rfl⟩
      rw [lit_true_iff hch]
      by_contra hc
      exact ht ((lit_test hvs).2 hc)

theorem is_solved_scan_T (sol : List Char) (c : Clause)
    (hv : ∀ l ∈ c, ∃ ch, rd sol (abs l) = some ch ∧ valid_state ch) :
    is_solved_scan sol c = some 'T' ↔ satisfied sol c := by
  rcases is_solved_scan_cases sol c hv with ⟨hs, he⟩ | ⟨hs, he⟩
  · simp [hs, he]
  · rw [he]; simp [hs]

theorem is_solved_scan_F (sol : List Char) (c : Clause)
    (hv : ∀ l ∈ c, ∃ ch, rd sol (abs l) = some ch ∧ valid_state ch) :
    is_solved_scan sol c = some 'F' ↔ ¬ satisfied sol c := by
  rcases is_solved_scan_cases sol c hv with ⟨hs, he⟩ | ⟨hs, he⟩
  · rw [he]; simp [hs]
  · simp [hs, he]

theorem verify_from_spec (s : Solver) (cnf : Cnf)
    (hv : ∀ c ∈ cnf, ∀ l ∈ c, ∃ ch, rd s.solution (abs l) = some ch ∧ valid_state ch)
    (rest : Cnf) (i : Nat) (hrest : rest = cnf.drop i) :
    (verify_from s cnf rest i = some 1 ∧ ∀ c ∈ rest, satisfied s.solution c) ∨
      (verify_from s cnf rest i = some 0 ∧ ∃ c ∈ rest, ¬ satisfied s.solution c) := by
  induction rest generalizing i with
  | nil => left; simp [verify_from]
  | cons c cs ih =>
    have hi : cnf[i]? = some c := by
      have := congrArg List.head? hrest
      simpa [List.head?_drop] using this.symm
    have hc : c ∈ cnf := List.mem_iff_getElem?.2 ⟨i, hi⟩
    have hcs : cs = cnf.drop (i + 1) := by
      have := congrArg List.tail hrest
      simpa [List.tail_drop] using this
    simp only [verify_from, is_solved, hi]
    rcases is_solved_scan_cases s.solution c (hv c hc) with ⟨hs, he⟩ | ⟨hs, he⟩
    · rw [he]
      have : ('T' : Char) ≠ 'F' := by decide
      simp only [this, if_false]
      rcases ih (i + 1) hcs with ⟨h1, h2⟩ | ⟨h1, d, hd, h2⟩
      · left
        refine ⟨h1, ?_⟩
        intro d hd
        rcases List.mem_cons.1 hd with rfl | hd
        · exact hs
        · exact h2 d hd
      · right
        exact ⟨h1, d, List.mem_cons_of_mem _ hd, h2⟩
    · rw [he]
      right
      exact ⟨by simp, c, List.mem_cons_self _ _, hs⟩

/-! ### Blocks -/

theorem lt_num_blocks {step : Nat} (hs : 0 < step) (nc j : Nat) :
    j * step < nc ↔ j < num_blocks step nc := by
  unfold num_blocks
  have h := Nat.le_div_iff_mul_le hs (x := j + 1) (y := nc + step - 1)
  have e : (j + 1) * step = j * step + step := by ring
  constructor
  · intro hlt
    have := h.2 (by rw [e]; omega)
    omega
  · intro hlt
    have := h.1 (by omega)
    rw [e] at this
    omega

theorem block_after_spec {step : Nat} (hs : 0 < step) (i : Nat) :
    ∀ fuel j, j ≤ i / step + 1 → i / step + 1 - j < fuel →
      block_after step i fuel j = some (i / step + 1) := by
  intro fuel
  induction fuel with
  | zero => intro j _ h; omega
  | succ fuel ih =>
    intro j hj hf
    simp only [block_after]
    by_cases hc : j * step ≤ i
    · rw [if_pos hc]
      have : j ≤ i / step := (Nat.le_div_iff_mul_le hs).2 hc
      exact ih (j + 1) (by omega) (by omega)
    · rw [if_neg hc]
      have : ¬ j ≤ i / step := fun h => hc ((Nat.le_div_iff_mul_le hs).1 h)
      congr 1
      omega

theorem block_after_start {step : Nat} (hs : 0 < step) (i : Nat) :
    block_after step i (i + 2) 0 = some (i / step + 1) := by
  have hq : i / step ≤ i := Nat.div_le_self _ _
  apply block_after_spec hs
  · exact Nat.zero_le _
  · generalize i / step = q at hq
    omega

theorem bump_spec (d : Int) {step : Nat} (hs : 0 < step) (nc : Nat) :
    ∀ fuel j (ms : List Int), j ≤ num_blocks step nc → num_blocks step nc - j < fuel →
      num_blocks step nc < ms.length →
      ∃ ms1, bump d step nc fuel j ms = some ms1 ∧ ms1.length = ms.length ∧
        ∀ k, ms1[k]? = if j ≤ k ∧ k ≤ num_blocks step nc then (ms[k]?).map (fun v => v + d)
                        else ms[k]? := by
  intro fuel
  induction fuel with
  | zero => intro j ms _ h; omega
  | succ fuel ih =>
    intro j ms hj hf hlen
    have hjl : j < ms.length := by omega
    have hget : ms[j]? = some ms[j] := List.getElem?_eq_getElem hjl
    simp only [bump, hget]
    by_cases hc : j * step < nc
    · rw [if_pos hc]
      have hjb : j < num_blocks step nc := (lt_num_blocks hs nc j).1 hc
      obtain ⟨ms1, h1, h2, h3⟩ := ih (j + 1) (ms.set j (ms[j] + d)) (by omega) (by omega)
        (by rw [List.length_set]; exact hlen)
      refine ⟨ms1, h1, by rw [h2, List.length_set], ?_⟩
      intro k
      rw [h3 k, List.getElem?_set]
      by_cases hk : j = k
      · subst hk
        have n1 : ¬ (j + 1 ≤ j ∧ j ≤ num_blocks step nc) := by omega
        have n2 : (j ≤ j ∧ j ≤ num_blocks step nc) := ⟨le_refl _, hj⟩
        rw [if_neg n1, if_pos rfl, if_pos hjl, if_pos n2, hget]
        rfl
      · rw [if_neg hk]
        by_cases hr : j ≤ k ∧ k ≤ num_blocks step nc
        · have hr1 : j + 1 ≤ k ∧ k ≤ num_blocks step nc := by omega
          rw [if_pos hr, if_pos hr1]
        · have hr1 : ¬ (j + 1 ≤ k ∧ k ≤ num_blocks step nc) := by omega
          rw [if_neg hr, if_neg hr1]
    · rw [if_neg hc]
      have hjb : ¬ j < num_blocks step nc := fun h => hc ((lt_num_blocks hs nc j).2 h)
      have hje : j = num_blocks step nc := by omega
      refine ⟨_, rfl, by rw [List.length_set], ?_⟩
      intro k
      rw [List.getElem?_set]
      by_cases hk : j = k
      · subst hk
        have n2 : (j ≤ j ∧ j ≤ num_blocks step nc) := ⟨le_refl _, hj⟩
        rw [if_pos rfl, if_pos hjl, if_pos n2, hget]
        rfl
      · have hr : ¬ (j ≤ k ∧ k ≤ num_blocks step nc) := by omega
        rw [if_neg hk, if_neg hr]

/-! ### Counting active flags -/

theorem active_upto_set (cs : List Char) (i m : Nat) (old new : Char)
    (h : cs[i]? = some old) :
    (active_upto (cs.set i new) m : Int) = (active_upto cs m : Int) +
      (if i < m then (if new = 'y' then 1 else 0) - (if old = 'y' then 1 else 0) else 0) := by
  unfold active_upto
  induction cs generalizing i m with
  | nil => simp at h
  | cons x xs ih =>
    cases m with
    | zero => simp
    | succ m =>
      cases i with
      | zero =>
        simp at h
        subst h
        simp [List.count_cons]
      | succ i =>
        simp at h
        have := ih i m h
        simp [List.count_cons] at this ⊢
        split <;> omega

theorem set_same {α : Type} (xs : List α) (i : Nat) (v : α) (h : xs[i]? = some v) :
    xs.set i v = xs := by
  apply List.ext_getElem?
  intro k
  rw [List.getElem?_set]
  by_cases hk : i = k
  · subst hk
    have hl : i < xs.length := by
      rcases List.getElem?_eq_some.1 h with ⟨hl, _⟩
      exact hl
    simp [hl, h]
  · simp [hk]

theorem active_upto_le (cs : List Char) (m : Nat) : active_upto cs m ≤ m := by
  unfold active_upto
  exact le_trans (List.count_le_length _ _) (by simp)

/-! ### insert and extract -/

theorem insert_frame {s s1 : Solver} {i : Nat} {r : Char} (h : insert s i = some (r, s1)) :
    s1.num_variables = s.num_variables ∧ s1.num_clauses = s.num_clauses ∧
      s1.hold_size = s.hold_size ∧ s1.hold = s.hold ∧ s1.solution = s.solution ∧
      s1.step = s.step ∧ s1.buffer = s.buffer := by
  unfold insert at h
  split at h
  · cases h
  · split at h
    · simp only [Option.some.injEq, Prod.mk.injEq] at h
      obtain ⟨_, rfl⟩ := h
      simp
    · split at h
      · cases h
      · split at h
        · cases h
        · simp only [Option.some.injEq, Prod.mk.injEq] at h
          obtain ⟨_, rfl⟩ := h
          simp

theorem extract_frame {s s1 : Solver} {i : Nat} {r : Char} (h : extract s i = some (r, s1)) :
    s1.num_variables = s.num_variables ∧ s1.num_clauses = s.num_clauses ∧
      s1.hold_size = s.hold_size ∧ s1.hold = s.hold ∧ s1.solution = s.solution ∧
      s1.step = s.step ∧ s1.buffer = s.buffer := by
  unfold extract at h
  split at h
  · cases h
  · split at h
    · simp only [Option.some.injEq, Prod.mk.injEq] at h
      obtain ⟨_, rfl⟩ := h
      simp
    · split at h
      · cases h
      · split at h
        · cases h
        · simp only [Option.some.injEq, Prod.mk.injEq] at h
          obtain ⟨_, rfl⟩ := h
          simp

/-- Flipping one flag and shifting the later boundaries keeps the index
consistent. -/
theorem activeOK_flip {s s1 : Solver} (ok : ActiveOK s) {i : Nat} (hi : i < s.num_clauses)
    {old new : Char} {d : Int} (hold : s.constraints[i]? = some old)
    (hnew : new = 'y' ∨ new = 'n')
    (hd : d = (if new = 'y' then 1 else 0) - (if old = 'y' then 1 else 0))
    (hstep : s1.step = s.step) (hnc : s1.num_clauses = s.num_clauses)
    (hcs : s1.constraints = s.constraints.set i new)
    (hcount : s1.num_constraints = s.num_constraints + d)
    (hms : ∀ k, s1.milestones[k]? =
      if i / s.step + 1 ≤ k ∧ k ≤ num_blocks s.step s.num_clauses
      then (s.milestones[k]?).map (fun v => v + d) else s.milestones[k]?) :
    ActiveOK s1 := by
  have hlen := ok.len
  refine ⟨by rw [hstep]; exact ok.step_pos, by rw [hcs, hnc, List.length_set]; exact ok.len,
    ?_, ?_, ?_, ?_⟩
  · intro k hk
    rw [hnc] at hk
    rw [hcs, List.getElem?_set]
    by_cases e : i = k
    · have : i < s.constraints.length := by omega
      rw [if_pos e, if_pos this]
      rcases hnew with rfl | rfl <;> simp
    · rw [if_neg e]; exact ok.flags k hk
  · rw [hcs, hnc, List.getElem?_set, if_neg (by omega)]
    exact ok.term
  · rw [hcount, hcs, hnc, active_upto_set _ _ _ _ _ hold, ok.count, if_pos hi, hd]
  · intro k hk
    rw [hstep, hnc] at hk ⊢
    rw [hms k, ok.marks k hk, hcs, active_upto_set _ _ _ _ _ hold]
    have hdiv : i / s.step + 1 ≤ k ↔ i < k * s.step := by
      rw [← Nat.div_lt_iff_lt_mul ok.step_pos]
      omega
    by_cases hik : i < k * s.step
    · have h1 : i / s.step + 1 ≤ k ∧ k ≤ num_blocks s.step s.num_clauses := ⟨hdiv.2 hik, hk⟩
      have h2 : i < min (k * s.step) s.num_clauses := by omega
      rw [if_pos h1, if_pos h2, hd]
      rfl
    · have h1 : ¬ (i / s.step + 1 ≤ k ∧ k ≤ num_blocks s.step s.num_clauses) :=
        fun h => hik (hdiv.1 h.1)
      have h2 : ¬ i < min (k * s.step) s.num_clauses := by omega
      rw [if_neg h1, if_neg h2]
      simp

theorem num_blocks_le {step : Nat} (hs : 0 < step) (nc : Nat) : num_blocks step nc ≤ nc := by
  by_contra h
  have h1 : nc < num_blocks step nc := by omega
  have h2 := (lt_num_blocks hs nc nc).2 h1
  have h3 : nc ≤ nc * step := Nat.le_mul_of_pos_right _ hs
  omega

theorem block_of_index {s : Solver} (ok : ActiveOK s) {i : Nat} (hi : i < s.num_clauses) :
    i / s.step + 1 ≤ num_blocks s.step s.num_clauses ∧
      num_blocks s.step s.num_clauses - (i / s.step + 1) < s.num_clauses + 1 ∧
      num_blocks s.step s.num_clauses < s.milestones.length := by
  have h1 : i / s.step < num_blocks s.step s.num_clauses := by
    rw [← lt_num_blocks ok.step_pos]
    exact lt_of_le_of_lt (Nat.div_mul_le_self _ _) hi
  have h2 := num_blocks_le ok.step_pos s.num_clauses
  refine ⟨h1, Nat.lt_succ_of_le (le_trans (Nat.sub_le _ _) h2), ?_⟩
  have := ok.marks _ (le_refl (num_blocks s.step s.num_clauses))
  rcases List.getElem?_eq_some.1 this with ⟨hl, _⟩
  exact hl

theorem insert_spec {s : Solver} (ok : ActiveOK s) {i : Nat} (hi : i < s.num_clauses) :
    ∃ r s1, insert s i = some (r, s1) ∧ ActiveOK s1 ∧
      s1.constraints = s.constraints.set i 'y' ∧
      (r = 'E' ↔ s.constraints[i]? = some 'y') ∧
      s1.num_constraints
        = s.num_constraints + (if s.constraints[i]? = some 'y' then 0 else 1) := by
  rcases ok.flags i hi with hy | hn
  · refine ⟨'E', s, ?_, ok, (set_same _ _ _ hy).symm, by simp [hy], by simp [hy]⟩
    simp [insert, hy]
  · have hb := block_after_start ok.step_pos i
    obtain ⟨hle, hfuel, hml⟩ := block_of_index ok hi
    obtain ⟨ms1, hm1, _, hm3⟩ := bump_spec 1 ok.step_pos s.num_clauses (s.num_clauses + 1)
      (i / s.step + 1) s.milestones hle hfuel hml
    have hne : ('n' : Char) ≠ 'y' := by decide
    refine ⟨'C', { s with milestones := ms1, constraints := s.constraints.set i 'y',
                          num_constraints := s.num_constraints + 1 }, ?_, ?_, rfl, ?_, ?_⟩
    · simp only [insert, hn, hne, if_false, hb, hm1]
    · exact activeOK_flip ok hi hn (Or.inl rfl) (by simp) rfl rfl rfl rfl hm3
    · simp [hn]
    · simp [hn]

theorem extract_spec {s : Solver} (ok : ActiveOK s) {i : Nat} (hi : i < s.num_clauses) :
    ∃ r s1, extract s i = some (r, s1) ∧ ActiveOK s1 ∧
      s1.constraints = s.constraints.set i 'n' ∧
      (r = 'E' ↔ s.constraints[i]? = some 'n') ∧
      s1.num_constraints
        = s.num_constraints - (if s.constraints[i]? = some 'y' then 1 else 0) := by
  rcases ok.flags i hi with hy | hn
  · have hb := block_after_start ok.step_pos i
    obtain ⟨hle, hfuel, hml⟩ := block_of_index ok hi
    obtain ⟨ms1, hm1, _, hm3⟩ := bump_spec (-1) ok.step_pos s.num_clauses (s.num_clauses + 1)
      (i / s.step + 1) s.milestones hle hfuel hml
    have hne : ('y' : Char) ≠ 'n' := by decide
    refine ⟨'C', { s with milestones := ms1, constraints := s.constraints.set i 'n',
                          num_constraints := s.num_constraints - 1 }, ?_, ?_, rfl, ?_, ?_⟩
    · simp only [extract, hy, hne, if_false, hb, hm1]
    · exact activeOK_flip ok hi hy (Or.inr rfl) (by simp) rfl rfl rfl
        (by simp [Int.sub_eq_add_neg]) hm3
    · simp [hy]
    · simp [hy]
  · refine ⟨'E', s, ?_, ok, (set_same _ _ _ hn).symm, by simp [hn], by simp [hn]⟩
    simp [extract, hn]

/-! ### find -/

theorem probe_spec {s : Solver} (ok : ActiveOK s) (hnc : 0 < s.num_clauses) (rnd : Nat → Nat) :
    ∀ n p, ∃ res p1, probe s rnd n p = some (res, p1) ∧
      ((∃ i k, res = some i ∧ k < n ∧ i = rnd (p + k) % s.num_clauses ∧ p1 = p + k + 1 ∧
          s.constraints[i]? = some 'y' ∧
          ∀ j, j < k → s.constraints[rnd (p + j) % s.num_clauses]? ≠ some 'y') ∨
        (res = none ∧ p1 = p + n ∧
          ∀ j, j < n → s.constraints[rnd (p + j) % s.num_clauses]? ≠ some 'y')) := by
  intro n
  induction n with
  | zero =>
    intro p
    exact ⟨none, p, rfl, Or.inr ⟨rfl, rfl, fun j hj => absurd hj (Nat.not_lt_zero j)⟩⟩
  | succ n ih =>
    intro p
    have hlt : rnd p % s.num_clauses < s.num_clauses := Nat.mod_lt _ hnc
    have hne : s.num_clauses ≠ 0 := by omega
    simp only [probe, hne, if_false]
    rcases ok.flags _ hlt with hy | hn
    · refine ⟨some (rnd p % s.num_clauses), p + 1, by simp [hy], Or.inl ?_⟩
      exact ⟨_, 0, rfl, by omega, rfl, rfl, hy, fun j hj => absurd hj (Nat.not_lt_zero j)⟩
    · obtain ⟨res, p1, h1, h2⟩ := ih (p + 1)
      have hny : ('n' : Char) ≠ 'y' := by decide
      have hmiss : s.constraints[rnd p % s.num_clauses]? ≠ some 'y' := by
        rw [hn]; simp
      refine ⟨res, p1, by simp [hn, hny, h1], ?_⟩
      rcases h2 with ⟨i, k, e1, e2, e3, e4, e5, e6⟩ | ⟨e1, e2, e6⟩
      · left
        refine ⟨i, k + 1, e1, by omega, ?_, by omega, e5, ?_⟩
        · rw [e3]; congr 2; omega
        · intro j hj
          cases j with
          | zero => exact hmiss
          | succ j =>
            have := e6 j (by omega)
            rwa [show p + 1 + j = p + (j + 1) by omega] at this
      · right
        refine ⟨e1, by omega, ?_⟩
        intro j hj
        cases j with
        | zero => exact hmiss
        | succ j =>
          have := e6 j (by omega)
          rwa [show p + 1 + j = p + (j + 1) by omega] at this

theorem find_scan_spec {s : Solver} (ok : ActiveOK s) (r : Int) :
    ∀ fuel j, j ≤ num_blocks s.step s.num_clauses →
      num_blocks s.step s.num_clauses - j < fuel →
      (j = 0 ∨ (active_upto s.constraints (min ((j - 1) * s.step) s.num_clauses) : Int) ≤ r) →
      ∃ j1, find_scan s r fuel j = some j1 ∧ j1 ≤ num_blocks s.step s.num_clauses ∧
        (j1 = 0 ∨
          (active_upto s.constraints (min ((j1 - 1) * s.step) s.num_clauses) : Int) ≤ r) ∧
        (j1 = num_blocks s.step s.num_clauses ∨
          r < (active_upto s.constraints (min (j1 * s.step) s.num_clauses) : Int)) := by
  intro fuel
  induction fuel with
  | zero => intro j _ h; omega
  | succ fuel ih =>
    intro j hj hf hinv
    simp only [find_scan]
    by_cases hc : j * s.step < s.num_clauses
    · have hjb : j < num_blocks s.step s.num_clauses := (lt_num_blocks ok.step_pos _ j).1 hc
      rw [if_pos hc, ok.marks j hj]
      by_cases hm : (active_upto s.constraints (min (j * s.step) s.num_clauses) : Int) ≤ r
      · simp only [hm, if_true]
        exact ih (j + 1) (by omega) (by omega) (Or.inr (by simpa using hm))
      · simp only [hm, if_false]
        exact ⟨j, rfl, hj, hinv, Or.inr (by omega)⟩
    · rw [if_neg hc]
      have hjb : ¬ j < num_blocks s.step s.num_clauses :=
        fun h => hc ((lt_num_blocks ok.step_pos _ j).2 h)
      exact ⟨j, rfl, hj, hinv, Or.inl (by omega)⟩

theorem count_take_drop (cs : List Char) (p q : Nat) :
    active_upto cs (p + q) = active_upto cs p + ((cs.drop p).take q).count 'y' := by
  unfold active_upto
  rw [List.take_add, List.count_append]

theorem strchr_from_spec :
    ∀ (xs : List Char) (p m : Nat), (∀ x ∈ xs.take m, x = 'y' ∨ x = 'n') →
      0 < (xs.take m).count 'y' →
      ∃ q, strchr_from 'y' xs p = some (p + q) ∧ q < m ∧ xs[q]? = some 'y' ∧
        (xs.take q).count 'y' = 0 := by
  intro xs
  induction xs with
  | nil => intro p m _ h; simp at h
  | cons x xs ih =>
    intro p m hfl hpos
    cases m with
    | zero => simp at hpos
    | succ m =>
      by_cases hx : x = 'y'
      · exact ⟨0, by simp [strchr_from, hx], by omega, by simp [hx], by simp⟩
      · have hxn : x = 'n' := by
          rcases hfl x (by simp) with h | h
          · exact absurd h hx
          · exact h
        have hx0 : x ≠ '\x00' := by rw [hxn]; decide
        have hfl1 : ∀ y ∈ xs.take m, y = 'y' ∨ y = 'n' := by
          intro y hy
          exact hfl y (by simp [hy])
        have hpos1 : 0 < (xs.take m).count 'y' := by
          simpa [List.count_cons, hx] using hpos
        obtain ⟨q, h1, h2, h3, h4⟩ := ih (p + 1) m hfl1 hpos1
        refine ⟨q + 1, ?_, by omega, by simpa using h3, ?_⟩
        · simp only [strchr_from, hx, hx0, if_false, h1]
          congr 1; omega
        · simpa [List.count_cons, hx] using h4

theorem strchr_spec {s : Solver} (ok : ActiveOK s) (p : Nat) (hp : p ≤ s.num_clauses)
    (hmore : active_upto s.constraints p < active_upto s.constraints s.num_clauses) :
    ∃ q, strchr s.constraints (p : Int) 'y' = some q ∧ p ≤ q ∧ q < s.num_clauses ∧
      s.constraints[q]? = some 'y' ∧ active_upto s.constraints q = active_upto s.constraints p := by
  have hlen := ok.len
  have hsplit := count_take_drop s.constraints p (s.num_clauses - p)
  rw [show p + (s.num_clauses - p) = s.num_clauses by omega] at hsplit
  have hfl : ∀ x ∈ (s.constraints.drop p).take (s.num_clauses - p), x = 'y' ∨ x = 'n' := by
    intro x hx
    rcases List.mem_iff_getElem?.1 hx with ⟨k, hk⟩
    rw [List.getElem?_take] at hk
    split at hk
    · rename_i hlt
      rw [List.getElem?_drop] at hk
      rcases ok.flags (p + k) (by omega) with h | h
      · rw [h] at hk; left; simpa using hk.symm
      · rw [h] at hk; right; simpa using hk.symm
    · cases hk
  obtain ⟨q, h1, h2, h3, h4⟩ := strchr_from_spec (s.constraints.drop p) p (s.num_clauses - p)
    hfl (by omega)
  refine ⟨p + q, ?_, by omega, by omega, ?_, ?_⟩
  · unfold strchr
    have : (0 : Int) ≤ (p : Int) ∧ (p : Int).toNat < s.constraints.length := by
      refine ⟨by simp, ?_⟩
      simp only [Int.toNat_ofNat]
      omega
    rw [if_pos this]
    simpa using h1
  · rw [List.getElem?_drop] at h3; exact h3
  · rw [count_take_drop, h4]; rfl

theorem active_upto_succ (cs : List Char) (q : Nat) (h : cs[q]? = some 'y') :
    active_upto cs (q + 1) = active_upto cs q + 1 := by
  unfold active_upto
  rw [List.take_succ, h]
  simp

theorem active_upto_mono (cs : List Char) {a b : Nat} (h : a ≤ b) :
    active_upto cs a ≤ active_upto cs b := by
  obtain ⟨d, rfl⟩ := Nat.exists_eq_add_of_le h
  rw [count_take_drop]
  omega

theorem find_walk_spec {s : Solver} (ok : ActiveOK s) :
    ∀ n (p : Nat), p ≤ s.num_clauses →
      active_upto s.constraints p + (n + 1) ≤ active_upto s.constraints s.num_clauses →
      ∃ q : Nat, find_walk s.constraints (n + 1) ((p : Int) - 1) = some (q : Int) ∧ p ≤ q ∧
        q < s.num_clauses ∧ s.constraints[q]? = some 'y' ∧
        active_upto s.constraints q = active_upto s.constraints p + n := by
  intro n
  induction n with
  | zero =>
    intro p hp hmore
    obtain ⟨q, h1, h2, h3, h4, h5⟩ := strchr_spec ok p hp (by omega)
    refine ⟨q, ?_, h2, h3, h4, by omega⟩
    simp only [find_walk]
    rw [show (p : Int) - 1 + 1 = (p : Int) by omega, h1]
  | succ n ih =>
    intro p hp hmore
    obtain ⟨q, h1, h2, h3, h4, h5⟩ := strchr_spec ok p hp (by omega)
    have hq1 := active_upto_succ _ _ h4
    obtain ⟨q1, g1, g2, g3, g4, g5⟩ := ih (q + 1) (by omega) (by omega)
    refine ⟨q1, ?_, by omega, g3, g4, by omega⟩
    rw [find_walk, show (p : Int) - 1 + 1 = (p : Int) by omega, h1]
    simp only
    rw [← g1]
    congr 1
    omega

theorem select_naive_of_rank :
    ∀ (cs : List Char) (i q r : Nat), cs[q]? = some 'y' → (cs.take q).count 'y' = r →
      select_naive cs i r = some (i + q) := by
  intro cs
  induction cs with
  | nil => intro i q r h; simp at h
  | cons x xs ih =>
    intro i q r hq hr
    cases q with
    | zero =>
      simp at hq hr
      subst hq; subst hr
      simp [select_naive]
    | succ q =>
      simp at hq
      by_cases hx : x = 'y'
      · subst hx
        simp [List.count_cons] at hr
        subst hr
        simp only [select_naive, if_true]
        rw [ih (i + 1) q _ hq rfl]
        congr 1; omega
      · simp [List.count_cons, hx] at hr
        simp only [select_naive, hx, if_false]
        rw [ih (i + 1) q r hq hr]
        congr 1; omega

theorem find_block_spec {s : Solver} (ok : ActiveOK s) {r : Int} (h0 : 0 ≤ r)
    (hr : r < s.num_constraints) :
    ∃ q : Nat, find_block s r = some (q : Int) ∧ q < s.num_clauses ∧
      s.constraints[q]? = some 'y' ∧ (active_upto s.constraints q : Int) = r ∧
      select_naive (s.constraints.take s.num_clauses) 0 r.toNat = some q := by
  have hB := num_blocks_le ok.step_pos s.num_clauses
  obtain ⟨j, hj1, hj2, hj3, hj4⟩ := find_scan_spec ok r (s.num_clauses + 1) 0 (Nat.zero_le _)
    (by omega) (Or.inl rfl)
  have hcount := ok.count
  have hjpos : j ≠ 0 := by
    intro hj0
    subst hj0
    rcases hj4 with h | h
    · have hnc : s.num_clauses = 0 := by
        by_contra hne
        have := (lt_num_blocks ok.step_pos s.num_clauses 0).1 (by omega)
        omega
      rw [hnc] at hcount
      simp [active_upto] at hcount
      omega
    · simp [active_upto] at h
      omega
  have hjm : j - 1 < num_blocks s.step s.num_clauses := by omega
  have hp : (j - 1) * s.step < s.num_clauses := (lt_num_blocks ok.step_pos _ _).2 hjm
  have hmin : min ((j - 1) * s.step) s.num_clauses = (j - 1) * s.step := by omega
  have ha : (active_upto s.constraints ((j - 1) * s.step) : Int) ≤ r := by
    rcases hj3 with h | h
    · exact absurd h hjpos
    · rw [hmin] at h; exact h
  have hrd : rd s.milestones ((j : Int) - 1)
      = some ((active_upto s.constraints ((j - 1) * s.step) : Nat) : Int) := by
    have e : (j : Int) - 1 = ((j - 1 : Nat) : Int) := by omega
    rw [e, rd_natCast, ok.marks (j - 1) (by omega), hmin]
  have hcast : ((j : Int) - 1) * (s.step : Int) - 1 = (((j - 1) * s.step : Nat) : Int) - 1 := by
    have e : (j : Int) - 1 = ((j - 1 : Nat) : Int) := by omega
    rw [e]
    push_cast
    rfl
  obtain ⟨n, hn⟩ : ∃ n : Nat, r - (active_upto s.constraints ((j - 1) * s.step) : Int) = n :=
    ⟨(r - (active_upto s.constraints ((j - 1) * s.step) : Int)).toNat, by omega⟩
  have hfuel : (r - ((active_upto s.constraints ((j - 1) * s.step) : Nat) : Int) + 1).toNat
      = n + 1 := by omega
  obtain ⟨q, h1, h2, h3, h4, h5⟩ := find_walk_spec ok n ((j - 1) * s.step) (le_of_lt hp)
    (by omega)
  have hrank : (active_upto s.constraints q : Int) = r := by omega
  refine ⟨q, ?_, h3, h4, hrank, ?_⟩
  · simp only [find_block, hj1, hrd, hfuel, hcast, h1]
  · have hsel := select_naive_of_rank (s.constraints.take s.num_clauses) 0 q r.toNat
      (by rw [List.getElem?_take_of_lt h3]; exact h4)
      (by
        rw [List.take_take, min_eq_left (le_of_lt h3)]
        have : active_upto s.constraints q = r.toNat := by omega
        exact this)
    simpa using hsel

theorem find_spec {s : Solver} (ok : ActiveOK s) (rnd : Nat → Nat) (p : Nat) {r : Int}
    (h0 : 0 ≤ r) (hr : r < s.num_constraints) :
    ∃ (i p1 : Nat), find s rnd p r = some ((i : Int), p1) ∧ i < s.num_clauses ∧
      s.constraints[i]? = some 'y' ∧
      ((Int.tdiv (s.num_clauses : Int) s.num_constraints < (SAMPLE_PARAM : Int) ∧
          ∃ k, k < SAMPLE_PARAM ∧ i = rnd (p + k) % s.num_clauses ∧ p1 = p + k + 1 ∧
            ∀ j, j < k → s.constraints[rnd (p + j) % s.num_clauses]? ≠ some 'y') ∨
        (select_naive (s.constraints.take s.num_clauses) 0 r.toNat = some i ∧
          ((¬ Int.tdiv (s.num_clauses : Int) s.num_constraints < (SAMPLE_PARAM : Int) ∧ p1 = p) ∨
            (Int.tdiv (s.num_clauses : Int) s.num_constraints < (SAMPLE_PARAM : Int) ∧
              p1 = p + SAMPLE_PARAM ∧
              ∀ j, j < SAMPLE_PARAM →
                s.constraints[rnd (p + j) % s.num_clauses]? ≠ some 'y')))) := by
  obtain ⟨q, hq1, hq2, hq3, _, hq5⟩ := find_block_spec ok h0 hr
  have hnz : s.num_constraints ≠ 0 := by omega
  have hnc : 0 < s.num_clauses := by omega
  unfold find
  rw [if_neg hnz]
  by_cases hd : Int.tdiv (s.num_clauses : Int) s.num_constraints < (SAMPLE_PARAM : Int)
  · rw [if_pos hd]
    obtain ⟨res, p1, hp1, hp2⟩ := probe_spec ok hnc rnd SAMPLE_PARAM p
    rcases hp2 with ⟨i, k, e1, e2, e3, e4, e5, e6⟩ | ⟨e1, e2, e6⟩
    · subst e1
      refine ⟨i, p1, by simp [hp1], ?_, e5, Or.inl ⟨hd, k, e2, e3, e4, e6⟩⟩
      rw [e3]; exact Nat.mod_lt _ hnc
    · subst e1
      exact ⟨q, p1, by simp [hp1, hq1], hq2, hq3, Or.inr ⟨hq5, Or.inr ⟨hd, e2, e6⟩⟩⟩
  · rw [if_neg hd]
    exact ⟨q, p, by simp [hq1], hq2, hq3, Or.inr ⟨hq5, Or.inl ⟨hd, rfl⟩⟩⟩

/-! ### Reads after writes -/

theorem rd_wr {α : Type} {xs ys : List α} {i : Int} {v : α} (h : wr xs i v = some ys) (j : Int) :
    rd ys j = if i = j then some v else rd xs j := by
  obtain ⟨h0, hlt, rfl⟩ := wr_some h
  unfold rd
  by_cases hj : 0 ≤ j
  · rw [if_pos hj, if_pos hj, List.getElem?_set]
    by_cases e : i = j
    · subst e; simp [hlt]
    · have : ¬ i.toNat = j.toNat := by omega
      rw [if_neg this, if_neg e]
  · rw [if_neg hj, if_neg hj]
    have : ¬ i = j := by omega
    rw [if_neg this]

theorem wr_of_rd {α : Type} {xs : List α} {i : Int} {u : α} (h : rd xs i = some u) (v : α) :
    wr xs i v = some (xs.set i.toNat v) := by
  obtain ⟨h0, h1⟩ := rd_some h
  rcases List.getElem?_eq_some.1 h1 with ⟨hl, _⟩
  simp [wr, h0, hl]

/-! ### initiate: the occurrence counts -/

theorem occurrences_from_length_cons (l : Int) (c : Clause) (cs : Cnf) (i : Nat) :
    (occurrences_from l (c :: cs) i).length = c.count l + (occurrences_from l cs (i + 1)).length := by
  simp [occurrences_from]

theorem count_lits_spec (nv : Int) :
    ∀ (c : Clause) (hs : List Int),
      (∀ l ∈ c, ∃ v, rd hs (nv + l + 1) = some v) →
      (∀ m v, rd hs (nv + m + 1) = some v → v + (c.count m : Int) ≤ 2147483647) →
      ∃ hs1, count_lits nv c hs = some hs1 ∧ hs1.length = hs.length ∧
        ∀ m : Int, rd hs1 (nv + m + 1) = (rd hs (nv + m + 1)).map (fun v => v + (c.count m : Int)) := by
  intro c
  induction c with
  | nil => intro hs _ _; exact ⟨hs, rfl, rfl, by intro m; simp⟩
  | cons l ls ih =>
    intro hs hin hb
    obtain ⟨v, hv⟩ := hin l (List.mem_cons_self _ _)
    have hw := wr_of_rd hv (v + 1)
    have hcount : ((l :: ls).count l : Int) = (ls.count l : Int) + 1 := by
      rw [List.count_cons_self]; push_cast; rfl
    have hg : ¬ 2147483647 < v + 1 := by
      have := hb l v hv
      rw [hcount] at this
      omega
    have hin1 : ∀ x ∈ ls, ∃ u, rd (hs.set (nv + l + 1).toNat (v + 1)) (nv + x + 1) = some u := by
      intro x hx
      obtain ⟨u, hu⟩ := hin x (List.mem_cons_of_mem _ hx)
      rw [rd_wr hw]
      by_cases e : nv + l + 1 = nv + x + 1
      · exact ⟨_, by rw [if_pos e]⟩
      · exact ⟨u, by rw [if_neg e, hu]⟩
    have hb1 : ∀ m u, rd (hs.set (nv + l + 1).toNat (v + 1)) (nv + m + 1) = some u →
        u + (ls.count m : Int) ≤ 2147483647 := by
      intro m u hu
      rw [rd_wr hw] at hu
      by_cases e : l = m
      · subst e
        rw [if_pos rfl] at hu
        simp only [Option.some.injEq] at hu
        have := hb l v hv
        rw [hcount] at this
        omega
      · have e1 : ¬ nv + l + 1 = nv + m + 1 := by omega
        rw [if_neg e1] at hu
        have := hb m u hu
        rw [List.count_cons_of_ne (fun h => e h.symm)] at this
        exact this
    obtain ⟨hs1, h1, h2, h3⟩ := ih _ hin1 hb1
    refine ⟨hs1, by simp only [count_lits, hv, if_neg hg, hw, h1], by rw [h2, List.length_set], ?_⟩
    intro m
    rw [h3 m, rd_wr hw]
    by_cases e : l = m
    · subst e
      rw [if_pos rfl, hv]
      simp [List.count_cons]
      omega
    · have e1 : ¬ nv + l + 1 = nv + m + 1 := by omega
      rw [if_neg e1]
      simp [List.count_cons, e]

theorem count_cnf_spec (nv : Int) :
    ∀ (cnf : Cnf) (i : Nat) (hs : List Int),
      (∀ c ∈ cnf, ∀ l ∈ c, ∃ v, rd hs (nv + l + 1) = some v) →
      (∀ m v, rd hs (nv + m + 1) = some v →
        v + ((occurrences_from m cnf i).length : Int) ≤ 2147483647) →
      ∃ hs1, count_cnf nv cnf hs = some hs1 ∧ hs1.length = hs.length ∧
        ∀ m : Int, rd hs1 (nv + m + 1)
          = (rd hs (nv + m + 1)).map (fun v => v + ((occurrences_from m cnf i).length : Int)) := by
  intro cnf
  induction cnf with
  | nil => intro i hs _ _; exact ⟨hs, rfl, rfl, by intro m; simp [occurrences_from]⟩
  | cons c cs ih =>
    intro i hs hin hb
    obtain ⟨hs1, h1, h2, h3⟩ := count_lits_spec nv c hs (hin c (List.mem_cons_self _ _))
      (by
        intro m v hv
        have := hb m v hv
        rw [occurrences_from_length_cons] at this
        push_cast at this
        omega)
    have hin1 : ∀ d ∈ cs, ∀ l ∈ d, ∃ v, rd hs1 (nv + l + 1) = some v := by
      intro d hd l hl
      obtain ⟨u, hu⟩ := hin d (List.mem_cons_of_mem _ hd) l hl
      exact ⟨_, by rw [h3 l, hu]; rfl⟩
    have hb1 : ∀ m u, rd hs1 (nv + m + 1) = some u →
        u + ((occurrences_from m cs (i + 1)).length : Int) ≤ 2147483647 := by
      intro m u hu
      rw [h3 m] at hu
      cases hv : rd hs (nv + m + 1) with
      | none => rw [hv] at hu; cases hu
      | some v =>
        rw [hv] at hu
        simp only [Option.map_some', Option.some.injEq] at hu
        have := hb m v hv
        rw [occurrences_from_length_cons] at this
        push_cast at this
        omega
    obtain ⟨hs2, g1, g2, g3⟩ := ih (i + 1) hs1 hin1 hb1
    refine ⟨hs2, by simp only [count_cnf, h1, g1], by rw [g2, h2], ?_⟩
    intro m
    rw [g3 m, h3 m, occurrences_from_length_cons]
    cases rd hs (nv + m + 1) with
    | none => rfl
    | some v => simp; omega

/-- A completed counting loop over one clause: every index was inside
`hold_size`, no count overflowed, and the counts are those of the clause. -/
theorem count_lits_inv (nv : Int) :
    ∀ (c : Clause) (hs hs1 : List Int), count_lits nv c hs = some hs1 →
      hs1.length = hs.length ∧
        (∀ l ∈ c, 0 ≤ nv + l + 1 ∧ nv + l + 1 < (hs.length : Int)) ∧
        ∀ m : Int, rd hs1 (nv + m + 1)
          = (rd hs (nv + m + 1)).map (fun v => v + (c.count m : Int)) := by
  intro c
  induction c with
  | nil =>
    intro hs hs1 h
    simp only [count_lits, Option.some.injEq] at h
    subst h
    exact ⟨rfl, (by intro l hl; cases hl), (by intro m; simp)⟩
  | cons l ls ih =>
    intro hs hs1 h
    simp only [count_lits] at h
    cases hv : rd hs (nv + l + 1) with
    | none => rw [hv] at h; cases h
    | some v =>
      rw [hv] at h
      simp only at h
      by_cases hg : 2147483647 < v + 1
      · rw [if_pos hg] at h; cases h
      · rw [if_neg hg] at h
        cases hw : wr hs (nv + l + 1) (v + 1) with
        | none => rw [hw] at h; cases h
        | some hs2 =>
          rw [hw] at h
          simp only at h
          obtain ⟨w0, w1, w2⟩ := wr_some hw
          obtain ⟨k1, k2, k3⟩ := ih hs2 hs1 h
          have hlen : hs2.length = hs.length := by rw [w2, List.length_set]
          refine ⟨by rw [k1, hlen], ?_, ?_⟩
          · intro x hx
            rcases List.mem_cons.1 hx with rfl | hx
            · exact ⟨w0, by omega⟩
            · have := k2 x hx
              rw [hlen] at this
              exact this
          · intro m
            rw [k3 m, rd_wr hw]
            by_cases e : l = m
            · subst e
              rw [if_pos rfl, hv]
              simp [List.count_cons]
              omega
            · have e1 : ¬ nv + l + 1 = nv + m + 1 := by omega
              rw [if_neg e1]
              simp [List.count_cons, e]

theorem count_cnf_inv (nv : Int) :
    ∀ (cnf : Cnf) (i : Nat) (hs hs1 : List Int), count_cnf nv cnf hs = some hs1 →
      hs1.length = hs.length ∧
        (∀ c ∈ cnf, ∀ l ∈ c, 0 ≤ nv + l + 1 ∧ nv + l + 1 < (hs.length : Int)) ∧
        ∀ m : Int, rd hs1 (nv + m + 1)
          = (rd hs (nv + m + 1)).map
              (fun v => v + ((occurrences_from m cnf i).length : Int)) := by
  intro cnf
  induction cnf with
  | nil =>
    intro i hs hs1 h
    simp only [count_cnf, Option.some.injEq] at h
    subst h
    exact ⟨rfl, (by intro c hc; cases hc), (by intro m; simp [occurrences_from])⟩
  | cons c cs ih =>
    intro i hs hs1 h
    simp only [count_cnf] at h
    cases hc : count_lits nv c hs with
    | none => rw [hc] at h; cases h
    | some hs2 =>
      rw [hc] at h
      simp only at h
      obtain ⟨a1, a2, a3⟩ := count_lits_inv nv c hs hs2 hc
      obtain ⟨b1, b2, b3⟩ := ih (i + 1) hs2 hs1 h
      refine ⟨by rw [b1, a1], ?_, ?_⟩
      · intro d hd l hl
        rcases List.mem_cons.1 hd with rfl | hd
        · exact a2 l hl
        · have := b2 d hd l hl
          rw [a1] at this
          exact this
      · intro m
        rw [b3 m, a3 m, occurrences_from_length_cons]
        cases rd hs (nv + m + 1) with
        | none => rfl
        | some v => simp; omega

/-! ### initiate: the occurrence rows -/

theorem hold_end_spec (A : List Nat) (rest : List Int) (k : Nat) :
    hold_end (A.map (fun (i : Nat) => (i : Int)) ++ (-1 : Int) :: rest) k = some (k + A.length) := by
  induction A generalizing k with
  | nil => simp [hold_end]
  | cons a as ih =>
    have hge : (a : Int) ≥ 0 := by omega
    have e : (a :: as).map (fun (i : Nat) => (i : Int)) ++ (-1 : Int) :: rest
        = (a : Int) :: (as.map (fun (i : Nat) => (i : Int)) ++ (-1 : Int) :: rest) := rfl
    rw [e, hold_end, if_pos hge, ih]
    simp only [List.length_cons]
    congr 1; omega

theorem hold_push_spec {row : List Int} {A : List Nat} {room : Nat} (i : Nat)
    (h : row_ok row A (room + 1)) :
    ∃ row1, hold_push row i = some row1 ∧ row_ok row1 (A ++ [i]) room := by
  obtain ⟨rest, rfl, hlen⟩ := h
  cases rest with
  | nil => simp at hlen
  | cons x rest =>
    refine ⟨A.map (fun (i : Nat) => (i : Int)) ++ (i : Int) :: (-1 : Int) :: rest, ?_,
      ⟨rest, by simp, by simpa using hlen⟩⟩
    unfold hold_push
    rw [hold_end_spec]
    simp only [Nat.zero_add, wrN]
    have e1 : A.length < (A.map (fun (i : Nat) => (i : Int)) ++ (-1 : Int) :: x :: rest).length := by
      simp
    rw [if_pos e1]
    simp only [List.length_set]
    have e2 : A.length + 1 < (A.map (fun (i : Nat) => (i : Int)) ++ (-1 : Int) :: x :: rest).length := by
      simp
    rw [if_pos e2]
    congr 1
    have l1 : (A.map (fun (i : Nat) => (i : Int))).length = A.length := by simp
    rw [List.set_append_right _ _ (by rw [l1]), l1, Nat.sub_self]
    simp only [List.set_cons_zero]
    rw [List.set_append_right _ _ (by rw [l1]; omega), l1]
    simp

theorem fill_lits_spec (nv : Int) (i : Nat) (base : Int → List Nat) (room : Int → Nat) :
    ∀ (ls pre : List Int) (hold : List (List Int)),
      (∀ l ∈ ls, -nv - 1 ≤ l ∧ l ≤ nv + 1) →
      (∀ m : Int, -nv - 1 ≤ m → m ≤ nv + 1 → ∃ row, rd hold (nv + m + 1) = some row ∧
        row_ok row (base m ++ List.replicate (pre.count m) i) (room m + ls.count m)) →
      ∃ hold1, fill_lits nv i ls hold = some hold1 ∧
        ∀ m : Int, -nv - 1 ≤ m → m ≤ nv + 1 → ∃ row, rd hold1 (nv + m + 1) = some row ∧
          row_ok row (base m ++ List.replicate ((pre ++ ls).count m) i) (room m) := by
  intro ls
  induction ls with
  | nil =>
    intro pre hold _ h
    refine ⟨hold, rfl, ?_⟩
    intro m h1 h2
    simpa using h m h1 h2
  | cons l ls ih =>
    intro pre hold hr h
    obtain ⟨hl1, hl2⟩ := hr l (List.mem_cons_self _ _)
    obtain ⟨row, hrow, hok⟩ := h l hl1 hl2
    have hc : (l :: ls).count l = ls.count l + 1 := by simp
    rw [hc, ← Nat.add_assoc] at hok
    obtain ⟨row1, hp, hok1⟩ := hold_push_spec i hok
    have hw := wr_of_rd hrow row1
    have hpre : ∀ m : Int, -nv - 1 ≤ m → m ≤ nv + 1 →
        ∃ r, rd (hold.set (nv + l + 1).toNat row1) (nv + m + 1) = some r ∧
          row_ok r (base m ++ List.replicate ((pre ++ [l]).count m) i) (room m + ls.count m) := by
      intro m h1 h2
      rw [rd_wr hw]
      by_cases e : l = m
      · subst e
        refine ⟨row1, by rw [if_pos rfl], ?_⟩
        have : (pre ++ [l]).count l = pre.count l + 1 := by simp
        rw [this, List.replicate_succ', ← List.append_assoc]
        exact hok1
      · have e1 : ¬ nv + l + 1 = nv + m + 1 := by omega
        obtain ⟨r, hr1, hr2⟩ := h m h1 h2
        refine ⟨r, by rw [if_neg e1, hr1], ?_⟩
        have c1 : (pre ++ [l]).count m = pre.count m := by simp [List.count_cons, e]
        have c2 : (l :: ls).count m = ls.count m := by simp [List.count_cons, e]
        rw [c1]; rw [c2] at hr2; exact hr2
    obtain ⟨hold1, g1, g2⟩ := ih (pre ++ [l]) _
      (fun x hx => hr x (List.mem_cons_of_mem _ hx)) hpre
    refine ⟨hold1, by simp only [fill_lits, hrow, hp, hw, g1], ?_⟩
    intro m h1 h2
    have := g2 m h1 h2
    rwa [List.append_assoc] at this

theorem fill_cnf_spec (nv : Int) (room : Int → Nat) :
    ∀ (cs : Cnf) (i : Nat) (base : Int → List Nat) (hold : List (List Int)),
      (∀ c ∈ cs, ∀ l ∈ c, -nv - 1 ≤ l ∧ l ≤ nv + 1) →
      (∀ m : Int, -nv - 1 ≤ m → m ≤ nv + 1 → ∃ row, rd hold (nv + m + 1) = some row ∧
        row_ok row (base m) (room m + (occurrences_from m cs i).length)) →
      ∃ hold1, fill_cnf nv cs i hold = some hold1 ∧
        ∀ m : Int, -nv - 1 ≤ m → m ≤ nv + 1 → ∃ row, rd hold1 (nv + m + 1) = some row ∧
          row_ok row (base m ++ occurrences_from m cs i) (room m) := by
  intro cs
  induction cs with
  | nil =>
    intro i base hold _ h
    refine ⟨hold, rfl, ?_⟩
    intro m h1 h2
    simpa [occurrences_from] using h m h1 h2
  | cons c cs ih =>
    intro i base hold hr h
    have hpre : ∀ m : Int, -nv - 1 ≤ m → m ≤ nv + 1 → ∃ row, rd hold (nv + m + 1) = some row ∧
        row_ok row (base m ++ List.replicate (([] : List Int).count m) i)
          ((room m + (occurrences_from m cs (i + 1)).length) + c.count m) := by
      intro m h1 h2
      obtain ⟨row, hrow, hok⟩ := h m h1 h2
      refine ⟨row, hrow, ?_⟩
      rw [occurrences_from_length_cons] at hok
      simpa [Nat.add_assoc, Nat.add_comm (c.count m)] using hok
    obtain ⟨hold1, g1, g2⟩ := fill_lits_spec nv i base
      (fun m => room m + (occurrences_from m cs (i + 1)).length) c [] hold
      (hr c (List.mem_cons_self _ _)) hpre
    obtain ⟨hold2, k1, k2⟩ := ih (i + 1) (fun m => base m ++ List.replicate (c.count m) i) hold1
      (fun d hd => hr d (List.mem_cons_of_mem _ hd))
      (by
        intro m h1 h2
        simpa using g2 m h1 h2)
    refine ⟨hold2, by simp only [fill_cnf, g1, k1], ?_⟩
    intro m h1 h2
    obtain ⟨row, hrow, hok⟩ := k2 m h1 h2
    refine ⟨row, hrow, ?_⟩
    simpa [occurrences_from, List.append_assoc] using hok

/-! ### initiate: the block index -/

theorem count_blocks_spec {step : Nat} (hs : 0 < step) (nc : Nat)
    (hmax : num_blocks step nc * step ≤ 2147483647) :
    ∀ fuel i, i ≤ num_blocks step nc → num_blocks step nc - i < fuel →
      count_blocks step nc fuel i = some (num_blocks step nc) := by
  intro fuel
  induction fuel with
  | zero => intro i _ h; omega
  | succ fuel ih =>
    intro i hi hf
    have hprod : ¬ 2147483647 < i * step :=
      not_lt.2 (le_trans (Nat.mul_le_mul_right step hi) hmax)
    simp only [count_blocks, if_neg hprod]
    by_cases hc : i * step < nc
    · have := (lt_num_blocks hs nc i).1 hc
      rw [if_pos hc]
      exact ih (i + 1) (by omega) (by omega)
    · have : ¬ i < num_blocks step nc := fun h => hc ((lt_num_blocks hs nc i).2 h)
      rw [if_neg hc]
      congr 1; omega

theorem fill_milestones_spec {step : Nat} (hs : 0 < step) (nc : Nat)
    (hmax : num_blocks step nc * step ≤ 2147483647) :
    ∀ fuel i (ms : List Int), i ≤ num_blocks step nc → num_blocks step nc - i < fuel →
      num_blocks step nc < ms.length →
      ∃ ms1, fill_milestones step nc fuel i ms = some ms1 ∧ ms1.length = ms.length ∧
        ∀ k, ms1[k]? = if i ≤ k ∧ k ≤ num_blocks step nc
          then some ((min (k * step) nc : Nat) : Int) else ms[k]? := by
  intro fuel
  induction fuel with
  | zero => intro i ms _ h; omega
  | succ fuel ih =>
    intro i ms hi hf hlen
    have hil : i < ms.length := by omega
    have hprod : ¬ 2147483647 < i * step :=
      not_lt.2 (le_trans (Nat.mul_le_mul_right step hi) hmax)
    simp only [fill_milestones, if_neg hprod, wrN, hil, if_true]
    by_cases hc : i * step < nc
    · have hib := (lt_num_blocks hs nc i).1 hc
      rw [if_pos hc]
      obtain ⟨ms1, h1, h2, h3⟩ := ih (i + 1) (ms.set i ((i * step : Nat) : Int)) (by omega)
        (by omega) (by rw [List.length_set]; exact hlen)
      refine ⟨ms1, h1, by rw [h2, List.length_set], ?_⟩
      intro k
      rw [h3 k, List.getElem?_set]
      by_cases hk : i = k
      · subst hk
        have n1 : ¬ (i + 1 ≤ i ∧ i ≤ num_blocks step nc) := by omega
        have n2 : i ≤ i ∧ i ≤ num_blocks step nc := ⟨le_refl _, hi⟩
        rw [if_neg n1, if_pos rfl, if_pos hil, if_pos n2, min_eq_left (le_of_lt hc)]
      · rw [if_neg hk]
        by_cases hr : i ≤ k ∧ k ≤ num_blocks step nc
        · have hr1 : i + 1 ≤ k ∧ k ≤ num_blocks step nc := by omega
          rw [if_pos hr, if_pos hr1]
        · have hr1 : ¬ (i + 1 ≤ k ∧ k ≤ num_blocks step nc) := by omega
          rw [if_neg hr, if_neg hr1]
    · have hib : ¬ i < num_blocks step nc := fun h => hc ((lt_num_blocks hs nc i).2 h)
      rw [if_neg hc]
      refine ⟨_, rfl, by rw [List.length_set], ?_⟩
      intro k
      rw [List.getElem?_set]
      by_cases hk : i = k
      · subst hk
        have n2 : i ≤ i ∧ i ≤ num_blocks step nc := ⟨le_refl _, hi⟩
        rw [if_pos rfl, if_pos hil, if_pos n2, min_eq_right (by omega)]
      · have hr : ¬ (i ≤ k ∧ k ≤ num_blocks step nc) := by omega
        rw [if_neg hk, if_neg hr]

theorem active_upto_replicate (nc m : Nat) (h : m ≤ nc) :
    active_upto (List.replicate nc 'y' ++ ['\x00']) m = m := by
  unfold active_upto
  rw [List.take_append_of_le_length (by simpa using h), List.take_replicate, min_eq_left h]
  simp

theorem rd_replicate {α : Type} (n : Nat) (a : α) {i : Int} (h0 : 0 ≤ i) (h1 : i < (n : Int)) :
    rd (List.replicate n a) i = some a := by
  rw [rd_of_nonneg _ h0, List.getElem?_replicate, if_pos (by omega)]

theorem rd_map {α β : Type} (f : α → β) (xs : List α) (i : Int) :
    rd (xs.map f) i = (rd xs i).map f := by
  unfold rd
  split
  · simp
  · rfl

theorem abs_le_iff {l nv : Int} (h : l ≠ -2147483648) : abs l ≤ nv ↔ -nv ≤ l ∧ l ≤ nv := by
  unfold abs negate; split_ifs <;> omega

theorem abs_range {l nv : Int} (h1 : 1 ≤ abs l) (h2 : abs l ≤ nv) :
    l ≠ 0 ∧ -nv ≤ l ∧ l ≤ nv := by
  rcases abs_cases h1 with ⟨a, b⟩ | ⟨a, _, b⟩ <;> omega

theorem count_blocks_inv {step : Nat} (nc : Nat) :
    ∀ fuel i b, count_blocks step nc fuel i = some b →
      b * step ≤ 2147483647 ∧ ¬ b * step < nc := by
  intro fuel
  induction fuel with
  | zero => intro i b h; cases h
  | succ fuel ih =>
    intro i b h
    simp only [count_blocks] at h
    by_cases hp : 2147483647 < i * step
    · rw [if_pos hp] at h; cases h
    · rw [if_neg hp] at h
      by_cases hc : i * step < nc
      · rw [if_pos hc] at h
        exact ih _ _ h
      · rw [if_neg hc] at h
        simp only [Option.some.injEq] at h
        subst h
        exact ⟨by omega, hc⟩

theorem occurrences_from_nil (m : Int) :
    ∀ (cs : Cnf) (i : Nat), (∀ c ∈ cs, m ∉ c) → occurrences_from m cs i = [] := by
  intro cs
  induction cs with
  | nil => intro i _; rfl
  | cons c cs ih =>
    intro i h
    simp only [occurrences_from]
    rw [List.count_eq_zero_of_not_mem (h c (List.mem_cons_self _ _)),
      ih (i + 1) (fun d hd => h d (List.mem_cons_of_mem _ hd))]
    rfl

theorem occurrences_from_length_le (m : Int) :
    ∀ (cs : Cnf) (i : Nat), (occurrences_from m cs i).length ≤ (cs.map List.length).sum := by
  intro cs
  induction cs with
  | nil => intro i; simp [occurrences_from]
  | cons c cs ih =>
    intro i
    rw [occurrences_from_length_cons, List.map_cons, List.sum_cons]
    have := ih (i + 1)
    have := List.count_le_length m c
    omega

theorem rd_replicate_some {α : Type} {n : Nat} {a v : α} {i : Int}
    (h : rd (List.replicate n a) i = some v) : v = a := by
  obtain ⟨_, h1⟩ := rd_some h
  rw [List.getElem?_replicate] at h1
  split at h1
  · simpa using h1.symm
  · cases h1

/-- A completed `initiate` did not overflow. -/
theorem initiate_inv {junk : Int} {cnf : Cnf} {s s0 : Solver} (hnv : 0 ≤ s.num_variables)
    (h : initiate junk cnf s = some s0) : Fits cnf s := by
  unfold initiate at h
  simp only at h
  by_cases hg : 2147483647 < s.num_variables + 2 ∨ 2147483647 < (s.num_clauses : Int) + 1 ∨
      2147483647 < 2 * (s.num_variables + 1) + 1
  · rw [if_pos hg] at h; cases h
  · rw [if_neg hg] at h
    cases hc : count_cnf s.num_variables cnf
        (List.replicate (2 * (s.num_variables + 1) + 1).toNat 0) with
    | none => rw [hc] at h; cases h
    | some hs =>
      rw [hc] at h
      simp only at h
      by_cases hg2 : ∃ n ∈ hs, 2147483647 < n + 1
      · rw [if_pos hg2] at h; cases h
      · rw [if_neg hg2] at h
        cases hf : fill_cnf s.num_variables cnf 0
            (hs.map (fun n => (-1 : Int) :: List.replicate n.toNat junk)) with
        | none => rw [hf] at h; cases h
        | some hold =>
          rw [hf] at h
          simp only at h
          cases hb : count_blocks (if s.num_clauses / MILESTONE_PARAM < 100 then 100
              else s.num_clauses / MILESTONE_PARAM) s.num_clauses (s.num_clauses + 1) 0 with
          | none => rw [hb] at h; cases h
          | some b =>
            have hstep : 0 < (if s.num_clauses / MILESTONE_PARAM < 100 then 100
                else s.num_clauses / MILESTONE_PARAM) := by
              split <;> omega
            obtain ⟨b1, b2⟩ := count_blocks_inv s.num_clauses _ _ _ hb
            have hle : num_blocks (if s.num_clauses / MILESTONE_PARAM < 100 then 100
                else s.num_clauses / MILESTONE_PARAM) s.num_clauses ≤ b := by
              by_contra hcon
              exact b2 ((lt_num_blocks hstep _ _).2 (by omega))
            obtain ⟨_, c2, c3⟩ := count_cnf_inv _ _ 0 _ _ hc
            have hrange : ∀ c ∈ cnf, ∀ l ∈ c,
                -s.num_variables - 1 ≤ l ∧ l ≤ s.num_variables + 1 := by
              intro c hcm l hl
              have := c2 c hcm l hl
              rw [List.length_replicate] at this
              omega
            refine ⟨by omega, by omega, le_trans (Nat.mul_le_mul_right _ hle) b1, hrange, ?_⟩
            intro m
            by_cases hm : -s.num_variables - 1 ≤ m ∧ m ≤ s.num_variables + 1
            · have h3 := c3 m
              rw [rd_replicate _ _ (by omega) (by omega)] at h3
              simp only [Option.map_some', Int.zero_add] at h3
              have hmem : ((occurrences_from m cnf 0).length : Int) ∈ hs :=
                List.getElem?_mem (rd_some h3).2
              by_contra hcon
              exact hg2 ⟨_, hmem, by unfold occurrences at hcon; omega⟩
            · have hnil : occurrences cnf m = [] := by
                unfold occurrences
                apply occurrences_from_nil
                intro c hcm hmc
                exact hm (hrange c hcm m hmc)
              rw [hnil]
              simp

/-- What `initiate` builds from the sizes set by `get_size`. -/
theorem initiate_spec (junk : Int) (cnf : Cnf) (s : Solver) (hnv : 0 ≤ s.num_variables)
    (hnc : s.num_clauses = cnf.length) (hfit : Fits cnf s) :
    ∃ s0, initiate junk cnf s = some s0 ∧ ActiveOK s0 ∧
      s0.num_variables = s.num_variables ∧ s0.num_clauses = s.num_clauses ∧
      s0.buffer = s.buffer ∧
      s0.solution = 's' :: (List.replicate s.num_variables.toNat '|' ++ ['\x00']) ∧
      s0.constraints = List.replicate s.num_clauses 'y' ++ ['\x00'] ∧
      s0.num_constraints = (s.num_clauses : Int) ∧
      s0.step = (if s.num_clauses / MILESTONE_PARAM < 100 then 100
                  else s.num_clauses / MILESTONE_PARAM) ∧
      s0.milestones.length = num_blocks s0.step s0.num_clauses + 1 ∧
      ∀ m : Int, -s.num_variables - 1 ≤ m → m ≤ s.num_variables + 1 →
        rd s0.hold (s.num_variables + m + 1)
          = some ((occurrences cnf m).map (fun (i : Nat) => (i : Int)) ++ [(-1 : Int)]) ∧
        rd s0.hold_size (s.num_variables + m + 1) = some ((occurrences cnf m).length : Int) := by
  have hrange : ∀ c ∈ cnf, ∀ l ∈ c, -s.num_variables - 1 ≤ l ∧ l ≤ s.num_variables + 1 :=
    hfit.lits
  have hguard : ¬ (2147483647 < s.num_variables + 2 ∨ 2147483647 < (s.num_clauses : Int) + 1 ∨
      2147483647 < 2 * (s.num_variables + 1) + 1) := by
    have := hfit.size
    have := hfit.count
    omega
  have hprod := hfit.prod
  have hH : (((2 * (s.num_variables + 1) + 1).toNat : Nat) : Int) = 2 * (s.num_variables + 1) + 1 := by
    omega
  -- the counts
  obtain ⟨hs1, c1, c2, c3⟩ := count_cnf_spec s.num_variables cnf 0
    (List.replicate (2 * (s.num_variables + 1) + 1).toNat 0)
    (by
      intro c hc l hlc
      obtain ⟨h1, h2⟩ := hrange c hc l hlc
      exact ⟨0, rd_replicate _ _ (by omega) (by omega)⟩)
    (by
      intro m v hv
      rw [rd_replicate_some hv]
      have := hfit.occ m
      unfold occurrences at this
      omega)
  have hsize : ∀ m : Int, -s.num_variables - 1 ≤ m → m ≤ s.num_variables + 1 →
      rd hs1 (s.num_variables + m + 1) = some ((occurrences cnf m).length : Int) := by
    intro m h1 h2
    rw [c3 m, rd_replicate _ _ (by omega) (by omega)]
    simp [occurrences]
  have hguard2 : ¬ ∃ n ∈ hs1, 2147483647 < n + 1 := by
    rintro ⟨n, hn, hlt⟩
    obtain ⟨k, hk⟩ := List.mem_iff_getElem?.1 hn
    have hkl : k < hs1.length := by
      rcases List.getElem?_eq_some.1 hk with ⟨hl, _⟩
      exact hl
    rw [c2, List.length_replicate] at hkl
    have hm := hsize ((k : Int) - s.num_variables - 1) (by omega) (by omega)
    have e : s.num_variables + ((k : Int) - s.num_variables - 1) + 1 = (k : Int) := by omega
    rw [e, rd_natCast, hk] at hm
    simp only [Option.some.injEq] at hm
    have := hfit.occ ((k : Int) - s.num_variables - 1)
    omega
  -- the rows
  obtain ⟨hold, f1, f2⟩ := fill_cnf_spec s.num_variables (fun _ => 0) cnf 0 (fun _ => [])
    (hs1.map (fun n => (-1 : Int) :: List.replicate n.toNat junk)) hrange
    (by
      intro m h1 h2
      refine ⟨(-1 : Int) :: List.replicate (occurrences cnf m).length junk, ?_,
        List.replicate (occurrences cnf m).length junk, by simp, ?_⟩
      · rw [rd_map, hsize m h1 h2]
        simp
      · simp [occurrences])
  have hrows : ∀ m : Int, -s.num_variables - 1 ≤ m → m ≤ s.num_variables + 1 →
      rd hold (s.num_variables + m + 1)
        = some ((occurrences cnf m).map (fun (i : Nat) => (i : Int)) ++ [(-1 : Int)]) := by
    intro m h1 h2
    obtain ⟨row, hrow, rest, hr1, hr2⟩ := f2 m h1 h2
    have : rest = [] := List.length_eq_zero.1 hr2
    subst this
    rw [hrow, hr1]
    simp [occurrences]
  -- the block index
  have hstep : 0 < (if s.num_clauses / MILESTONE_PARAM < 100 then 100
      else s.num_clauses / MILESTONE_PARAM) := by
    split <;> omega
  generalize hst : (if s.num_clauses / MILESTONE_PARAM < 100 then 100
      else s.num_clauses / MILESTONE_PARAM) = step at hstep hprod
  have hBle := num_blocks_le hstep s.num_clauses
  have b1 := count_blocks_spec hstep s.num_clauses hprod (s.num_clauses + 1) 0 (Nat.zero_le _)
    (by omega)
  obtain ⟨ms, m1, m2, m3⟩ := fill_milestones_spec hstep s.num_clauses hprod
    (s.num_clauses + 1) 0
    (List.replicate (num_blocks step s.num_clauses + 1) junk) (Nat.zero_le _) (by omega)
    (by simp)
  refine ⟨{ s with solution := 's' :: (List.replicate s.num_variables.toNat '|' ++ ['\x00']),
                   constraints := List.replicate s.num_clauses 'y' ++ ['\x00'],
                   num_constraints := (s.num_clauses : Int), hold_size := hs1,
                   hold := hold, step := step, milestones := ms }, ?_, ?_, rfl, rfl, rfl, rfl,
          rfl, rfl, rfl, ?_, ?_⟩
  · simp only [initiate, if_neg hguard, c1, if_neg hguard2, f1, hst, b1, m1]
  · refine ⟨hstep, by simp, ?_, ?_, ?_, ?_⟩
    · intro i hi
      left
      show (List.replicate s.num_clauses 'y' ++ ['\x00'])[i]? = some 'y'
      rw [List.getElem?_append_left (by simpa using hi), List.getElem?_replicate, if_pos hi]
    · show (List.replicate s.num_clauses 'y' ++ ['\x00'])[s.num_clauses]? = some '\x00'
      rw [List.getElem?_append_right (by simp)]
      simp
    · show (s.num_clauses : Int)
        = (active_upto (List.replicate s.num_clauses 'y' ++ ['\x00']) s.num_clauses : Int)
      rw [active_upto_replicate _ _ (le_refl _)]
    · intro k hk
      show ms[k]? = some ((active_upto (List.replicate s.num_clauses 'y' ++ ['\x00'])
        (min (k * step) s.num_clauses) : Nat) : Int)
      rw [m3 k, if_pos ⟨Nat.zero_le _, hk⟩, active_upto_replicate _ _ (Nat.min_le_right _ _)]
  · show ms.length = num_blocks step s.num_clauses + 1
    rw [m2]; simp
  · intro m h1 h2
    exact ⟨hrows m h1 h2, hsize m h1 h2⟩

theorem get_size_nonneg (cnf : Cnf) (s : Solver) : 0 ≤ (get_size cnf s).num_variables :=
  get_size_loop_mono cnf 0 0

theorem get_size_num_clauses (cnf : Cnf) (s : Solver) :
    (get_size cnf s).num_clauses = cnf.length := by
  simp [get_size, get_size_loop_count]

theorem get_size_bound (cnf : Cnf) (s : Solver) :
    ∀ c ∈ cnf, ∀ l ∈ c, abs l ≤ (get_size cnf s).num_variables :=
  get_size_loop_bound cnf 0 0

/-! ### Frames and set-up -/

theorem same_frame_refl (s : Solver) : same_frame s s :=
  ⟨rfl, rfl, rfl, rfl, rfl, rfl, rfl⟩

theorem same_frame_trans {s s1 s2 : Solver} (h1 : same_frame s s1) (h2 : same_frame s1 s2) :
    same_frame s s2 := by
  obtain ⟨a1, a2, a3, a4, a5, a6, a7⟩ := h1
  obtain ⟨b1, b2, b3, b4, b5, b6, b7⟩ := h2
  exact ⟨b1.trans a1, b2.trans a2, b3.trans a3, b4.trans a4, b5.trans a5, b6.trans a6,
    b7.trans a7⟩

theorem is_solved_congr {s s1 : Solver} (h : s1.solution = s.solution) (cnf : Cnf) (i : Nat) :
    is_solved s1 cnf i = is_solved s cnf i := by
  unfold is_solved
  rw [h]

theorem setup_frame {cnf : Cnf} {s s1 : Solver} (st : Setup cnf s) (h : same_frame s s1) :
    Setup cnf s1 := by
  obtain ⟨a1, a2, _, a4, a5, _, a7⟩ := h
  refine ⟨by rw [a2]; exact st.nc, by rw [a1]; exact st.nv, ?_, ?_, ?_, by rw [a7]; exact st.buf⟩
  · rw [a1]; exact st.lits
  · rw [a1, a5]; exact st.sol
  · rw [a1, a4]; exact st.occ

theorem setup_valid {cnf : Cnf} {s : Solver} (st : Setup cnf s) :
    ∀ c ∈ cnf, ∀ l ∈ c, ∃ ch, rd s.solution (abs l) = some ch ∧ valid_state ch := by
  intro c hc l hl
  obtain ⟨h0, h1⟩ := st.lits c hc l hl
  exact st.sol (abs l) h0 h1

theorem is_solved_F_iff {cnf : Cnf} {s : Solver} (st : Setup cnf s) {i : Nat} {c : Clause}
    (hc : cnf[i]? = some c) : is_solved s cnf i = some 'F' ↔ ¬ satisfied s.solution c := by
  unfold is_solved
  rw [hc]
  exact is_solved_scan_F _ _ (setup_valid st c (List.getElem?_mem hc))

theorem is_solved_T_iff {cnf : Cnf} {s : Solver} (st : Setup cnf s) {i : Nat} {c : Clause}
    (hc : cnf[i]? = some c) : is_solved s cnf i = some 'T' ↔ satisfied s.solution c := by
  unfold is_solved
  rw [hc]
  exact is_solved_scan_T _ _ (setup_valid st c (List.getElem?_mem hc))

theorem rd_solution_start (nv : Int) (v : Int) (h1 : 1 ≤ v) (h2 : v ≤ nv) :
    rd ('s' :: (List.replicate nv.toNat '|' ++ ['\x00'])) v = some '|' := by
  rw [rd_of_nonneg _ (by omega)]
  obtain ⟨k, hk⟩ : ∃ k : Nat, v.toNat = k + 1 := ⟨v.toNat - 1, by omega⟩
  rw [hk, List.getElem?_cons_succ, List.getElem?_append_left (by simp; omega),
    List.getElem?_replicate, if_pos (by omega)]

/-- A database within the sizes of `int_sized` does not make `initiate`
overflow. -/
theorem fits_of_sized {cnf : Cnf} (hsz : int_sized cnf) : Fits cnf (get_size cnf boot) := by
  obtain ⟨hlen, hsum, hlit⟩ := hsz
  have hnv := get_size_nonneg cnf boot
  have hnc := get_size_num_clauses cnf boot
  have hmax : (get_size cnf boot).num_variables ≤ 1073741822 := by
    rcases get_size_loop_attained cnf 0 0 with h | ⟨c, hc, l, hl, hle⟩
    · show (get_size_loop cnf 0 0).1 ≤ 1073741822
      rw [h]; omega
    · show (get_size_loop cnf 0 0).1 ≤ 1073741822
      rw [← hle]
      have := hlit c hc l hl
      unfold abs negate
      split_ifs <;> omega
  refine ⟨by omega, by rw [hnc]; omega, ?_, ?_, ?_⟩
  · rw [hnc]
    have hstep : 0 < (if cnf.length / MILESTONE_PARAM < 100 then 100
        else cnf.length / MILESTONE_PARAM) := by
      split <;> omega
    have hle : (if cnf.length / MILESTONE_PARAM < 100 then 100
        else cnf.length / MILESTONE_PARAM) ≤ cnf.length / 100 + 100 := by
      unfold MILESTONE_PARAM
      split <;> omega
    generalize (if cnf.length / MILESTONE_PARAM < 100 then 100
        else cnf.length / MILESTONE_PARAM) = step at hstep hle
    have := Nat.div_mul_le_self (cnf.length + step - 1) step
    unfold num_blocks
    omega
  · intro c hc l hl
    have h1 := get_size_bound cnf boot c hc l hl
    have h2 := hlit c hc l hl
    have := (abs_le_iff (by omega)).1 h1
    omega
  · intro m
    have := occurrences_from_length_le m cnf 0
    unfold occurrences
    omega

/-- A completed `start` did not overflow. -/
theorem fits_of_start {junk : Int} {cnf : Cnf} {s0 : Solver} (h : start junk cnf = some s0) :
    Fits cnf (get_size cnf boot) :=
  initiate_inv (get_size_nonneg _ _) h

/-- Where `initiate` does not overflow, every literal is within the range of the
occurrence index, and is not `-2147483648`. -/
theorem fits_lits {cnf : Cnf} (hfit : Fits cnf (get_size cnf boot)) :
    ∀ c ∈ cnf, ∀ l ∈ c, l ≠ -2147483648 ∧ -(get_size cnf boot).num_variables ≤ l ∧
      l ≤ (get_size cnf boot).num_variables := by
  intro c hc l hl
  have h1 := get_size_bound cnf boot c hc l hl
  have h2 := hfit.lits c hc l hl
  have h3 := hfit.size
  have h4 := get_size_nonneg cnf boot
  have hne : l ≠ -2147483648 := by omega
  have := (abs_le_iff hne).1 h1
  exact ⟨hne, this.1, this.2⟩

/-- The state in which `solve` is entered is consistent. -/
theorem start_spec (junk : Int) (cnf : Cnf) (hwf : well_formed cnf)
    (hfit : Fits cnf (get_size cnf boot)) :
    ∃ s0, start junk cnf = some s0 ∧ ActiveOK s0 ∧ Setup cnf s0 ∧ in_sync cnf s0 ∧
      s0.num_constraints = (cnf.length : Int) ∧
      (∀ v : Int, 1 ≤ v → v ≤ s0.num_variables → rd s0.solution v = some '|') := by
  obtain ⟨s0, h1, h2, h3, h4, h5, h6, h7, h8, _, _, h11⟩ := initiate_spec junk cnf
    (get_size cnf boot) (get_size_nonneg _ _) (get_size_num_clauses _ _) hfit
  have hsol : ∀ v : Int, 1 ≤ v → v ≤ s0.num_variables → rd s0.solution v = some '|' := by
    intro v hv1 hv2
    rw [h6]
    rw [h3] at hv2
    exact rd_solution_start _ v hv1 hv2
  have st : Setup cnf s0 := by
    refine ⟨by rw [h4, get_size_num_clauses], by rw [h3]; exact get_size_nonneg _ _, ?_, ?_, ?_,
      by rw [h5]; rfl⟩
    · intro c hc l hl
      exact ⟨abs_pos_of (hwf c hc l hl) (fits_lits hfit c hc l hl).1,
        by rw [h3]; exact get_size_bound cnf boot c hc l hl⟩
    · intro v hv1 hv2
      exact ⟨'|', hsol v hv1 hv2, Or.inl rfl⟩
    · intro l _ hl1 hl2
      rw [h3] at hl1 hl2 ⊢
      exact ⟨[], (h11 l (by omega) (by omega)).1⟩
  refine ⟨s0, h1, h2, st, ?_, by rw [h8, get_size_num_clauses], hsol⟩
  intro i hi
  have hi' : i < cnf.length := by rw [← st.nc]; exact hi
  have hc : cnf[i]? = some cnf[i] := List.getElem?_eq_getElem hi'
  rw [is_solved_F_iff st hc]
  have hy : s0.constraints[i]? = some 'y' := by
    rw [h7, List.getElem?_append_left (by simpa [h4] using hi), List.getElem?_replicate,
      if_pos (by rw [← h4]; exact hi)]
  constructor
  · intro _
    rintro ⟨l, hl, hlt⟩
    obtain ⟨l0, l1⟩ := st.lits _ (List.getElem?_mem hc) l hl
    have hu := hsol (abs l) l0 l1
    unfold lit_true at hlt
    rw [hu] at hlt
    rcases hlt with ⟨_, h⟩ | ⟨_, h⟩ <;> simp at h
  · intro _; exact hy

/-! ### elect -/

theorem unassigned_cons_pos (sol : List Char) (l : Int) (ls : Clause)
    (h : rd sol (abs l) = some '|') :
    unassigned_lits sol (l :: ls) = l :: unassigned_lits sol ls := by
  simp [unassigned_lits, h]

theorem unassigned_cons_neg (sol : List Char) (l : Int) (ls : Clause)
    (h : ¬ rd sol (abs l) = some '|') :
    unassigned_lits sol (l :: ls) = unassigned_lits sol ls := by
  simp [unassigned_lits, h]

/-- What a completed run of the loop of `elect` has computed. -/
theorem elect_scan_result (sol : List Char) :
    ∀ (c : Clause) (buf : List Int) (a j : Nat) (buf1 : List Int) (a1 j1 : Nat),
      elect_scan sol c buf a j = some (buf1, a1, j1) →
      a1 = a + (unassigned_lits sol c).length ∧ j1 = j + c.length ∧
        buf1.length = buf.length ∧
        (∀ k, k < (unassigned_lits sol c).length →
          buf1[a + k]? = (unassigned_lits sol c)[k]?) ∧
        (∀ k, k < a → buf1[k]? = buf[k]?) ∧
        ((unassigned_lits sol c).length = 0 ∨ a + (unassigned_lits sol c).length < buf.length) := by
  intro c
  induction c with
  | nil =>
    intro buf a j buf1 a1 j1 h
    simp only [elect_scan, Option.some.injEq, Prod.mk.injEq] at h
    obtain ⟨rfl, rfl, rfl⟩ := h
    simp [unassigned_lits]
  | cons l ls ih =>
    intro buf a j buf1 a1 j1 h
    simp only [elect_scan] at h
    split at h
    · cases h
    · rename_i ch hch
      by_cases hu : ch = '|'
      · subst hu
        rw [if_pos rfl] at h
        split at h
        · cases h
        · rename_i b1 hb1
          split at h
          · cases h
          · rename_i b2 hb2
            obtain ⟨w1, rfl⟩ := wrN_some hb1
            obtain ⟨w2, rfl⟩ := wrN_some hb2
            obtain ⟨e1, e2, e3, e4, e5, e6⟩ := ih _ _ _ _ _ _ h
            rw [unassigned_cons_pos sol l ls hch]
            simp only [List.length_set] at e3 e6 w2
            refine ⟨by simp only [List.length_cons]; omega, by simp only [List.length_cons]; omega,
              e3, ?_, ?_, Or.inr (by simp only [List.length_cons]; omega)⟩
            · intro k hk
              cases k with
              | zero =>
                rw [Nat.add_zero, e5 a (by omega), List.getElem?_set, if_neg (by omega),
                  List.getElem?_set, if_pos rfl, if_pos w1]
                simp
              | succ k =>
                simp only [List.length_cons] at hk
                have := e4 k (by omega)
                rw [show a + (k + 1) = a + 1 + k by omega, this]
                simp
            · intro k hk
              rw [e5 k (by omega), List.getElem?_set, if_neg (by omega), List.getElem?_set,
                if_neg (by omega)]
      · rw [if_neg hu] at h
        have hn : ¬ rd sol (abs l) = some '|' := by rw [hch]; simpa using hu
        obtain ⟨e1, e2, e3, e4, e5, e6⟩ := ih _ _ _ _ _ _ h
        rw [unassigned_cons_neg sol l ls hn]
        exact ⟨e1, by simp only [List.length_cons]; omega, e3, e4, e5, e6⟩

/-- The loop of `elect` completes when the buffer has room for the unassigned
literals and the terminator. -/
theorem elect_scan_runs (sol : List Char) :
    ∀ (c : Clause) (buf : List Int) (a j : Nat),
      (∀ l ∈ c, ∃ ch, rd sol (abs l) = some ch) →
      a + (unassigned_lits sol c).length < buf.length →
      ∃ r, elect_scan sol c buf a j = some r := by
  intro c
  induction c with
  | nil => intro buf a j _ _; exact ⟨_, rfl⟩
  | cons l ls ih =>
    intro buf a j hv hroom
    obtain ⟨ch, hch⟩ := hv l (List.mem_cons_self _ _)
    have hv1 : ∀ x ∈ ls, ∃ ch, rd sol (abs x) = some ch :=
      fun x hx => hv x (List.mem_cons_of_mem _ hx)
    simp only [elect_scan, hch]
    by_cases hu : ch = '|'
    · subst hu
      rw [unassigned_cons_pos sol l ls hch] at hroom
      simp only [List.length_cons] at hroom
      have w1 : a < buf.length := by omega
      have w2 : a + 1 < (buf.set a l).length := by rw [List.length_set]; omega
      simp only [if_true, wrN, w1, w2]
      exact ih _ _ _ hv1 (by simp only [List.length_set]; omega)
    · have hn : ¬ rd sol (abs l) = some '|' := by rw [hch]; simpa using hu
      rw [unassigned_cons_neg sol l ls hn] at hroom
      rw [if_neg hu]
      exact ih _ _ _ hv1 hroom

theorem unassigned_sub (sol : List Char) (c : Clause) : ∀ x ∈ unassigned_lits sol c, x ∈ c := by
  intro x hx
  exact (List.mem_filter.1 hx).1

/-- What a completed call of `elect` returns. -/
theorem elect_result {s s1 : Solver} {cnf : Cnf} {rnd : Nat → Nat} {p p1 : Nat} {i x : Int}
    (h : elect s cnf rnd p i = some (x, s1, p1)) :
    ∃ cl, rd cnf i = some cl ∧ x ∈ cl ∧ p1 = p + 1 ∧
      (∃ buf, s1 = { s with buffer := buf } ∧ buf.length = s.buffer.length) ∧
      (unassigned_lits s.solution cl ≠ [] →
        (unassigned_lits s.solution cl)[rnd p % (unassigned_lits s.solution cl).length]? = some x) ∧
      (unassigned_lits s.solution cl = [] → cl[rnd p % cl.length]? = some x) := by
  unfold elect at h
  split at h
  · cases h
  · rename_i cl hcl
    split at h
    · cases h
    · rename_i buf0 hb0
      obtain ⟨_, rfl⟩ := wrN_some hb0
      split at h
      · cases h
      · rename_i buf a j hscan
        obtain ⟨e1, e2, e3, e4, _, _⟩ := elect_scan_result _ _ _ _ _ _ _ _ hscan
        simp only [Nat.zero_add, List.length_set] at e1 e2 e3 e4
        refine ⟨cl, hcl, ?_⟩
        by_cases ha : a > 0
        · rw [if_pos ha] at h
          split at h
          · cases h
          · rename_i y hy
            simp only [Option.some.injEq, Prod.mk.injEq] at h
            obtain ⟨rfl, rfl, rfl⟩ := h
            have hlt : rnd p % a < (unassigned_lits s.solution cl).length := by
              rw [← e1]; exact Nat.mod_lt _ ha
            have hyU : (unassigned_lits s.solution cl)[rnd p % a]? = some y := by
              rw [← e4 _ hlt]; exact hy
            refine ⟨unassigned_sub _ _ _ (List.getElem?_mem hyU), rfl, ⟨buf, rfl, e3⟩, ?_, ?_⟩
            · intro _; rw [← e1]; exact hyU
            · intro hnil; rw [hnil] at e1; simp at e1; omega
        · rw [if_neg ha] at h
          by_cases hj : j = 0
          · rw [if_pos hj] at h; cases h
          · rw [if_neg hj] at h
            split at h
            · cases h
            · rename_i y hy
              simp only [Option.some.injEq, Prod.mk.injEq] at h
              obtain ⟨rfl, rfl, rfl⟩ := h
              refine ⟨List.getElem?_mem hy, rfl, ⟨buf, rfl, e3⟩, ?_, ?_⟩
              · intro hne
                have : (unassigned_lits s.solution cl).length ≠ 0 := by
                  intro h0; exact hne (List.length_eq_zero.1 h0)
                omega
              · intro _; rw [← e2]; exact hy

/-- `elect` completes on a non-empty clause with at most 68 unassigned
literals. -/
theorem elect_runs {s : Solver} {cnf : Cnf} (rnd : Nat → Nat) (p : Nat) {i : Int} {c : Clause}
    (hc : rd cnf i = some c) (hne : c ≠ [])
    (hv : ∀ l ∈ c, ∃ ch, rd s.solution (abs l) = some ch)
    (hbuf : s.buffer.length = 69) (hroom : (unassigned_lits s.solution c).length ≤ 68) :
    ∃ r, elect s cnf rnd p i = some r := by
  have w0 : 0 < s.buffer.length := by omega
  obtain ⟨⟨buf, a, j⟩, hscan⟩ := elect_scan_runs s.solution c (s.buffer.set 0 0) 0 0 hv
    (by simp only [List.length_set]; omega)
  obtain ⟨e1, e2, e3, e4, _, _⟩ := elect_scan_result _ _ _ _ _ _ _ _ hscan
  simp only [Nat.zero_add, List.length_set] at e1 e2 e3 e4
  simp only [elect, hc, wrN, w0, if_true, hscan]
  by_cases ha : a > 0
  · rw [if_pos ha]
    have hlt : rnd p % a < (unassigned_lits s.solution c).length := by
      rw [← e1]; exact Nat.mod_lt _ ha
    have := e4 _ hlt
    rw [List.getElem?_eq_getElem hlt] at this
    rw [this]
    exact ⟨_, rfl⟩
  · rw [if_neg ha]
    have hj : j ≠ 0 := by
      rw [e2]
      intro h0
      exact hne (List.length_eq_zero.1 h0)
    rw [if_neg hj]
    have hlt : rnd p % j < c.length := by
      rw [← e2]; exact Nat.mod_lt _ (by omega)
    rw [List.getElem?_eq_getElem hlt]
    exact ⟨_, rfl⟩

/-! ### The occurrence sequence -/

theorem mem_occurrences_from (l : Int) :
    ∀ (cs : Cnf) (i k : Nat), k ∈ occurrences_from l cs i ↔
      ∃ j cl, k = i + j ∧ cs[j]? = some cl ∧ l ∈ cl := by
  intro cs
  induction cs with
  | nil => intro i k; simp [occurrences_from]
  | cons c cs ih =>
    intro i k
    simp only [occurrences_from, List.mem_append, List.mem_replicate, ih]
    constructor
    · rintro (⟨h1, rfl⟩ | ⟨j, cl, rfl, h2, h3⟩)
      · exact ⟨0, c, rfl, by simp, List.count_pos_iff.1 (Nat.pos_of_ne_zero h1)⟩
      · exact ⟨j + 1, cl, by omega, by simpa using h2, h3⟩
    · rintro ⟨j, cl, rfl, h2, h3⟩
      cases j with
      | zero =>
        simp at h2
        subst h2
        left
        exact ⟨Nat.pos_iff_ne_zero.1 (List.count_pos_iff.2 h3), rfl⟩
      | succ j =>
        right
        exact ⟨j, cl, by omega, by simpa using h2, h3⟩

theorem mem_occurrences (cnf : Cnf) (l : Int) (k : Nat) :
    k ∈ occurrences cnf l ↔ ∃ cl, cnf[k]? = some cl ∧ l ∈ cl := by
  unfold occurrences
  rw [mem_occurrences_from]
  constructor
  · rintro ⟨j, cl, rfl, h2, h3⟩
    exact ⟨cl, by simpa using h2, h3⟩
  · rintro ⟨cl, h2, h3⟩
    exact ⟨k, cl, by omega, h2, h3⟩

theorem occurrences_lt (cnf : Cnf) (l : Int) : ∀ k ∈ occurrences cnf l, k < cnf.length := by
  intro k hk
  obtain ⟨cl, h, _⟩ := (mem_occurrences cnf l k).1 hk
  rcases List.getElem?_eq_some.1 h with ⟨hl, _⟩
  exact hl

/-! ### The update loops of solve -/

theorem activeOK_frame {s s1 : Solver} (ok : ActiveOK s) (h1 : s1.num_clauses = s.num_clauses)
    (h2 : s1.num_constraints = s.num_constraints) (h3 : s1.constraints = s.constraints)
    (h4 : s1.milestones = s.milestones) (h5 : s1.step = s.step) : ActiveOK s1 := by
  refine ⟨by rw [h5]; exact ok.step_pos, by rw [h3, h1]; exact ok.len, ?_, ?_, ?_, ?_⟩
  · rw [h1, h3]; exact ok.flags
  · rw [h1, h3]; exact ok.term
  · rw [h1, h2, h3]; exact ok.count
  · rw [h1, h3, h4, h5]; exact ok.marks

theorem extract_all_spec :
    ∀ (A : List Nat) (rest : List Int) (s : Solver), ActiveOK s →
      (∀ i ∈ A, i < s.num_clauses) →
      ∃ s1, extract_all (A.map (fun (i : Nat) => (i : Int)) ++ (-1 : Int) :: rest) s = some s1 ∧
        ActiveOK s1 ∧ same_frame s s1 ∧
        ∀ k, s1.constraints[k]? = if k ∈ A then some 'n' else s.constraints[k]? := by
  intro A
  induction A with
  | nil =>
    intro rest s ok _
    exact ⟨s, by simp [extract_all], ok, same_frame_refl s, by simp⟩
  | cons a as ih =>
    intro rest s ok hA
    have ha : a < s.num_clauses := hA a (List.mem_cons_self _ _)
    obtain ⟨r, s1, h1, ok1, hc1, _, _⟩ := extract_spec ok ha
    have fr1 : same_frame s s1 := extract_frame h1
    obtain ⟨s2, h2, ok2, fr2, hc2⟩ := ih rest s1 ok1
      (fun i hi => by rw [fr1.2.1]; exact hA i (List.mem_cons_of_mem _ hi))
    refine ⟨s2, ?_, ok2, same_frame_trans fr1 fr2, ?_⟩
    · have hge : (a : Int) ≥ 0 := by omega
      have e : (a :: as).map (fun (i : Nat) => (i : Int)) ++ (-1 : Int) :: rest
          = (a : Int) :: (as.map (fun (i : Nat) => (i : Int)) ++ (-1 : Int) :: rest) := rfl
      rw [e, extract_all, if_pos hge]
      simp only [Int.toNat_ofNat, h1, h2]
    · intro k
      rw [hc2 k, hc1, List.getElem?_set]
      have hal : a < s.constraints.length := by rw [ok.len]; omega
      by_cases hk : k ∈ as
      · rw [if_pos hk, if_pos (List.mem_cons_of_mem _ hk)]
      · rw [if_neg hk]
        by_cases e : a = k
        · subst e
          rw [if_pos rfl, if_pos hal, if_pos (List.mem_cons_self _ _)]
        · rw [if_neg e, if_neg]
          intro hm
          rcases List.mem_cons.1 hm with h | h
          · exact e h.symm
          · exact hk h

theorem is_solved_total {cnf : Cnf} {s : Solver} (st : Setup cnf s) {i : Nat}
    (hi : i < cnf.length) :
    is_solved s cnf i = some 'T' ∨ is_solved s cnf i = some 'F' := by
  have hc : cnf[i]? = some cnf[i] := List.getElem?_eq_getElem hi
  unfold is_solved
  rw [hc]
  rcases is_solved_scan_cases s.solution cnf[i] (setup_valid st _ (List.getElem?_mem hc)) with
    ⟨_, h⟩ | ⟨_, h⟩
  · exact Or.inl h
  · exact Or.inr h

theorem insert_all_spec (cnf : Cnf) :
    ∀ (A : List Nat) (rest : List Int) (s : Solver), ActiveOK s → Setup cnf s →
      (∀ i ∈ A, i < s.num_clauses) →
      ∃ s1, insert_all cnf (A.map (fun (i : Nat) => (i : Int)) ++ (-1 : Int) :: rest) s = some s1 ∧
        ActiveOK s1 ∧ same_frame s s1 ∧
        ∀ k, k < s.num_clauses → (s1.constraints[k]? = some 'y' ↔
          (s.constraints[k]? = some 'y' ∨ (k ∈ A ∧ is_solved s cnf k = some 'F'))) := by
  intro A
  induction A with
  | nil =>
    intro rest s ok _ _
    exact ⟨s, by simp [insert_all], ok, same_frame_refl s, by simp⟩
  | cons a as ih =>
    intro rest s ok st hA
    have ha : a < s.num_clauses := hA a (List.mem_cons_self _ _)
    have hA1 : ∀ i ∈ as, i < s.num_clauses := fun i hi => hA i (List.mem_cons_of_mem _ hi)
    have hge : (a : Int) ≥ 0 := by omega
    have e : (a :: as).map (fun (i : Nat) => (i : Int)) ++ (-1 : Int) :: rest
        = (a : Int) :: (as.map (fun (i : Nat) => (i : Int)) ++ (-1 : Int) :: rest) := rfl
    have hTF : ('T' : Char) ≠ 'F' := by decide
    have hyn : ('y' : Char) ≠ 'n' := by decide
    rw [e, insert_all, if_pos hge]
    simp only [Int.toNat_ofNat]
    rcases ok.flags a ha with hy | hn
    · -- already active: skipped
      obtain ⟨s2, h2, ok2, fr2, hc2⟩ := ih rest s ok st hA1
      refine ⟨s2, by simp only [hy, hyn, if_false, h2], ok2, fr2, ?_⟩
      intro k hk
      rw [hc2 k hk]
      constructor
      · rintro (h | ⟨h1, h3⟩)
        · exact Or.inl h
        · exact Or.inr ⟨List.mem_cons_of_mem _ h1, h3⟩
      · rintro (h | ⟨h1, h3⟩)
        · exact Or.inl h
        · rcases List.mem_cons.1 h1 with rfl | h1
          · exact Or.inl hy
          · exact Or.inr ⟨h1, h3⟩
    · rcases is_solved_total st (by rw [← st.nc]; exact ha) with hT | hF
      · -- inactive and satisfied: skipped
        obtain ⟨s2, h2, ok2, fr2, hc2⟩ := ih rest s ok st hA1
        refine ⟨s2, by simp only [hn, if_true, hT, hTF, if_false, h2], ok2, fr2, ?_⟩
        intro k hk
        rw [hc2 k hk]
        constructor
        · rintro (h | ⟨h1, h3⟩)
          · exact Or.inl h
          · exact Or.inr ⟨List.mem_cons_of_mem _ h1, h3⟩
        · rintro (h | ⟨h1, h3⟩)
          · exact Or.inl h
          · rcases List.mem_cons.1 h1 with rfl | h1
            · rw [hT] at h3; simp at h3
            · exact Or.inr ⟨h1, h3⟩
      · -- inactive and violated: inserted
        obtain ⟨r, s1, h1, ok1, hc1, _, _⟩ := insert_spec ok ha
        have fr1 : same_frame s s1 := insert_frame h1
        have st1 : Setup cnf s1 := setup_frame st fr1
        obtain ⟨s2, h2, ok2, fr2, hc2⟩ := ih rest s1 ok1 st1
          (fun i hi => by rw [fr1.2.1]; exact hA1 i hi)
        refine ⟨s2, by simp only [hn, if_true, hF, h1, h2], ok2, same_frame_trans fr1 fr2, ?_⟩
        intro k hk
        have hal : a < s.constraints.length := by rw [ok.len]; omega
        rw [hc2 k (by rw [fr1.2.1]; exact hk), is_solved_congr fr1.2.2.2.2.1, hc1,
          List.getElem?_set]
        by_cases e : a = k
        · subst e
          rw [if_pos rfl, if_pos hal]
          constructor
          · intro _; exact Or.inr ⟨List.mem_cons_self _ _, hF⟩
          · intro _; exact Or.inl rfl
        · rw [if_neg e]
          constructor
          · rintro (h | ⟨h1, h3⟩)
            · exact Or.inl h
            · exact Or.inr ⟨List.mem_cons_of_mem _ h1, h3⟩
          · rintro (h | ⟨h1, h3⟩)
            · exact Or.inl h
            · rcases List.mem_cons.1 h1 with h | h1
              · exact absurd h.symm e
              · exact Or.inr ⟨h1, h3⟩

/-! ### The effect of a move on satisfaction -/

theorem abs_eq_abs {l x : Int} (h : abs l = abs x) : l = x ∨ l = -x := by
  unfold abs negate at h; split_ifs at h <;> omega

theorem lit_true_assign {sol sol1 : List Char} {x : Int} (hx : x ≠ 0)
    (hu : rd sol (abs x) = some '|')
    (hw : wr sol (abs x) (if x > 0 then '}' else '{') = some sol1) (l : Int) :
    lit_true sol1 l ↔ lit_true sol l ∨ l = x := by
  unfold lit_true
  rw [rd_wr hw]
  by_cases e : abs x = abs l
  · rw [if_pos e, ← e, hu]
    rcases abs_eq_abs e.symm with rfl | rfl
    · by_cases hp : l > 0
      · simp [hp]
      · have : l < 0 := by omega
        simp [hp, this]
    · by_cases hp : x > 0
      · have h1 : ¬ -x > 0 := by omega
        have h2 : ¬ -x = x := by omega
        simp [hp, h1, h2]
      · have h1 : ¬ -x < 0 := by omega
        have h2 : ¬ -x = x := by omega
        simp [hp, h1, h2]
  · rw [if_neg e]
    have : ¬ l = x := by rintro rfl; exact e rfl
    simp [this]

theorem lit_true_unassign {sol sol1 : List Char} {x : Int}
    (hw : wr sol (abs x) '|' = some sol1) (l : Int) :
    lit_true sol1 l ↔ lit_true sol l ∧ abs l ≠ abs x := by
  unfold lit_true
  rw [rd_wr hw]
  by_cases e : abs x = abs l
  · rw [if_pos e]
    simp [e]
  · rw [if_neg e]
    have : abs l ≠ abs x := fun h => e h.symm
    simp [this]

theorem satisfied_assign {sol sol1 : List Char} {x : Int} (hx : x ≠ 0)
    (hu : rd sol (abs x) = some '|')
    (hw : wr sol (abs x) (if x > 0 then '}' else '{') = some sol1) (cl : Clause) :
    satisfied sol1 cl ↔ satisfied sol cl ∨ x ∈ cl := by
  unfold satisfied
  constructor
  · rintro ⟨l, hl, ht⟩
    rcases (lit_true_assign hx hu hw l).1 ht with h | rfl
    · exact Or.inl ⟨l, hl, h⟩
    · exact Or.inr hl
  · rintro (⟨l, hl, ht⟩ | hxc)
    · exact ⟨l, hl, (lit_true_assign hx hu hw l).2 (Or.inl ht)⟩
    · exact ⟨x, hxc, (lit_true_assign hx hu hw x).2 (Or.inr rfl)⟩

theorem satisfied_unassign {sol sol1 : List Char} {x : Int}
    (hw : wr sol (abs x) '|' = some sol1) (cl : Clause) :
    satisfied sol1 cl ↔ ∃ l ∈ cl, lit_true sol l ∧ abs l ≠ abs x := by
  unfold satisfied
  constructor
  · rintro ⟨l, hl, ht⟩
    exact ⟨l, hl, (lit_true_unassign hw l).1 ht⟩
  · rintro ⟨l, hl, ht⟩
    exact ⟨l, hl, (lit_true_unassign hw l).2 ht⟩

/-! ### Frames of the update loops, for any completed run -/

theorem extract_all_frame :
    ∀ (row : List Int) (s s1 : Solver), extract_all row s = some s1 → same_frame s s1 := by
  intro row
  induction row with
  | nil => intro s s1 h; simp [extract_all] at h
  | cons e es ih =>
    intro s s1 h
    simp only [extract_all] at h
    split at h
    · split at h
      · cases h
      · rename_i r s2 h2
        exact same_frame_trans (extract_frame h2) (ih _ _ h)
    · simp only [Option.some.injEq] at h
      subst h
      exact same_frame_refl s

theorem insert_all_frame (cnf : Cnf) :
    ∀ (row : List Int) (s s1 : Solver), insert_all cnf row s = some s1 → same_frame s s1 := by
  intro row
  induction row with
  | nil => intro s s1 h; simp [insert_all] at h
  | cons e es ih =>
    intro s s1 h
    simp only [insert_all] at h
    split at h
    · split at h
      · cases h
      · split at h
        · split at h
          · cases h
          · split at h
            · split at h
              · cases h
              · rename_i r s2 h2
                exact same_frame_trans (insert_frame h2) (ih _ _ h)
            · exact ih _ _ h
        · exact ih _ _ h
    · simp only [Option.some.injEq] at h
      subst h
      exact same_frame_refl s

/-- The assignment array after any completed move. -/
theorem move_solution {cnf : Cnf} {s s1 : Solver} {x : Int} (h : move cnf s x = some s1) :
    (rd s.solution (abs x) = some '|' ∧
        wr s.solution (abs x) (if x > 0 then '}' else '{') = some s1.solution) ∨
      ((∃ ch, rd s.solution (abs x) = some ch ∧ ch ≠ '|') ∧
        wr s.solution (abs x) '|' = some s1.solution) := by
  unfold move at h
  split at h
  · cases h
  · rename_i ch hch
    by_cases hu : ch = '|'
    · subst hu
      rw [if_pos rfl] at h
      left
      refine ⟨hch, ?_⟩
      split at h
      · cases h
      · rename_i sol hsol
        split at h
        · cases h
        · split at h
          · cases h
          · rename_i sa hsa
            split at h
            · cases h
            · have f1 := extract_all_frame _ _ _ hsa
              have f2 := insert_all_frame _ _ _ _ h
              rw [hsol, f2.2.2.2.2.1, f1.2.2.2.2.1]
    · rw [if_neg hu] at h
      right
      refine ⟨⟨ch, hch, hu⟩, ?_⟩
      split at h
      · cases h
      · rename_i sol hsol
        split at h
        · cases h
        · split at h
          · cases h
          · rename_i sa hsa
            split at h
            · cases h
            · have f1 := insert_all_frame _ _ _ _ hsa
              have f2 := insert_all_frame _ _ _ _ h
              rw [hsol, f2.2.2.2.2.1, f1.2.2.2.2.1]

/-! ### A move keeps the state consistent -/

theorem setup_with_solution {cnf : Cnf} {s : Solver} (st : Setup cnf s) {sol : List Char}
    {i : Int} {v : Char} (hw : wr s.solution i v = some sol) (hv : valid_state v) :
    Setup cnf { s with solution := sol } := by
  refine ⟨st.nc, st.nv, st.lits, ?_, st.occ, st.buf⟩
  intro u h1 h2
  show ∃ ch, rd sol u = some ch ∧ valid_state ch
  rw [rd_wr hw]
  by_cases e : i = u
  · exact ⟨v, by rw [if_pos e], hv⟩
  · rw [if_neg e]; exact st.sol u h1 h2

theorem move_spec {cnf : Cnf} {s : Solver} (ok : ActiveOK s) (st : Setup cnf s)
    (sync : in_sync cnf s) {x : Int} (hx0 : 1 ≤ abs x) (hxv : abs x ≤ s.num_variables) :
    ∃ s1, move cnf s x = some s1 ∧ ActiveOK s1 ∧ Setup cnf s1 ∧ in_sync cnf s1 := by
  have hpos : 1 ≤ abs x := hx0
  obtain ⟨hxn, hxlo, hxhi⟩ := abs_range hx0 hxv
  obtain ⟨ch, hch, hvs⟩ := st.sol (abs x) hpos hxv
  obtain ⟨rest1, hrow1⟩ := st.occ x hxn hxlo hxhi
  obtain ⟨rest2, hrow2⟩ := st.occ (-x) (by omega) (by omega) (by omega)
  have hidx : s.num_variables + -x + 1 = s.num_variables - x + 1 := by omega
  rw [hidx] at hrow2
  have hocc : ∀ l : Int, ∀ i ∈ occurrences cnf l, i < s.num_clauses := by
    intro l i hi
    rw [st.nc]; exact occurrences_lt cnf l i hi
  by_cases hu : ch = '|'
  · subst hu
    obtain ⟨sol, hw⟩ : ∃ sol, wr s.solution (abs x) (if x > 0 then '}' else '{') = some sol :=
      ⟨_, wr_of_rd hch _⟩
    have hval : valid_state (if x > 0 then '}' else '{') := by
      unfold valid_state; split <;> simp
    have oka : ActiveOK { s with solution := sol } := activeOK_frame ok rfl rfl rfl rfl rfl
    have sta := setup_with_solution st hw hval
    obtain ⟨s1, h1, ok1, fr1, hc1⟩ := extract_all_spec (occurrences cnf x) rest1 _ oka (hocc x)
    have st1 := setup_frame sta fr1
    obtain ⟨s2, h2, ok2, fr2, hc2⟩ := insert_all_spec cnf (occurrences cnf (-x)) rest2 s1 ok1 st1
      (by rw [fr1.2.1]; exact hocc (-x))
    have st2 := setup_frame st1 fr2
    have hh1 : rd s1.hold (s1.num_variables - x + 1) = rd s.hold (s.num_variables - x + 1) := by
      rw [fr1.1, fr1.2.2.2.1]
    refine ⟨s2, ?_, ok2, st2, ?_⟩
    · simp only [move, hch, if_true, hw, hrow1, h1, hh1, hrow2, h2]
    · intro k hk
      have hk0 : k < s.num_clauses := by rw [fr2.2.1, fr1.2.1] at hk; exact hk
      have hkl : k < cnf.length := by rw [← st.nc]; exact hk0
      have hc : cnf[k]? = some cnf[k] := List.getElem?_eq_getElem hkl
      have hsol2 : s2.solution = sol := by
        rw [fr2.2.2.2.2.1, fr1.2.2.2.2.1]
      rw [is_solved_F_iff st2 hc, hsol2,
        hc2 k (by rw [fr1.2.1]; exact hk0), is_solved_F_iff st1 hc, fr1.2.2.2.2.1, hc1 k]
      show _ ↔ ¬ satisfied sol cnf[k]
      have hs := sync k hk0
      rw [is_solved_F_iff st hc] at hs
      have hm : k ∈ occurrences cnf x ↔ x ∈ cnf[k] := by
        rw [mem_occurrences]
        constructor
        · rintro ⟨cl, h3, h4⟩
          rw [hc] at h3
          simp only [Option.some.injEq] at h3
          rw [h3]; exact h4
        · intro h; exact ⟨_, hc, h⟩
      have hsa : satisfied sol cnf[k] ↔ satisfied s.solution cnf[k] ∨ x ∈ cnf[k] :=
        satisfied_assign hxn hch hw _
      rw [hsa]
      by_cases hxc : x ∈ cnf[k]
      · rw [if_pos (hm.2 hxc)]
        simp [hxc]
      · have : ¬ k ∈ occurrences cnf x := fun h => hxc (hm.1 h)
        rw [if_neg this, hs]
        simp only [hxc, or_false]
        tauto
  · obtain ⟨sol, hw⟩ : ∃ sol, wr s.solution (abs x) '|' = some sol := ⟨_, wr_of_rd hch _⟩
    have oka : ActiveOK { s with solution := sol } := activeOK_frame ok rfl rfl rfl rfl rfl
    have sta := setup_with_solution st hw (Or.inl rfl)
    obtain ⟨s1, h1, ok1, fr1, hc1⟩ := insert_all_spec cnf (occurrences cnf x) rest1 _ oka sta
      (hocc x)
    have st1 := setup_frame sta fr1
    obtain ⟨s2, h2, ok2, fr2, hc2⟩ := insert_all_spec cnf (occurrences cnf (-x)) rest2 s1 ok1 st1
      (by rw [fr1.2.1]; exact hocc (-x))
    have st2 := setup_frame st1 fr2
    have hh1 : rd s1.hold (s1.num_variables - x + 1) = rd s.hold (s.num_variables - x + 1) := by
      rw [fr1.1, fr1.2.2.2.1]
    refine ⟨s2, ?_, ok2, st2, ?_⟩
    · simp only [move, hch, hu, if_false, hw, hrow1, h1, hh1, hrow2, h2]
    · intro k hk
      have hk0 : k < s.num_clauses := by rw [fr2.2.1, fr1.2.1] at hk; exact hk
      have hkl : k < cnf.length := by rw [← st.nc]; exact hk0
      have hc : cnf[k]? = some cnf[k] := List.getElem?_eq_getElem hkl
      have hsol2 : s2.solution = sol := by
        rw [fr2.2.2.2.2.1, fr1.2.2.2.2.1]
      rw [is_solved_F_iff st2 hc, hsol2,
        hc2 k (by rw [fr1.2.1]; exact hk0), is_solved_F_iff st1 hc, fr1.2.2.2.2.1,
        hc1 k hk0, is_solved_F_iff sta hc]
      show _ ↔ ¬ satisfied sol cnf[k]
      have hs := sync k hk0
      rw [is_solved_F_iff st hc] at hs
      have hm : ∀ l : Int, k ∈ occurrences cnf l ↔ l ∈ cnf[k] := by
        intro l
        rw [mem_occurrences]
        constructor
        · rintro ⟨cl, h3, h4⟩
          rw [hc] at h3
          simp only [Option.some.injEq] at h3
          rw [h3]; exact h4
        · intro h; exact ⟨_, hc, h⟩
      have hsu := satisfied_unassign hw cnf[k]
      show (s.constraints[k]? = some 'y' ∨ _) ∨ _ ↔ _
      rw [hs]
      constructor
      · rintro ((h | ⟨_, h⟩) | ⟨_, h⟩)
        · intro h'
          obtain ⟨l, hl, ht, _⟩ := hsu.1 h'
          exact h ⟨l, hl, ht⟩
        · exact h
        · exact h
      · intro h
        by_cases hsat : satisfied s.solution cnf[k]
        · obtain ⟨l, hl, ht⟩ := hsat
          have hax : abs l = abs x := by
            by_contra hne
            exact h (hsu.2 ⟨l, hl, ht, hne⟩)
          rcases abs_eq_abs hax with rfl | rfl
          · exact Or.inl (Or.inr ⟨(hm _).2 hl, h⟩)
          · exact Or.inr ⟨(hm _).2 hl, h⟩
        · exact Or.inl (Or.inl hsat)

/-! ### The loop of solve -/

theorem good_with_buffer {cnf : Cnf} {s : Solver} (ok : ActiveOK s) (st : Setup cnf s)
    (sync : in_sync cnf s) (buf : List Int) (hb : buf.length = s.buffer.length) :
    ActiveOK { s with buffer := buf } ∧ Setup cnf { s with buffer := buf } ∧
      in_sync cnf { s with buffer := buf } := by
  refine ⟨activeOK_frame ok rfl rfl rfl rfl rfl,
    ⟨st.nc, st.nv, st.lits, st.sol, st.occ, by rw [← st.buf]; exact hb⟩, ?_⟩
  intro i hi
  have := sync i hi
  rw [show is_solved { s with buffer := buf } cnf i = is_solved s cnf i from
    is_solved_congr rfl cnf i]
  exact this

theorem choose_result {cnf : Cnf} {rnd : Nat → Nat} {s s1 : Solver} {p p1 : Nat} {x : Int}
    (h : choose cnf rnd s p = some (x, s1, p1)) :
    ∃ i p0 cl, find s rnd (p + 1) (Int.tmod (rnd p : Int) s.num_constraints) = some (i, p0) ∧
      rd cnf i = some cl ∧ x ∈ cl ∧
      ∃ buf, s1 = { s with buffer := buf } ∧ buf.length = s.buffer.length := by
  unfold choose at h
  split at h
  · cases h
  · rename_i i p0 hf
    obtain ⟨cl, h1, h2, _, h4, _, _⟩ := elect_result h
    exact ⟨i, p0, cl, hf, h1, h2, h4⟩

theorem solve_step_good {cnf : Cnf} {rnd : Nat → Nat} {s s2 : Solver} {p p2 : Nat}
    (ok : ActiveOK s) (st : Setup cnf s) (sync : in_sync cnf s)
    (h : solve_step cnf rnd s p = some (s2, p2)) :
    ActiveOK s2 ∧ Setup cnf s2 ∧ in_sync cnf s2 := by
  unfold solve_step at h
  split at h
  · cases h
  · rename_i x s1 p1 hch
    obtain ⟨i, p0, cl, _, hcl, hx, buf, rfl, hb⟩ := choose_result hch
    obtain ⟨ok1, st1, sync1⟩ := good_with_buffer ok st sync buf hb
    have hmem : cl ∈ cnf := List.getElem?_mem (rd_some hcl).2
    obtain ⟨hx0, hxv⟩ := st.lits cl hmem x hx
    obtain ⟨s3, hm, ok3, st3, sync3⟩ := move_spec ok1 st1 sync1 hx0 hxv
    rw [hm] at h
    simp only [Option.some.injEq, Prod.mk.injEq] at h
    obtain ⟨rfl, _⟩ := h
    exact ⟨ok3, st3, sync3⟩

theorem solve_step_runs {cnf : Cnf} (rnd : Nat → Nat) {s : Solver} (p : Nat)
    (ok : ActiveOK s) (st : Setup cnf s) (sync : in_sync cnf s) (hpos : 0 < s.num_constraints)
    (hw : ∀ cl ∈ cnf, cl ≠ [] ∧ cl.length ≤ 68) :
    ∃ r, solve_step cnf rnd s p = some r := by
  have h0 : 0 ≤ Int.tmod (rnd p : Int) s.num_constraints :=
    Int.tmod_nonneg _ (Int.ofNat_nonneg _)
  have h1 : Int.tmod (rnd p : Int) s.num_constraints < s.num_constraints :=
    Int.tmod_lt_of_pos _ hpos
  obtain ⟨i, p1, hf, hi, _, _⟩ := find_spec ok rnd (p + 1) h0 h1
  have hil : i < cnf.length := by rw [← st.nc]; exact hi
  have hcl : rd cnf (i : Int) = some cnf[i] := by
    rw [rd_natCast]; exact List.getElem?_eq_getElem hil
  have hmem : cnf[i] ∈ cnf := List.getElem_mem _
  obtain ⟨hne, hlen⟩ := hw _ hmem
  have hv : ∀ l ∈ cnf[i], ∃ ch, rd s.solution (abs l) = some ch := by
    intro l hl
    obtain ⟨ch, h, _⟩ := setup_valid st _ hmem l hl
    exact ⟨ch, h⟩
  have hroom : (unassigned_lits s.solution cnf[i]).length ≤ 68 :=
    le_trans (List.length_filter_le _ _) hlen
  obtain ⟨⟨x, s1, p2⟩, he⟩ := elect_runs rnd p1 hcl hne hv st.buf hroom
  obtain ⟨cl, hcl', hx, _, ⟨buf, rfl, hb⟩, _, _⟩ := elect_result he
  rw [hcl] at hcl'
  simp only [Option.some.injEq] at hcl'
  subst hcl'
  obtain ⟨ok1, st1, sync1⟩ := good_with_buffer ok st sync buf hb
  obtain ⟨hx0, hxv⟩ := st.lits _ hmem x hx
  obtain ⟨s3, hm, _⟩ := move_spec ok1 st1 sync1 hx0 hxv
  exact ⟨(s3, p2), by simp only [solve_step, choose, hf, he, hm]⟩

theorem solve_moves_good {cnf : Cnf} {rnd : Nat → Nat} :
    ∀ (n : Nat) (s s1 : Solver) (p p1 : Nat), ActiveOK s → Setup cnf s → in_sync cnf s →
      solve_moves cnf rnd n s p = some (s1, p1) →
      ActiveOK s1 ∧ Setup cnf s1 ∧ in_sync cnf s1 := by
  intro n
  induction n with
  | zero =>
    intro s s1 p p1 ok st sync h
    simp only [solve_moves, Option.some.injEq, Prod.mk.injEq] at h
    obtain ⟨rfl, _⟩ := h
    exact ⟨ok, st, sync⟩
  | succ n ih =>
    intro s s1 p p1 ok st sync h
    simp only [solve_moves] at h
    split at h
    · split at h
      · cases h
      · rename_i s2 p2 hs
        obtain ⟨ok2, st2, sync2⟩ := solve_step_good ok st sync hs
        exact ih _ _ _ _ ok2 st2 sync2 h
    · simp only [Option.some.injEq, Prod.mk.injEq] at h
      obtain ⟨rfl, _⟩ := h
      exact ⟨ok, st, sync⟩

theorem solve_moves_runs {cnf : Cnf} (rnd : Nat → Nat)
    (hw : ∀ cl ∈ cnf, cl ≠ [] ∧ cl.length ≤ 68) :
    ∀ (n : Nat) (s : Solver) (p : Nat), ActiveOK s → Setup cnf s → in_sync cnf s →
      ∃ r, solve_moves cnf rnd n s p = some r := by
  intro n
  induction n with
  | zero => intro s p _ _ _; exact ⟨_, rfl⟩
  | succ n ih =>
    intro s p ok st sync
    simp only [solve_moves]
    by_cases hpos : s.num_constraints > 0
    · rw [if_pos hpos]
      obtain ⟨⟨s2, p2⟩, hs⟩ := solve_step_runs rnd p ok st sync hpos hw
      obtain ⟨ok2, st2, sync2⟩ := solve_step_good ok st sync hs
      rw [hs]
      exact ih s2 p2 ok2 st2 sync2
    · rw [if_neg hpos]
      exact ⟨_, rfl⟩

/-! ### Reachable ActiveSet states -/

theorem reach_activeOK {s0 s : Solver} (ok0 : ActiveOK s0) (h : Reach s0 s) : ActiveOK s := by
  induction h with
  | init => exact ok0
  | ins s s1 i r _ hi hins ih =>
    obtain ⟨r', s', h1, ok1, _⟩ := insert_spec ih hi
    rw [hins] at h1
    simp only [Option.some.injEq, Prod.mk.injEq] at h1
    obtain ⟨_, rfl⟩ := h1
    exact ok1
  | ext s s1 i r _ hi hext ih =>
    obtain ⟨r', s', h1, ok1, _⟩ := extract_spec ih hi
    rw [hext] at h1
    simp only [Option.some.injEq, Prod.mk.injEq] at h1
    obtain ⟨_, rfl⟩ := h1
    exact ok1

theorem start_activeOK {junk : Int} {cnf : Cnf} {s0 : Solver} (h : start junk cnf = some s0) :
    ActiveOK s0 := by
  obtain ⟨s, h1, ok, _⟩ := initiate_spec junk cnf
    (get_size cnf boot) (get_size_nonneg _ _) (get_size_num_clauses _ _) (fits_of_start h)
  unfold start at h
  rw [h1] at h
  simp only [Option.some.injEq] at h
  subst h
  exact ok

theorem no_active_of_count_zero (cs : List Char) (m : Nat) (h : active_upto cs m = 0) :
    ∀ i, i < m → cs[i]? ≠ some 'y' := by
  intro i hi hy
  unfold active_upto at h
  have hmem : 'y' ∈ cs.take m := by
    apply List.getElem?_mem (n := i)
    rw [List.getElem?_take_of_lt hi]
    exact hy
  exact (List.count_eq_zero.1 h) hmem

/-! ### Order and multiplicity in the occurrence sequence -/

theorem occurrences_from_ge (l : Int) (cs : Cnf) (i k : Nat)
    (h : k ∈ occurrences_from l cs i) : i ≤ k := by
  obtain ⟨j, _, rfl, _, _⟩ := (mem_occurrences_from l cs i k).1 h
  omega

theorem occurrences_from_sorted (l : Int) :
    ∀ (cs : Cnf) (i : Nat), (occurrences_from l cs i).Pairwise (fun a b => a ≤ b) := by
  intro cs
  induction cs with
  | nil => intro i; simp [occurrences_from]
  | cons c cs ih =>
    intro i
    simp only [occurrences_from]
    rw [List.pairwise_append]
    refine ⟨?_, ih (i + 1), ?_⟩
    · rw [List.pairwise_replicate]
      right; exact le_refl _
    · intro a ha b hb
      rw [List.mem_replicate] at ha
      have := occurrences_from_ge l cs (i + 1) b hb
      omega

theorem occurrences_from_count (l : Int) :
    ∀ (cs : Cnf) (i j : Nat) (cl : Clause), cs[j]? = some cl →
      (occurrences_from l cs i).count (i + j) = cl.count l := by
  intro cs
  induction cs with
  | nil => intro i j cl h; simp at h
  | cons c cs ih =>
    intro i j cl h
    simp only [occurrences_from, List.count_append, List.count_replicate]
    cases j with
    | zero =>
      simp only [List.getElem?_cons_zero, Option.some.injEq] at h
      subst h
      have : (occurrences_from l cs (i + 1)).count (i + 0) = 0 := by
        apply List.count_eq_zero.2
        intro hm
        have := occurrences_from_ge l cs (i + 1) _ hm
        omega
      rw [this]
      simp
    | succ j =>
      simp only [List.getElem?_cons_succ] at h
      have h1 := ih (i + 1) j cl h
      rw [show i + (j + 1) = i + 1 + j by omega, h1]
      have : ¬ (i == i + 1 + j) = true := by simp; omega
      rw [if_neg this]
      omega

/-! ### The assignment across one iteration of solve -/

theorem solve_step_solution {cnf : Cnf} {rnd : Nat → Nat} {s s2 : Solver} {p p2 : Nat}
    (h : solve_step cnf rnd s p = some (s2, p2)) :
    ∃ x s1, choose cnf rnd s p = some (x, s1, p2) ∧
      ((rd s.solution (abs x) = some '|' ∧
          wr s.solution (abs x) (if x > 0 then '}' else '{') = some s2.solution) ∨
        ((∃ ch, rd s.solution (abs x) = some ch ∧ ch ≠ '|') ∧
          wr s.solution (abs x) '|' = some s2.solution)) := by
  unfold solve_step at h
  split at h
  · cases h
  · rename_i x s1 p1 hch
    split at h
    · cases h
    · rename_i s3 hm
      simp only [Option.some.injEq, Prod.mk.injEq] at h
      obtain ⟨rfl, rfl⟩ := h
      obtain ⟨_, _, _, _, _, _, buf, rfl, _⟩ := choose_result hch
      exact ⟨x, _, hch, move_solution (s := { s with buffer := buf }) hm⟩

/-! ## Facts about the example databases -/

theorem single_clause_wf : well_formed single_clause := by
  unfold well_formed single_clause
  decide

theorem two_units_wf : well_formed two_units := by
  unfold well_formed two_units
  decide

theorem single_clause_sized : int_sized single_clause := by
  unfold int_sized single_clause
  decide

theorem two_units_sized : int_sized two_units := by
  unfold int_sized two_units
  decide

theorem wide_clause_sized : int_sized wide_clause := by
  refine ⟨by decide, by decide, ?_⟩
  intro cl hcl l hl
  simp only [wide_clause, List.mem_singleton] at hcl
  subst hcl
  simp only [List.mem_map, List.mem_range] at hl
  obtain ⟨k, hk, rfl⟩ := hl
  omega

/-- Two databases on which the `int` arithmetic overflows.  For the literal
`-2147483648`, `get_size` leaves `num_variables = 0` and `initiate` indexes
`hold_size[-2147483647]`; for the literal `1073741823`, the size
`2 * (num_variables + 1) + 1` exceeds `2147483647`.  In both cases the start
state is undefined. -/
theorem start_overflow :
    (get_size [[-2147483648]] boot).num_variables = 0 ∧
      start 0 [[-2147483648]] = none ∧
      (get_size [[1073741823]] boot).num_variables = 1073741823 ∧
      start 0 [[1073741823]] = none := by
  decide

theorem wide_clause_wf : well_formed wide_clause := by
  intro cl hcl l hl
  simp only [wide_clause, List.mem_singleton] at hcl
  subst hcl
  simp only [List.mem_map, List.mem_range] at hl
  obtain ⟨k, _, rfl⟩ := hl
  omega

theorem two_units_mixed_reach : Reach two_units_start two_units_mixed :=
  Reach.ext two_units_start two_units_mixed 0 'C' Reach.init (by decide) (by decide)

theorem two_units_mixed_ok : ActiveOK two_units_mixed :=
  reach_activeOK
    (@start_activeOK 0 two_units two_units_start (by decide)) two_units_mixed_reach

theorem single_clause_end_valid : ∀ cl ∈ single_clause, ∀ l ∈ cl,
    ∃ ch, rd single_clause_end.solution (abs l) = some ch ∧ valid_state ch := by
  intro cl hcl l hl
  simp only [single_clause, List.mem_singleton] at hcl
  subst hcl
  simp only [List.mem_cons, List.mem_singleton, List.not_mem_nil, or_false] at hl
  rcases hl with rfl | rfl
  · exact ⟨'}', by decide, Or.inr (Or.inl rfl)⟩
  · exact ⟨'|', by decide, Or.inl rfl⟩

/-! ## The claims -/

/-- Claim C1, the ActiveSet consistency invariant.  For every well-formed clause
database and every stream of random draws: in every state `s0` that `get_size`
followed by `initiate` produces, for every clause index `i < num_clauses`,
`constraints[i] == 'y'` holds exactly when `is_solved(cnf, i) == 'F'`; the same
equivalence holds in every state that `solve` reaches after any number `n` of
applied moves; and when every clause is non-empty and has at most 68 literals,
every move is defined, so that state exists for every `n`.  The state `s0`
exists whenever the `int` arithmetic of `get_size` and `initiate` does not
overflow, in particular for every database with literal magnitudes of at most
`1073741822` and at most `2000000000` clauses. -/
theorem activeset_consistency (junk : Int) (cnf : Cnf) (rnd : Nat → Nat) (p0 : Nat)
    (hwf : well_formed cnf) :
    (int_sized cnf → ∃ s0, start junk cnf = some s0) ∧
      ∀ s0, start junk cnf = some s0 →
        (∀ i, i < s0.num_clauses →
          (s0.constraints[i]? = some 'y' ↔ is_solved s0 cnf i = some 'F')) ∧
        (∀ n s p, solve_moves cnf rnd n s0 p0 = some (s, p) →
          ∀ i, i < s.num_clauses →
            (s.constraints[i]? = some 'y' ↔ is_solved s cnf i = some 'F')) ∧
        ((∀ cl ∈ cnf, cl ≠ [] ∧ cl.length ≤ 68) →
          ∀ n, ∃ s p, solve_moves cnf rnd n s0 p0 = some (s, p)) := by
  constructor
  · intro hsz
    obtain ⟨s0, h0, _⟩ := start_spec junk cnf hwf (fits_of_sized hsz)
    exact ⟨s0, h0⟩
  · intro s0 h0
    obtain ⟨s0', h0', ok, st, sync, _, _⟩ := start_spec junk cnf hwf (fits_of_start h0)
    rw [h0] at h0'
    simp only [Option.some.injEq] at h0'
    subst h0'
    refine ⟨sync, ?_, ?_⟩
    · intro n s p h
      exact (solve_moves_good n s0 s p0 p ok st sync h).2.2
    · intro hw n
      obtain ⟨⟨s, p⟩, h⟩ := solve_moves_runs rnd hw n s0 p0 ok st sync
      exact ⟨s, p, h⟩

/-- Witness for C1 on the database `(1 ∨ -2)`: the start state exists, the state
after one move exists and is consistent. -/
theorem activeset_consistency_witness :
    well_formed single_clause ∧ int_sized single_clause ∧
      ∃ s0 s p, start 0 single_clause = some s0 ∧
        solve_moves single_clause (fun n => n) 1 s0 0 = some (s, p) ∧
        ∀ i, i < s.num_clauses →
          (s.constraints[i]? = some 'y' ↔ is_solved s single_clause i = some 'F') := by
  refine ⟨single_clause_wf, single_clause_sized, ?_⟩
  obtain ⟨hex, hall⟩ :=
    activeset_consistency 0 single_clause (fun n => n) 0 single_clause_wf
  obtain ⟨s0, h0⟩ := hex single_clause_sized
  obtain ⟨_, hpart, htot⟩ := hall s0 h0
  obtain ⟨s, p, hs⟩ := htot (by unfold single_clause; decide) 1
  exact ⟨s0, s, p, h0, hs, hpart 1 s p hs⟩

/-- Claim C2, termination implies correctness.  For every well-formed clause
database and every stream of random draws, whenever the loop of `solve`, started
in the state produced by `get_size` and `initiate`, reaches a state with
`num_constraints == 0`, `verify(cnf)` returns `1` on that state, that is every
clause has a literal that is true under the final assignment. -/
theorem termination_implies_correctness (junk : Int) (cnf : Cnf) (rnd : Nat → Nat)
    (p0 n p : Nat) (s0 s : Solver) (hwf : well_formed cnf)
    (h0 : start junk cnf = some s0)
    (hrun : solve_moves cnf rnd n s0 p0 = some (s, p))
    (hz : s.num_constraints = 0) :
    verify s cnf = some 1 ∧ ∀ cl ∈ cnf, ∃ l ∈ cl, lit_true s.solution l := by
  obtain ⟨s0', h0', ok0, st0, sync0, _, _⟩ := start_spec junk cnf hwf (fits_of_start h0)
  rw [h0] at h0'
  simp only [Option.some.injEq] at h0'
  subst h0'
  obtain ⟨ok, st, sync⟩ := solve_moves_good n s0 s p0 p ok0 st0 sync0 hrun
  have hcount : active_upto s.constraints s.num_clauses = 0 := by
    have := ok.count
    rw [hz] at this
    omega
  have hsat : ∀ cl ∈ cnf, satisfied s.solution cl := by
    intro cl hcl
    obtain ⟨i, hi⟩ := List.mem_iff_getElem?.1 hcl
    have hil : i < s.num_clauses := by
      rw [st.nc]
      rcases List.getElem?_eq_some.1 hi with ⟨hl, _⟩
      exact hl
    have hny := no_active_of_count_zero _ _ hcount i hil
    have hnF : ¬ is_solved s cnf i = some 'F' := fun h => hny ((sync i hil).2 h)
    rw [is_solved_F_iff st hi] at hnF
    exact not_not.1 hnF
  refine ⟨?_, hsat⟩
  rcases verify_from_spec s cnf (setup_valid st) cnf 0 (by simp) with ⟨h, _⟩ | ⟨_, cl, hcl, hn⟩
  · exact h
  · exact absurd (hsat cl hcl) hn

/-- Witness for C2 on the database `(1 ∨ -2)`: one move reaches
`num_constraints == 0`, and `verify` returns `1` there. -/
theorem termination_implies_correctness_witness :
    well_formed single_clause ∧ start 0 single_clause = some single_clause_start ∧
      solve_moves single_clause (fun _ => 0) 1 single_clause_start 0
        = some (single_clause_end, 3) ∧
      single_clause_end.num_constraints = 0 ∧
      verify single_clause_end single_clause = some 1 ∧
      ∀ cl ∈ single_clause, ∃ l ∈ cl, lit_true single_clause_end.solution l :=
  ⟨single_clause_wf, by decide, by decide, by decide,
    termination_implies_correctness 0 single_clause (fun _ => 0) 0 1 3 single_clause_start
      single_clause_end single_clause_wf (by decide) (by decide) (by decide)⟩

/-- Claim C3.  In every ActiveSet state reachable from the state produced by
`initiate` through `insert`/`extract` calls on clause indices, for every rank
`r` with `0 <= r < num_constraints` and every outcome of the random draws,
`find(r)` returns an index `i` with `0 <= i < num_clauses` and
`constraints[i] == 'y'`. -/
theorem find_returns_active (junk : Int) (cnf : Cnf) (s0 s : Solver) (rnd : Nat → Nat)
    (p : Nat) (r : Int) (h0 : start junk cnf = some s0) (hreach : Reach s0 s)
    (hr0 : 0 ≤ r) (hr1 : r < s.num_constraints) :
    ∃ (i : Int) (p1 : Nat), find s rnd p r = some (i, p1) ∧ 0 ≤ i ∧
      i < (s.num_clauses : Int) ∧ rd s.constraints i = some 'y' := by
  have ok := reach_activeOK (start_activeOK h0) hreach
  obtain ⟨i, p1, hf, hi, hy, _⟩ := find_spec ok rnd p hr0 hr1
  exact ⟨(i : Int), p1, hf, by omega, by omega, by rw [rd_natCast]; exact hy⟩

/-- Witness for C3: after `extract(0)` on the two unit clauses, `find(0)`
returns an active index. -/
theorem find_returns_active_witness :
    start 0 two_units = some two_units_start ∧ Reach two_units_start two_units_mixed ∧
      (0 : Int) ≤ 0 ∧ (0 : Int) < two_units_mixed.num_constraints ∧
      ∃ (i : Int) (p1 : Nat), find two_units_mixed (fun n => n) 0 0 = some (i, p1) ∧ 0 ≤ i ∧
        i < (two_units_mixed.num_clauses : Int) ∧ rd two_units_mixed.constraints i = some 'y' :=
  ⟨by decide, two_units_mixed_reach, by decide, by decide,
    find_returns_active 0 two_units two_units_start two_units_mixed (fun n => n) 0 0
      (by decide) two_units_mixed_reach (by decide) (by decide)⟩

/-- Counterexample to C4 as stated.  In the start state of the two unit clauses
(both active, so the density test `2 / 2 < 10` holds) with rank `r = 0` and a
first draw of `1`, `find` returns the probed index `1`, while the naive scan for
the active entry of rank `0` returns index `0`. -/
theorem find_rank_counterexample :
    start 0 two_units = some two_units_start ∧
      (0 : Int) < two_units_start.num_constraints ∧
      find two_units_start (fun _ => 1) 0 0 = some (1, 1) ∧
      select_naive (two_units_start.constraints.take two_units_start.num_clauses) 0 0
        = some 0 := by
  decide

/-- Claim C4 as amended.  For a state whose membership array, count and block
index agree, and a rank `r` with `0 <= r < num_constraints`, `find(r)` returns an
active index `i < num_clauses`, and: either the density test
`num_clauses / num_constraints < SAMPLE_PARAM` holds and `i` is the first active
index among the at most `SAMPLE_PARAM` probes `rand() % num_clauses`; or `i` is the
index found by the naive linear scan for the active entry of rank `r`, which is
the case whenever the density test fails (no draw is consumed) and whenever all
`SAMPLE_PARAM` probes miss. -/
theorem find_rank_or_probe (s : Solver) (rnd : Nat → Nat) (p : Nat) (r : Int)
    (ok : ActiveOK s) (hr0 : 0 ≤ r) (hr1 : r < s.num_constraints) :
    ∃ (i p1 : Nat), find s rnd p r = some ((i : Int), p1) ∧ i < s.num_clauses ∧
      s.constraints[i]? = some 'y' ∧
      ((Int.tdiv (s.num_clauses : Int) s.num_constraints < (SAMPLE_PARAM : Int) ∧
          ∃ k, k < SAMPLE_PARAM ∧ i = rnd (p + k) % s.num_clauses ∧ p1 = p + k + 1 ∧
            ∀ j, j < k → s.constraints[rnd (p + j) % s.num_clauses]? ≠ some 'y') ∨
        (select_naive (s.constraints.take s.num_clauses) 0 r.toNat = some i ∧
          ((¬ Int.tdiv (s.num_clauses : Int) s.num_constraints < (SAMPLE_PARAM : Int) ∧ p1 = p) ∨
            (Int.tdiv (s.num_clauses : Int) s.num_constraints < (SAMPLE_PARAM : Int) ∧
              p1 = p + SAMPLE_PARAM ∧
              ∀ j, j < SAMPLE_PARAM →
                s.constraints[rnd (p + j) % s.num_clauses]? ≠ some 'y')))) :=
  find_spec ok rnd p hr0 hr1

/-- Witness for the amended C4: all ten probes miss (every draw is `0`, and
clause `0` is inactive), and `find(0)` returns the naive-scan index `1`. -/
theorem find_rank_or_probe_witness :
    ActiveOK two_units_mixed ∧ (0 : Int) ≤ 0 ∧ (0 : Int) < two_units_mixed.num_constraints ∧
      find two_units_mixed (fun _ => 0) 0 0 = some (1, 10) ∧
      select_naive (two_units_mixed.constraints.take two_units_mixed.num_clauses) 0 0 = some 1 ∧
      ∃ (i p1 : Nat), find two_units_mixed (fun _ => 0) 0 0 = some ((i : Int), p1) ∧
        i < two_units_mixed.num_clauses ∧ two_units_mixed.constraints[i]? = some 'y' :=
  ⟨two_units_mixed_ok, by decide, by decide, by decide, by decide,
    let ⟨i, p1, h1, h2, h3, _⟩ :=
      find_rank_or_probe two_units_mixed (fun _ => 0) 0 0 two_units_mixed_ok (by decide)
        (by decide)
    ⟨i, p1, h1, h2, h3⟩⟩

/-- Claim C5, satisfaction test and Verifier.  For every database and every
assignment in which the variable of each literal is Unassigned, True or False:
`is_solved(cnf, i)` returns `'T'` exactly when clause `i` contains a literal `l`
with (`l > 0` and its variable True) or (`l < 0` and its variable False), and
`'F'` otherwise, so an Unassigned variable never satisfies; and `verify(cnf)`
returns `1` exactly when that holds for every clause, and `0` otherwise.  Both
functions are embedded as pure functions of the state: they return a value and
no state. -/
theorem is_solved_verify_semantics (s : Solver) (cnf : Cnf)
    (hv : ∀ cl ∈ cnf, ∀ l ∈ cl, ∃ ch, rd s.solution (abs l) = some ch ∧ valid_state ch) :
    (∀ i cl, cnf[i]? = some cl →
      (is_solved s cnf i = some 'T' ↔
        ∃ l ∈ cl, (l > 0 ∧ rd s.solution (abs l) = some '}') ∨
          (l < 0 ∧ rd s.solution (abs l) = some '{')) ∧
      (is_solved s cnf i = some 'T' ∨ is_solved s cnf i = some 'F')) ∧
    (verify s cnf = some 1 ↔
      ∀ cl ∈ cnf, ∃ l ∈ cl, (l > 0 ∧ rd s.solution (abs l) = some '}') ∨
        (l < 0 ∧ rd s.solution (abs l) = some '{')) ∧
    (verify s cnf = some 1 ∨ verify s cnf = some 0) := by
  refine ⟨?_, ?_, ?_⟩
  · intro i cl hcl
    have hmem : cl ∈ cnf := List.getElem?_mem hcl
    unfold is_solved
    rw [hcl]
    refine ⟨is_solved_scan_T _ _ (hv cl hmem), ?_⟩
    rcases is_solved_scan_cases s.solution cl (hv cl hmem) with ⟨_, h⟩ | ⟨_, h⟩
    · exact Or.inl h
    · exact Or.inr h
  · rcases verify_from_spec s cnf hv cnf 0 (by simp) with ⟨h, hall⟩ | ⟨h, cl, hcl, hn⟩
    · unfold verify
      rw [h]
      simp only [true_iff]
      exact hall
    · unfold verify
      rw [h]
      constructor
      · intro h1; simp at h1
      · intro hall; exact absurd (hall cl hcl) hn
  · rcases verify_from_spec s cnf hv cnf 0 (by simp) with ⟨h, _⟩ | ⟨h, _⟩
    · exact Or.inl h
    · exact Or.inr h

/-- Witness for C5 on `(1 ∨ -2)` with variable 1 True and variable 2
Unassigned. -/
theorem is_solved_verify_semantics_witness :
    (∀ cl ∈ single_clause, ∀ l ∈ cl,
        ∃ ch, rd single_clause_end.solution (abs l) = some ch ∧ valid_state ch) ∧
      is_solved single_clause_end single_clause 0 = some 'T' ∧
      (verify single_clause_end single_clause = some 1 ↔
        ∀ cl ∈ single_clause, ∃ l ∈ cl,
          (l > 0 ∧ rd single_clause_end.solution (abs l) = some '}') ∨
            (l < 0 ∧ rd single_clause_end.solution (abs l) = some '{')) :=
  ⟨single_clause_end_valid, by decide,
    (is_solved_verify_semantics single_clause_end single_clause single_clause_end_valid).2.1⟩

/-- Claim C6, idempotence of activate and deactivate.  In every state and for
every clause index `i`: `insert(i)` on a clause whose flag is already `'y'`
returns `'E'` and leaves the whole state unchanged, in particular `constraints`,
`num_constraints` and every entry of `milestones`; and so does `extract(i)` on a
clause whose flag is already `'n'`. -/
theorem insert_extract_idempotent (s : Solver) (i : Nat) :
    (s.constraints[i]? = some 'y' → insert s i = some ('E', s)) ∧
      (s.constraints[i]? = some 'n' → extract s i = some ('E', s)) := by
  constructor
  · intro hi
    simp [insert, hi]
  · intro hi
    simp [extract, hi]

/-- Witness for C6: `insert` in the start state of the two unit clauses, where
every clause is active, and `extract` after clause 0 has been deactivated. -/
theorem insert_extract_idempotent_witness :
    two_units_start.constraints[0]? = some 'y' ∧
      insert two_units_start 0 = some ('E', two_units_start) ∧
      two_units_mixed.constraints[0]? = some 'n' ∧
      extract two_units_mixed 0 = some ('E', two_units_mixed) :=
  ⟨by decide, (insert_extract_idempotent two_units_start 0).1 (by decide), by decide,
    (insert_extract_idempotent two_units_mixed 0).2 (by decide)⟩

/-- Claim C7, the OccurrenceIndex.  After `get_size` and `initiate`, for every
literal value `l` with `1 <= |l| <= num_variables`, the row
`hold[num_variables + l + 1]` is exactly the occurrence sequence of `l` followed
by the terminator `-1`; `hold_size[num_variables + l + 1]` is the length of that
sequence; the sequence is in non-decreasing index order; clause `i` appears in it
once per occurrence of `l` in clause `i`, duplicates kept; and every index in it
is the index of a clause that contains `l`. -/
theorem occurrence_index (junk : Int) (cnf : Cnf) (s0 : Solver) (l : Int)
    (h0 : start junk cnf = some s0) (_h1 : 1 ≤ abs l) (h2 : abs l ≤ s0.num_variables) :
    rd s0.hold (s0.num_variables + l + 1)
        = some ((occurrences cnf l).map (fun (i : Nat) => (i : Int)) ++ [(-1 : Int)]) ∧
      rd s0.hold_size (s0.num_variables + l + 1) = some ((occurrences cnf l).length : Int) ∧
      (occurrences cnf l).Pairwise (fun a b => a ≤ b) ∧
      (∀ i cl, cnf[i]? = some cl → (occurrences cnf l).count i = cl.count l) ∧
      (∀ i, i ∈ occurrences cnf l → ∃ cl, cnf[i]? = some cl ∧ l ∈ cl) := by
  obtain ⟨s, g1, _, g3, _, _, _, _, _, _, _, g11⟩ := initiate_spec junk cnf
    (get_size cnf boot) (get_size_nonneg _ _) (get_size_num_clauses _ _) (fits_of_start h0)
  unfold start at h0
  rw [g1] at h0
  simp only [Option.some.injEq] at h0
  subst h0
  rw [g3] at h2 ⊢
  have hr := abs_range _h1 h2
  obtain ⟨r1, r2⟩ := g11 l (by omega) (by omega)
  refine ⟨r1, r2, occurrences_from_sorted l cnf 0, ?_, ?_⟩
  · intro i cl hcl
    have := occurrences_from_count l cnf 0 i cl hcl
    rwa [Nat.zero_add] at this
  · intro i hi
    exact (mem_occurrences cnf l i).1 hi

/-- Witness for C7: the row of literal `-2` in the index of `(1 ∨ -2)`. -/
theorem occurrence_index_witness :
    start 0 single_clause = some single_clause_start ∧ 1 ≤ abs (-2) ∧
      abs (-2) ≤ single_clause_start.num_variables ∧
      rd single_clause_start.hold (single_clause_start.num_variables + (-2) + 1)
        = some ((occurrences single_clause (-2)).map (fun (i : Nat) => (i : Int))
            ++ [(-1 : Int)]) ∧
      occurrences single_clause (-2) = [0] :=
  ⟨by decide, by decide, by decide,
    (occurrence_index 0 single_clause single_clause_start (-2) (by decide) (by decide)
      (by decide)).1, by decide⟩

/-- Claim C8, assignment transitions.  In every completed iteration of the loop
of `solve`, with `x` the elected literal and `v = |x|`: if `v` is Unassigned it
becomes True when `x > 0` and False when `x < 0`; if `v` is True or False it
becomes Unassigned; every other entry of `solution` is unchanged.  Hence no
single move changes a variable from True to False or from False to True. -/
theorem assignment_transitions (cnf : Cnf) (rnd : Nat → Nat) (s s2 : Solver) (p p2 : Nat)
    (h : solve_step cnf rnd s p = some (s2, p2)) :
    ∃ x s1, choose cnf rnd s p = some (x, s1, p2) ∧
      (rd s.solution (abs x) = some '|' →
        rd s2.solution (abs x) = some (if x > 0 then '}' else '{')) ∧
      (rd s.solution (abs x) = some '}' ∨ rd s.solution (abs x) = some '{' →
        rd s2.solution (abs x) = some '|') ∧
      (∀ v : Int, v ≠ abs x → rd s2.solution v = rd s.solution v) ∧
      (∀ v : Int, ¬ (rd s.solution v = some '}' ∧ rd s2.solution v = some '{') ∧
        ¬ (rd s.solution v = some '{' ∧ rd s2.solution v = some '}')) := by
  obtain ⟨x, s1, hch, hsol⟩ := solve_step_solution h
  refine ⟨x, s1, hch, ?_⟩
  rcases hsol with ⟨hu, hw⟩ | ⟨⟨ch, hc, hne⟩, hw⟩
  · refine ⟨?_, ?_, ?_, ?_⟩
    · intro _; rw [rd_wr hw, if_pos rfl]
    · rw [hu]; rintro (h1 | h1) <;> simp at h1
    · intro v hv
      rw [rd_wr hw, if_neg (fun e => hv e.symm)]
    · intro v
      by_cases e : abs x = v
      · subst e
        rw [hu]
        constructor <;> rintro ⟨h1, _⟩ <;> simp at h1
      · rw [rd_wr hw, if_neg e]
        constructor
        · rintro ⟨h1, h3⟩; rw [h1] at h3; simp at h3
        · rintro ⟨h1, h3⟩; rw [h1] at h3; simp at h3
  · refine ⟨?_, ?_, ?_, ?_⟩
    · intro h1
      rw [hc] at h1
      simp only [Option.some.injEq] at h1
      exact absurd h1 hne
    · intro _; rw [rd_wr hw, if_pos rfl]
    · intro v hv
      rw [rd_wr hw, if_neg (fun e => hv e.symm)]
    · intro v
      by_cases e : abs x = v
      · subst e
        rw [rd_wr hw, if_pos rfl]
        constructor <;> rintro ⟨_, h1⟩ <;> simp at h1
      · rw [rd_wr hw, if_neg e]
        constructor
        · rintro ⟨h1, h3⟩; rw [h1] at h3; simp at h3
        · rintro ⟨h1, h3⟩; rw [h1] at h3; simp at h3

/-- Witness for C8: the first move on `(1 ∨ -2)` elects literal `1` and turns
variable 1 from Unassigned to True. -/
theorem assignment_transitions_witness :
    solve_step single_clause (fun _ => 0) single_clause_start 0 = some (single_clause_end, 3) ∧
      rd single_clause_start.solution 1 = some '|' ∧
      rd single_clause_end.solution 1 = some '}' ∧
      ∃ x s1, choose single_clause (fun _ => 0) single_clause_start 0 = some (x, s1, 3) ∧
        ∀ v : Int, v ≠ abs x →
          rd single_clause_end.solution v = rd single_clause_start.solution v :=
  ⟨by decide, by decide, by decide,
    let ⟨x, s1, h1, _, _, h4, _⟩ :=
      assignment_transitions single_clause (fun _ => 0) single_clause_start single_clause_end
        0 3 (by decide)
    ⟨x, s1, h1, h4⟩⟩

/-- On the database whose single clause holds the 69 literals `1, ..., 69`, in
the state produced by `get_size` and `initiate` (every variable Unassigned), the
embedded `elect` is undefined: the 69th unassigned literal makes it write
`buffer[69]`, outside the 69-entry array. -/
theorem elect_undefined_on_wide_clause :
    ∃ s0, start 0 wide_clause = some s0 ∧ s0.buffer.length = 69 ∧
      (∃ cl, rd wide_clause 0 = some cl ∧ cl ≠ [] ∧
        (unassigned_lits s0.solution cl).length = 69) ∧
      ∀ (rnd : Nat → Nat) (p : Nat), elect s0 wide_clause rnd p 0 = none := by
  obtain ⟨s0, h0, _, st, _, _, hsol⟩ := start_spec 0 wide_clause wide_clause_wf (fits_of_sized wide_clause_sized)
  have hcl : rd wide_clause 0 = some ((List.range 69).map (fun (k : Nat) => (k : Int) + 1)) := by
    rfl
  have hU : unassigned_lits s0.solution ((List.range 69).map (fun (k : Nat) => (k : Int) + 1))
      = (List.range 69).map (fun (k : Nat) => (k : Int) + 1) := by
    unfold unassigned_lits
    rw [List.filter_eq_self]
    intro l hl
    obtain ⟨hl0, hlv⟩ := st.lits _ (by simp [wide_clause]) l hl
    simp [hsol (abs l) hl0 hlv]
  have hlen : (unassigned_lits s0.solution
      ((List.range 69).map (fun (k : Nat) => (k : Int) + 1))).length = 69 := by
    rw [hU]; simp
  refine ⟨s0, h0, st.buf, ⟨_, hcl, by decide, hlen⟩, ?_⟩
  intro rnd p
  have w0 : 0 < s0.buffer.length := by rw [st.buf]; omega
  simp only [elect, hcl, wrN, w0, if_true]
  cases hscan : elect_scan s0.solution ((List.range 69).map (fun (k : Nat) => (k : Int) + 1))
      (s0.buffer.set 0 0) 0 0 with
  | none => rfl
  | some r =>
    obtain ⟨buf, a, j⟩ := r
    obtain ⟨_, _, _, _, _, e6⟩ := elect_scan_result _ _ _ _ _ _ _ _ hscan
    rw [hlen, List.length_set, st.buf] at e6
    omega

/-- Counterexample to claim C10 as stated.  The input `p cnf 1 1`, then
`-2147483648 0`, is parsed to the database whose single clause holds the literal
`-2147483648`.  On it `get_size` leaves `num_variables = 0`: the negation of the
literal is computed in `int` and is again `-2147483648`.  So the literal does not
satisfy `1 <= |l| <= num_variables`, and `num_variables` is not its magnitude
`2147483648`. -/
theorem get_size_min_counterexample :
    parse_cnf 0 "p cnf 1 1\n-2147483648 0\n".toList
        = some (Loaded.array [Cell.row [-2147483648, 0], Cell.null]) ∧
      decode_cells [Cell.row [-2147483648, 0], Cell.null] = some [[-2147483648]] ∧
      (get_size [[-2147483648]] boot).num_clauses = 1 ∧
      (get_size [[-2147483648]] boot).num_variables = 0 ∧
      abs (-2147483648) = -2147483648 ∧
      ¬ ((1 : Int) ≤ abs (-2147483648) ∧
        abs (-2147483648) ≤ (get_size [[-2147483648]] boot).num_variables) ∧
      ¬ (((-2147483648 : Int).natAbs : Int) ≤ (get_size [[-2147483648]] boot).num_variables) := by
  decide

/-- Claim C10, `get_size`, amended: for a database in which every literal has a
magnitude that is an `int` (no literal is `-2147483648`) and which has at most
`2147483647` clauses (the range of the `int` counter `i`), `get_size` sets
`num_clauses` to the number of clauses and `num_variables` to the maximum
literal magnitude in the database: `abs` returns the magnitude of every literal,
no literal has a larger magnitude, the value is `0` when there is no literal, and
otherwise some literal has exactly that magnitude.  Hence in such a database
without a literal `0`, every literal `l` satisfies `1 <= |l| <= num_variables`. -/
theorem get_size_spec (cnf : Cnf) (s : Solver) (_hlen : cnf.length ≤ 2147483647)
    (hr : ∀ cl ∈ cnf, ∀ l ∈ cl, -2147483647 ≤ l ∧ l ≤ 2147483647) :
    (get_size cnf s).num_clauses = cnf.length ∧
      (∀ cl ∈ cnf, ∀ l ∈ cl, abs l = (l.natAbs : Int) ∧
        (l.natAbs : Int) ≤ (get_size cnf s).num_variables) ∧
      ((∀ cl ∈ cnf, cl = []) → (get_size cnf s).num_variables = 0) ∧
      ((∃ cl ∈ cnf, cl ≠ []) →
        ∃ cl ∈ cnf, ∃ l ∈ cl, (l.natAbs : Int) = (get_size cnf s).num_variables) ∧
      (well_formed cnf →
        ∀ cl ∈ cnf, ∀ l ∈ cl, 1 ≤ (l.natAbs : Int) ∧
          (l.natAbs : Int) ≤ (get_size cnf s).num_variables) := by
  have hne : ∀ cl ∈ cnf, ∀ l ∈ cl, l ≠ -2147483648 := by
    intro cl hcl l hl
    have := hr cl hcl l hl
    omega
  have hb := get_size_bound cnf s
  have hatt : (get_size cnf s).num_variables = 0 ∨
      ∃ cl ∈ cnf, ∃ l ∈ cl, abs l = (get_size cnf s).num_variables :=
    get_size_loop_attained cnf 0 0
  refine ⟨get_size_num_clauses cnf s, ?_, ?_, ?_, ?_⟩
  · intro cl hcl l hl
    have e := abs_eq_natAbs (hne cl hcl l hl)
    exact ⟨e, by rw [← e]; exact hb cl hcl l hl⟩
  · intro hall
    rcases hatt with h | ⟨cl, hcl, l, hl, _⟩
    · exact h
    · rw [hall cl hcl] at hl
      simp at hl
  · rintro ⟨cl, hcl, hne1⟩
    rcases hatt with h | ⟨cl1, hcl1, l, hl, hle⟩
    · obtain ⟨l, hl⟩ := List.exists_mem_of_ne_nil cl hne1
      refine ⟨cl, hcl, l, hl, ?_⟩
      have h1 := hb cl hcl l hl
      have e := abs_eq_natAbs (hne cl hcl l hl)
      omega
    · exact ⟨cl1, hcl1, l, hl, by rw [← abs_eq_natAbs (hne cl1 hcl1 l hl)]; exact hle⟩
  · intro hwf cl hcl l hl
    have e := abs_eq_natAbs (hne cl hcl l hl)
    have h0 := hwf cl hcl l hl
    refine ⟨by omega, by rw [← e]; exact hb cl hcl l hl⟩

/-- Witness for C10 on `(1 ∨ -2)`: one clause, two variables, and the literal
`-2` has magnitude `num_variables`. -/
theorem get_size_spec_witness :
    single_clause.length ≤ 2147483647 ∧
      (∀ cl ∈ single_clause, ∀ l ∈ cl, -2147483647 ≤ l ∧ l ≤ 2147483647) ∧
      well_formed single_clause ∧ (∃ cl ∈ single_clause, cl ≠ []) ∧
      (get_size single_clause boot).num_clauses = 1 ∧
      (get_size single_clause boot).num_variables = 2 ∧
      (∃ cl ∈ single_clause, ∃ l ∈ cl,
        (l.natAbs : Int) = (get_size single_clause boot).num_variables) ∧
      ∀ cl ∈ single_clause, ∀ l ∈ cl,
        1 ≤ (l.natAbs : Int) ∧ (l.natAbs : Int) ≤ (get_size single_clause boot).num_variables :=
  ⟨by decide, by decide, single_clause_wf, ⟨[1, -2], by decide, by decide⟩, by decide, by decide,
    (get_size_spec single_clause boot (by decide) (by decide)).2.2.2.1
      ⟨[1, -2], by decide, by decide⟩,
    (get_size_spec single_clause boot (by decide) (by decide)).2.2.2.2 single_clause_wf⟩

/-! ### Comparing flag arrays by their counts -/

theorem active_upto_step (cs : List Char) (m : Nat) :
    active_upto cs (m + 1) = active_upto cs m + (if cs[m]? = some 'y' then 1 else 0) := by
  unfold active_upto
  rw [List.take_succ, List.count_append]
  cases h : cs[m]? with
  | none => simp
  | some ch =>
    by_cases e : ch = 'y'
    · simp [e]
    · simp [e, List.count_cons]

theorem active_upto_le_of_imp (cs cs1 : List Char) (m : Nat)
    (h : ∀ k, k < m → cs1[k]? = some 'y' → cs[k]? = some 'y') :
    active_upto cs1 m ≤ active_upto cs m := by
  induction m with
  | zero => simp [active_upto]
  | succ m ih =>
    rw [active_upto_step, active_upto_step]
    have h1 := ih (fun k hk => h k (by omega))
    by_cases e : cs1[m]? = some 'y'
    · rw [if_pos e, if_pos (h m (by omega) e)]
      omega
    · rw [if_neg e]
      split <;> omega

theorem active_upto_lt_of_imp (cs cs1 : List Char) (m i : Nat) (hi : i < m)
    (h : ∀ k, k < m → cs1[k]? = some 'y' → cs[k]? = some 'y')
    (hy : cs[i]? = some 'y') (hn : cs1[i]? ≠ some 'y') :
    active_upto cs1 m < active_upto cs m := by
  induction m with
  | zero => omega
  | succ m ih =>
    rw [active_upto_step, active_upto_step]
    by_cases e : i = m
    · subst e
      have h1 := active_upto_le_of_imp cs cs1 i (fun k hk => h k (by omega))
      rw [if_neg hn, if_pos hy]
      omega
    · have h1 := ih (by omega) (fun k hk => h k (by omega))
      by_cases e1 : cs1[m]? = some 'y'
      · rw [if_pos e1, if_pos (h m (by omega) e1)]
        omega
      · rw [if_neg e1]
        split <;> omega

/-! ### The re-check loop when nothing has to be activated -/

theorem insert_all_noop (cnf : Cnf) :
    ∀ (A : List Nat) (rest : List Int) (s : Solver), ActiveOK s → Setup cnf s →
      (∀ i ∈ A, i < s.num_clauses) →
      (∀ i ∈ A, s.constraints[i]? = some 'n' → is_solved s cnf i = some 'T') →
      insert_all cnf (A.map (fun (i : Nat) => (i : Int)) ++ (-1 : Int) :: rest) s = some s := by
  intro A
  induction A with
  | nil => intro rest s _ _ _ _; simp [insert_all]
  | cons a as ih =>
    intro rest s ok st hA hT
    have ha : a < s.num_clauses := hA a (List.mem_cons_self _ _)
    have hge : (a : Int) ≥ 0 := by omega
    have e : (a :: as).map (fun (i : Nat) => (i : Int)) ++ (-1 : Int) :: rest
        = (a : Int) :: (as.map (fun (i : Nat) => (i : Int)) ++ (-1 : Int) :: rest) := rfl
    have hTF : ('T' : Char) ≠ 'F' := by decide
    have hyn : ('y' : Char) ≠ 'n' := by decide
    have ih1 := ih rest s ok st (fun i hi => hA i (List.mem_cons_of_mem _ hi))
      (fun i hi => hT i (List.mem_cons_of_mem _ hi))
    rw [e, insert_all, if_pos hge]
    simp only [Int.toNat_ofNat]
    rcases ok.flags a ha with hy | hn
    · simp only [hy, hyn, if_false, ih1]
    · simp only [hn, if_true, hT a (List.mem_cons_self _ _) hn, hTF, if_false, ih1]

/-! ### The two kinds of move -/

theorem mem_occurrences_at {cnf : Cnf} {k : Nat} (hk : k < cnf.length) (l : Int) :
    k ∈ occurrences cnf l ↔ l ∈ cnf[k] := by
  have hc : cnf[k]? = some cnf[k] := List.getElem?_eq_getElem hk
  rw [mem_occurrences]
  constructor
  · rintro ⟨cl, h3, h4⟩
    rw [hc] at h3
    simp only [Option.some.injEq] at h3
    rw [h3]; exact h4
  · intro h; exact ⟨_, hc, h⟩

/-- An assigning move: the clauses containing `x` are deactivated and the
re-check loop over the clauses containing `-x` changes nothing. -/
theorem move_assign_spec {cnf : Cnf} {s : Solver} (ok : ActiveOK s) (st : Setup cnf s)
    (sync : in_sync cnf s) {x : Int} (hx0 : 1 ≤ abs x) (hxv : abs x ≤ s.num_variables)
    (hu : rd s.solution (abs x) = some '|') :
    ∃ sol row1 row2 s2,
      wr s.solution (abs x) (if x > 0 then '}' else '{') = some sol ∧
      rd s.hold (s.num_variables + x + 1) = some row1 ∧
      extract_all row1 { s with solution := sol } = some s2 ∧
      rd s2.hold (s2.num_variables - x + 1) = some row2 ∧
      insert_all cnf row2 s2 = some s2 ∧
      move cnf s x = some s2 ∧ ActiveOK s2 ∧ Setup cnf s2 ∧ in_sync cnf s2 ∧
      ∀ k, s2.constraints[k]? = if k ∈ occurrences cnf x then some 'n' else s.constraints[k]? := by
  obtain ⟨hxn, hxlo, hxhi⟩ := abs_range hx0 hxv
  obtain ⟨rest1, hrow1⟩ := st.occ x hxn hxlo hxhi
  obtain ⟨rest2, hrow2⟩ := st.occ (-x) (by omega) (by omega) (by omega)
  have hidx : s.num_variables + -x + 1 = s.num_variables - x + 1 := by omega
  rw [hidx] at hrow2
  have hocc : ∀ l : Int, ∀ i ∈ occurrences cnf l, i < s.num_clauses := by
    intro l i hi
    rw [st.nc]; exact occurrences_lt cnf l i hi
  obtain ⟨sol, hw⟩ : ∃ sol, wr s.solution (abs x) (if x > 0 then '}' else '{') = some sol :=
    ⟨_, wr_of_rd hu _⟩
  have hval : valid_state (if x > 0 then '}' else '{') := by
    unfold valid_state; split <;> simp
  have oka : ActiveOK { s with solution := sol } := activeOK_frame ok rfl rfl rfl rfl rfl
  have sta := setup_with_solution st hw hval
  obtain ⟨s1, h1, ok1, fr1, hc1⟩ := extract_all_spec (occurrences cnf x) rest1 _ oka (hocc x)
  have st1 := setup_frame sta fr1
  have hh1 : rd s1.hold (s1.num_variables - x + 1) = rd s.hold (s.num_variables - x + 1) := by
    rw [fr1.1, fr1.2.2.2.1]
  have hnoop : insert_all cnf ((occurrences cnf (-x)).map (fun (i : Nat) => (i : Int))
      ++ (-1 : Int) :: rest2) s1 = some s1 := by
    apply insert_all_noop cnf _ rest2 s1 ok1 st1 (by rw [fr1.2.1]; exact hocc (-x))
    intro k hk hn
    have hk0 : k < s.num_clauses := hocc (-x) k hk
    have hkl : k < cnf.length := by rw [← st.nc]; exact hk0
    have hc : cnf[k]? = some cnf[k] := List.getElem?_eq_getElem hkl
    rw [is_solved_T_iff st1 hc, fr1.2.2.2.2.1]
    show satisfied sol cnf[k]
    rw [satisfied_assign hxn hu hw]
    rw [hc1 k] at hn
    by_cases hm : k ∈ occurrences cnf x
    · exact Or.inr ((mem_occurrences_at hkl x).1 hm)
    · rw [if_neg hm] at hn
      left
      have hs := sync k hk0
      rw [is_solved_F_iff st hc] at hs
      by_contra hns
      have := hs.2 hns
      rw [hn] at this
      simp at this
  have hmove : move cnf s x = some s1 := by
    simp only [move, hu, if_true, hw, hrow1, h1, hh1, hrow2, hnoop]
  obtain ⟨s3, hm3, ok3, st3, sync3⟩ := move_spec ok st sync hx0 hxv
  rw [hmove] at hm3
  simp only [Option.some.injEq] at hm3
  subst hm3
  exact ⟨sol, _, _, s1, hw, hrow1, h1, by rw [hh1]; exact hrow2, hnoop, hmove, ok3, st3, sync3,
    hc1⟩

/-- A reverting move: no active clause is deactivated. -/
theorem move_revert_spec {cnf : Cnf} {s : Solver} (ok : ActiveOK s) (st : Setup cnf s)
    (sync : in_sync cnf s) {x : Int} (hx0 : 1 ≤ abs x) (hxv : abs x ≤ s.num_variables)
    (hu : rd s.solution (abs x) ≠ some '|') :
    ∃ s2, move cnf s x = some s2 ∧ ActiveOK s2 ∧ Setup cnf s2 ∧ in_sync cnf s2 ∧
      ∀ k, k < s.num_clauses → s.constraints[k]? = some 'y' → s2.constraints[k]? = some 'y' := by
  have hpos : 1 ≤ abs x := hx0
  obtain ⟨hxn, hxlo, hxhi⟩ := abs_range hx0 hxv
  obtain ⟨ch, hch, _⟩ := st.sol (abs x) hpos hxv
  have hne : ch ≠ '|' := by
    intro e; rw [e] at hch; exact hu hch
  obtain ⟨rest1, hrow1⟩ := st.occ x hxn hxlo hxhi
  obtain ⟨rest2, hrow2⟩ := st.occ (-x) (by omega) (by omega) (by omega)
  have hidx : s.num_variables + -x + 1 = s.num_variables - x + 1 := by omega
  rw [hidx] at hrow2
  have hocc : ∀ l : Int, ∀ i ∈ occurrences cnf l, i < s.num_clauses := by
    intro l i hi
    rw [st.nc]; exact occurrences_lt cnf l i hi
  obtain ⟨sol, hw⟩ : ∃ sol, wr s.solution (abs x) '|' = some sol := ⟨_, wr_of_rd hch _⟩
  have oka : ActiveOK { s with solution := sol } := activeOK_frame ok rfl rfl rfl rfl rfl
  have sta := setup_with_solution st hw (Or.inl rfl)
  obtain ⟨s1, h1, ok1, fr1, hc1⟩ := insert_all_spec cnf (occurrences cnf x) rest1 _ oka sta
    (hocc x)
  have st1 := setup_frame sta fr1
  obtain ⟨s2, h2, ok2, fr2, hc2⟩ := insert_all_spec cnf (occurrences cnf (-x)) rest2 s1 ok1 st1
    (by rw [fr1.2.1]; exact hocc (-x))
  have hh1 : rd s1.hold (s1.num_variables - x + 1) = rd s.hold (s.num_variables - x + 1) := by
    rw [fr1.1, fr1.2.2.2.1]
  have hmove : move cnf s x = some s2 := by
    simp only [move, hch, hne, if_false, hw, hrow1, h1, hh1, hrow2, h2]
  obtain ⟨s3, hm3, ok3, st3, sync3⟩ := move_spec ok st sync hx0 hxv
  rw [hmove] at hm3
  simp only [Option.some.injEq] at hm3
  subst hm3
  refine ⟨s2, hmove, ok3, st3, sync3, ?_⟩
  intro k hk hy
  rw [hc2 k (by rw [fr1.2.1]; exact hk), hc1 k hk]
  exact Or.inl (Or.inl hy)

/-! ### One iteration of solve, taken apart -/

theorem count_nonneg {s : Solver} (ok : ActiveOK s) : 0 ≤ s.num_constraints := by
  rw [ok.count]; exact Int.ofNat_nonneg _

/-- A completed iteration selected an active clause `i`, elected a literal `x`
of it, and applied the move for `x`. -/
theorem solve_step_parts {cnf : Cnf} {rnd : Nat → Nat} {s s2 : Solver} {p p2 : Nat}
    (ok : ActiveOK s) (st : Setup cnf s)
    (h : solve_step cnf rnd s p = some (s2, p2)) :
    ∃ (i p1 : Nat) (x : Int) (buf : List Int) (cl : Clause),
      0 < s.num_constraints ∧
      find s rnd (p + 1) (Int.tmod (rnd p : Int) s.num_constraints) = some ((i : Int), p1) ∧
      i < s.num_clauses ∧ s.constraints[i]? = some 'y' ∧
      elect s cnf rnd p1 (i : Int) = some (x, { s with buffer := buf }, p2) ∧
      buf.length = s.buffer.length ∧ cnf[i]? = some cl ∧ x ∈ cl ∧ x ≠ 0 ∧
      abs x ≤ s.num_variables ∧
      (unassigned_lits s.solution cl ≠ [] → rd s.solution (abs x) = some '|') ∧
      move cnf { s with buffer := buf } x = some s2 := by
  have hpos : 0 < s.num_constraints := by
    have h0 := count_nonneg ok
    by_contra hn
    have hz : s.num_constraints = 0 := by omega
    simp [solve_step, choose, find, hz] at h
  have hr0 : 0 ≤ Int.tmod (rnd p : Int) s.num_constraints :=
    Int.tmod_nonneg _ (Int.ofNat_nonneg _)
  have hr1 : Int.tmod (rnd p : Int) s.num_constraints < s.num_constraints :=
    Int.tmod_lt_of_pos _ hpos
  obtain ⟨i, p1, hf, hi, hy, _⟩ := find_spec ok rnd (p + 1) hr0 hr1
  unfold solve_step at h
  split at h
  · cases h
  · rename_i x s1 p3 hch
    split at h
    · cases h
    · rename_i s3 hm
      simp only [Option.some.injEq, Prod.mk.injEq] at h
      obtain ⟨rfl, rfl⟩ := h
      unfold choose at hch
      rw [hf] at hch
      simp only at hch
      obtain ⟨cl, hcl, hx, _, ⟨buf, rfl, hb⟩, hU, _⟩ := elect_result hch
      rw [rd_natCast] at hcl
      obtain ⟨hx0, hxv⟩ := st.lits cl (List.getElem?_mem hcl) x hx
      refine ⟨i, p1, x, buf, cl, hpos, hf, hi, hy, hch, hb, hcl, hx, (abs_range hx0 hxv).1, hxv,
        ?_, hm⟩
      intro hne
      have hmem := List.getElem?_mem (hU hne)
      have := (List.mem_filter.1 hmem).2
      simpa using this

theorem solve_moves_succ (cnf : Cnf) (rnd : Nat → Nat) :
    ∀ (n : Nat) (s s1 : Solver) (p p1 : Nat), solve_moves cnf rnd n s p = some (s1, p1) →
      solve_moves cnf rnd (n + 1) s p
        = if s1.num_constraints > 0 then solve_step cnf rnd s1 p1 else some (s1, p1) := by
  intro n
  induction n with
  | zero =>
    intro s s1 p p1 h
    simp only [solve_moves, Option.some.injEq, Prod.mk.injEq] at h
    obtain ⟨rfl, rfl⟩ := h
    simp only [solve_moves]
    split
    · cases hs : solve_step cnf rnd s p with
      | none => rfl
      | some r => rfl
    · rfl
  | succ n ih =>
    intro s s1 p p1 h
    rw [solve_moves] at h ⊢
    by_cases hpos : s.num_constraints > 0
    · rw [if_pos hpos] at h ⊢
      cases hs : solve_step cnf rnd s p with
      | none => rw [hs] at h; cases h
      | some r =>
        obtain ⟨s2, p2⟩ := r
        rw [hs] at h
        simp only at h ⊢
        exact ih s2 s1 p2 p1 h
    · rw [if_neg hpos] at h ⊢
      simp only [Option.some.injEq, Prod.mk.injEq] at h
      obtain ⟨rfl, rfl⟩ := h
      rw [if_neg hpos]

/-! ### Unsatisfied clauses keep the count positive -/

theorem count_pos_of_violated {cnf : Cnf} {s : Solver} (ok : ActiveOK s) (st : Setup cnf s)
    (sync : in_sync cnf s) {i : Nat} {cl : Clause} (hc : cnf[i]? = some cl)
    (hv : ¬ satisfied s.solution cl) : 0 < s.num_constraints := by
  have hil : i < s.num_clauses := by
    rw [st.nc]
    rcases List.getElem?_eq_some.1 hc with ⟨hl, _⟩
    exact hl
  have hy : s.constraints[i]? = some 'y' := (sync i hil).2 ((is_solved_F_iff st hc).2 hv)
  have h0 := count_nonneg ok
  by_contra hn
  have hz : active_upto s.constraints s.num_clauses = 0 := by
    have := ok.count
    omega
  exact no_active_of_count_zero _ _ hz i hil hy

theorem verify_of_count_zero {cnf : Cnf} {s : Solver} (ok : ActiveOK s) (st : Setup cnf s)
    (sync : in_sync cnf s) (hz : s.num_constraints = 0) :
    verify s cnf = some 1 ∧ ∀ cl ∈ cnf, satisfied s.solution cl := by
  have hsat : ∀ cl ∈ cnf, satisfied s.solution cl := by
    intro cl hcl
    obtain ⟨i, hi⟩ := List.mem_iff_getElem?.1 hcl
    by_contra hv
    have := count_pos_of_violated ok st sync hi hv
    omega
  refine ⟨?_, hsat⟩
  rcases verify_from_spec s cnf (setup_valid st) cnf 0 (by simp) with ⟨h, _⟩ | ⟨_, cl, hcl, hn⟩
  · exact h
  · exact absurd (hsat cl hcl) hn

theorem two_units_unsat (sol : List Char) : ¬ (satisfied sol [1] ∧ satisfied sol [-1]) := by
  rintro ⟨⟨l, hl, h1⟩, ⟨m, hm, h2⟩⟩
  simp only [List.mem_singleton] at hl hm
  subst hl; subst hm
  unfold lit_true at h1 h2
  rcases h1 with ⟨_, h1⟩ | ⟨h1, _⟩
  · rcases h2 with ⟨h2, _⟩ | ⟨_, h2⟩
    · omega
    · have e : abs (-1) = abs 1 := by decide
      rw [e, h1] at h2
      simp at h2
  · omega

/-! ### The indices written by elect -/

theorem mem_elect_trace_scan (sol : List Char) :
    ∀ (cl : Clause) (a w : Nat), w ∈ elect_trace_scan sol cl a ↔
      (0 < (unassigned_lits sol cl).length ∧ a ≤ w ∧ w ≤ a + (unassigned_lits sol cl).length) := by
  intro cl
  induction cl with
  | nil => intro a w; simp [elect_trace_scan, unassigned_lits]
  | cons l ls ih =>
    intro a w
    by_cases hu : rd sol (abs l) = some '|'
    · rw [unassigned_cons_pos sol l ls hu]
      simp only [elect_trace_scan, hu, if_true, List.mem_cons, ih, List.length_cons]
      constructor
      · rintro (h | h | ⟨_, h1, h2⟩) <;> omega
      · rintro ⟨_, h1, h2⟩
        by_cases e1 : w = a
        · exact Or.inl e1
        · by_cases e2 : w = a + 1
          · exact Or.inr (Or.inl e2)
          · right; right; omega
    · rw [unassigned_cons_neg sol l ls hu]
      simp only [elect_trace_scan, hu, if_false, ih]

theorem elect_none_of_wide {s : Solver} {cnf : Cnf} (rnd : Nat → Nat) (p : Nat) {i : Int}
    {cl : Clause} (hc : rd cnf i = some cl) (hbuf : s.buffer.length = 69)
    (hU : 69 ≤ (unassigned_lits s.solution cl).length) :
    elect s cnf rnd p i = none := by
  have w0 : 0 < s.buffer.length := by omega
  simp only [elect, hc, wrN, w0, if_true]
  cases hscan : elect_scan s.solution cl (s.buffer.set 0 0) 0 0 with
  | none => rfl
  | some r =>
    obtain ⟨buf, a, j⟩ := r
    obtain ⟨_, _, _, _, _, e6⟩ := elect_scan_result _ _ _ _ _ _ _ _ hscan
    rw [List.length_set, hbuf] at e6
    omega

theorem active_upto_eq_filter (cs : List Char) (m : Nat) :
    active_upto cs m
      = ((List.range m).filter (fun i => decide (cs[i]? = some 'y'))).length := by
  induction m with
  | zero => simp [active_upto]
  | succ m ih =>
    rw [active_upto_step, ih, List.range_succ, List.filter_append, List.length_append]
    by_cases e : cs[m]? = some 'y'
    · simp [e]
    · simp [e]

theorem num_blocks_mul_ge {step : Nat} (hs : 0 < step) (nc : Nat) :
    nc ≤ num_blocks step nc * step := by
  by_contra h
  have := (lt_num_blocks hs nc (num_blocks step nc)).1 (by omega)
  omega

theorem num_blocks_initial (nc : Nat) :
    num_blocks (if nc / MILESTONE_PARAM < 100 then 100 else nc / MILESTONE_PARAM) nc ≤ 101 := by
  have hstep : 0 < (if nc / MILESTONE_PARAM < 100 then 100 else nc / MILESTONE_PARAM) := by
    split <;> omega
  by_contra h
  have h1 : 101 < num_blocks (if nc / MILESTONE_PARAM < 100 then 100 else nc / MILESTONE_PARAM)
      nc := by omega
  have h2 := (lt_num_blocks hstep nc 101).2 h1
  unfold MILESTONE_PARAM at h2
  split at h2 <;> omega

/-! ### The effect of the two kinds of move on the active set -/

theorem assign_move_effect {cnf : Cnf} {s s2 : Solver} (ok : ActiveOK s) (st : Setup cnf s)
    (sync : in_sync cnf s) {x : Int} {i : Nat} {cl : Clause} (hcl : cnf[i]? = some cl)
    (hx : x ∈ cl) (hy : s.constraints[i]? = some 'y')
    (hu : rd s.solution (abs x) = some '|') (hm : move cnf s x = some s2) :
    ActiveOK s2 ∧ Setup cnf s2 ∧ in_sync cnf s2 ∧
      s2.constraints[i]? = some 'n' ∧
      (∀ k : Nat, s.constraints[k]? = some 'n' → s2.constraints[k]? = some 'n') ∧
      (∀ k : Nat, s2.constraints[k]? = some 'y' → s.constraints[k]? = some 'y') ∧
      s2.num_constraints < s.num_constraints ∧
      ∃ sol row1 row2,
        wr s.solution (abs x) (if x > 0 then '}' else '{') = some sol ∧
        rd s.hold (s.num_variables + x + 1) = some row1 ∧
        extract_all row1 { s with solution := sol } = some s2 ∧
        rd s2.hold (s2.num_variables - x + 1) = some row2 ∧
        insert_all cnf row2 s2 = some s2 := by
  obtain ⟨hx0, hxv⟩ := st.lits cl (List.getElem?_mem hcl) x hx
  obtain ⟨sol, row1, row2, s3, h1, h2, h3, h4, h5, h6, ok3, st3, sync3, hfl⟩ :=
    move_assign_spec ok st sync hx0 hxv hu
  rw [hm] at h6
  simp only [Option.some.injEq] at h6
  subst h6
  have hil : i < cnf.length := by
    rcases List.getElem?_eq_some.1 hcl with ⟨hl, _⟩
    exact hl
  have hmem : i ∈ occurrences cnf x := (mem_occurrences cnf x i).2 ⟨cl, hcl, hx⟩
  have hi2 : s2.constraints[i]? = some 'n' := by rw [hfl i, if_pos hmem]
  have himp : ∀ k : Nat, s2.constraints[k]? = some 'y' → s.constraints[k]? = some 'y' := by
    intro k hk
    rw [hfl k] at hk
    split at hk
    · simp at hk
    · exact hk
  refine ⟨ok3, st3, sync3, hi2, ?_, himp, ?_, sol, row1, row2, h1, h2, h3, h4, h5⟩
  · intro k hk
    rw [hfl k]
    split
    · rfl
    · exact hk
  · have hnc : s2.num_clauses = s.num_clauses := by rw [st3.nc, st.nc]
    rw [ok3.count, ok.count, hnc]
    have := active_upto_lt_of_imp s.constraints s2.constraints s.num_clauses i
      (by rw [st.nc]; exact hil) (fun k _ => himp k) hy (by rw [hi2]; simp)
    omega

theorem revert_move_effect {cnf : Cnf} {s s2 : Solver} (ok : ActiveOK s) (st : Setup cnf s)
    (sync : in_sync cnf s) {x : Int} {cl : Clause} (hcl : cl ∈ cnf) (hx : x ∈ cl)
    (hu : rd s.solution (abs x) ≠ some '|') (hm : move cnf s x = some s2) :
    ActiveOK s2 ∧ Setup cnf s2 ∧ in_sync cnf s2 ∧
      (∀ k : Nat, s.constraints[k]? = some 'y' → s2.constraints[k]? = some 'y') ∧
      s.num_constraints ≤ s2.num_constraints := by
  obtain ⟨hx0, hxv⟩ := st.lits cl hcl x hx
  obtain ⟨s3, h1, ok3, st3, sync3, hfl⟩ := move_revert_spec ok st sync hx0 hxv hu
  rw [hm] at h1
  simp only [Option.some.injEq] at h1
  subst h1
  have himp : ∀ k : Nat, s.constraints[k]? = some 'y' → s2.constraints[k]? = some 'y' := by
    intro k hk
    by_cases hlt : k < s.num_clauses
    · exact hfl k hlt hk
    · have hlen := ok.len
      by_cases e : k = s.num_clauses
      · rw [e, ok.term] at hk
        simp at hk
      · have : s.constraints[k]? = none := List.getElem?_eq_none (by omega)
        rw [this] at hk
        cases hk
  refine ⟨ok3, st3, sync3, himp, ?_⟩
  have hnc : s2.num_clauses = s.num_clauses := by rw [st3.nc, st.nc]
  rw [ok3.count, ok.count, hnc]
  have := active_upto_le_of_imp s2.constraints s.constraints s.num_clauses (fun k _ => himp k)
  omega

theorem solve_moves_done (cnf : Cnf) (rnd : Nat → Nat) (n : Nat) (s : Solver) (p : Nat)
    (h : ¬ s.num_constraints > 0) : solve_moves cnf rnd n s p = some (s, p) := by
  cases n with
  | zero => rfl
  | succ n => rw [solve_moves, if_neg h]

theorem solve_moves_first (cnf : Cnf) (rnd : Nat → Nat) (n : Nat) {s s1 : Solver} {p p1 : Nat}
    (hpos : s.num_constraints > 0) (h : solve_step cnf rnd s p = some (s1, p1)) :
    solve_moves cnf rnd (n + 1) s p = solve_moves cnf rnd n s1 p1 := by
  rw [solve_moves, if_pos hpos, h]

/-! ### Character classes -/

theorem blank_not_digit {ch : Char} (h : isblank ch = true) : isdigit ch = false := by
  unfold isblank at h
  simp only [decide_eq_true_eq] at h
  rcases h with rfl | rfl <;> decide

theorem blank_is_space {ch : Char} (h : isblank ch = true) : isspace ch = true := by
  unfold isblank at h
  simp only [decide_eq_true_eq] at h
  rcases h with rfl | rfl <;> decide

theorem blank_ne {ch : Char} (h : isblank ch = true) :
    ch ≠ '\n' ∧ ch ≠ '0' ∧ ch ≠ 'c' ∧ ch ≠ '%' := by
  unfold isblank at h
  simp only [decide_eq_true_eq] at h
  rcases h with rfl | rfl <;> decide

theorem digit_not_space {ch : Char} (h : isdigit ch = true) : isspace ch = false := by
  unfold isdigit at h
  simp only [decide_eq_true_eq] at h
  unfold isspace
  simp only [decide_eq_false_iff_not]
  rintro (rfl | rfl | rfl | rfl | rfl | rfl) <;> revert h <;> decide

theorem digit_not_blank {ch : Char} (h : isdigit ch = true) : isblank ch = false := by
  cases hb : isblank ch with
  | false => rfl
  | true => rw [blank_not_digit hb] at h; cases h

theorem digit_ne {ch : Char} (h : isdigit ch = true) :
    ch ≠ '\n' ∧ ch ≠ '-' ∧ ch ≠ '+' ∧ ch ≠ 'c' ∧ ch ≠ '%' ∧ ch ≠ 'p' := by
  unfold isdigit at h
  simp only [decide_eq_true_eq] at h
  refine ⟨?_, ?_, ?_, ?_, ?_, ?_⟩ <;> rintro rfl <;> revert h <;> decide

/-! ### The scanning loops on text of a known shape -/

theorem skip_line_spec (l : List Char) (rest : List Char) (h : '\n' ∉ l) :
    skip_line (l ++ '\n' :: rest) = some ('\n' :: rest) := by
  induction l with
  | nil => simp [skip_line]
  | cons ch l ih =>
    have h1 : ch ≠ '\n' := fun e => h (by rw [e]; exact List.mem_cons_self _ _)
    have h2 : '\n' ∉ l := fun e => h (List.mem_cons_of_mem _ e)
    rw [List.cons_append, skip_line, if_neg h1]
    exact ih h2

theorem comments_length (ls : List (List Char)) : ls.length ≤ (comments_text ls).length := by
  induction ls with
  | nil => simp
  | cons l ls ih =>
    simp only [comments_text, List.length_cons, List.length_append]
    omega

theorem skip_comments_spec (ls : List (List Char)) (ch : Char) (rest : List Char)
    (hls : ∀ l ∈ ls, comment_ok l) (hch : ¬ (ch = 'c' ∨ ch = '%' ∨ ch = '\n')) :
    ∀ fuel, ls.length < fuel →
      skip_comments_line fuel (comments_text ls ++ ch :: rest) = some (ch :: rest) := by
  induction ls with
  | nil =>
    intro fuel hf
    obtain ⟨f, rfl⟩ : ∃ f, fuel = f + 1 := ⟨fuel - 1, by simp at hf; omega⟩
    simp only [comments_text, List.nil_append, skip_comments_line, if_neg hch]
  | cons l ls ih =>
    intro fuel hf
    obtain ⟨f, rfl⟩ : ∃ f, fuel = f + 1 := ⟨fuel - 1, by simp at hf; omega⟩
    obtain ⟨hnl, hhead⟩ := hls l (List.mem_cons_self _ _)
    have ih1 := ih (fun x hx => hls x (List.mem_cons_of_mem _ hx)) f
      (by simp only [List.length_cons] at hf; omega)
    have hline := skip_line_spec l (comments_text ls ++ ch :: rest) hnl
    have htext : comments_text (l :: ls) ++ ch :: rest
        = l ++ '\n' :: (comments_text ls ++ ch :: rest) := by
      simp [comments_text]
    rw [htext]
    cases l with
    | nil =>
      simp only [List.nil_append] at hline ⊢
      rw [skip_comments_line, if_pos (Or.inr (Or.inr rfl)), hline]
      exact ih1
    | cons c0 l0 =>
      have hc0 : c0 = 'c' ∨ c0 = '%' ∨ c0 = '\n' := by
        rcases hhead with h | h | h
        · cases h
        · left; simpa using h
        · right; left; simpa using h
      rw [List.cons_append] at hline ⊢
      rw [skip_comments_line, if_pos hc0, hline]
      exact ih1

theorem skip_digits_spec (ds : List Char) (ch : Char) (rest : List Char)
    (hds : ∀ d ∈ ds, isdigit d = true) (hch : isdigit ch = false) :
    skip_digits (ds ++ ch :: rest) = some (ch :: rest) := by
  induction ds with
  | nil => simp [skip_digits, hch]
  | cons d ds ih =>
    rw [List.cons_append, skip_digits, if_pos (hds d (List.mem_cons_self _ _))]
    exact ih (fun x hx => hds x (List.mem_cons_of_mem _ hx))

theorem skip_blanks_spec (bs : List Char) (ch : Char) (rest : List Char)
    (hbs : ∀ b ∈ bs, isblank b = true) (hch : isblank ch = false) :
    skip_blanks (bs ++ ch :: rest) = some (ch :: rest) := by
  induction bs with
  | nil => simp [skip_blanks, hch]
  | cons b bs ih =>
    rw [List.cons_append, skip_blanks, if_pos (hbs b (List.mem_cons_self _ _))]
    exact ih (fun x hx => hbs x (List.mem_cons_of_mem _ hx))

theorem skip_space_spec (bs : List Char) (ch : Char) (rest : List Char)
    (hbs : ∀ b ∈ bs, isblank b = true) (hch : isspace ch = false) :
    skip_space (bs ++ ch :: rest) = some (ch :: rest) := by
  induction bs with
  | nil => simp [skip_space, hch]
  | cons b bs ih =>
    rw [List.cons_append, skip_space, if_pos (blank_is_space (hbs b (List.mem_cons_self _ _)))]
    exact ih (fun x hx => hbs x (List.mem_cons_of_mem _ hx))

theorem skip_nondigits_spec (ns : List Char) (ch : Char) (rest : List Char)
    (hns : ∀ x ∈ ns, isdigit x = false) (hch : isdigit ch = true) :
    skip_nondigits (ns ++ ch :: rest) = some (ch :: rest) := by
  induction ns with
  | nil => simp [skip_nondigits, hch]
  | cons x ns ih =>
    have hx : ¬ isdigit x = true := by rw [hns x (List.mem_cons_self _ _)]; simp
    rw [List.cons_append, skip_nondigits, if_neg hx]
    exact ih (fun y hy => hns y (List.mem_cons_of_mem _ hy))

theorem read_digits_spec (ds : List Char) (ch : Char) (rest : List Char)
    (hds : ∀ d ∈ ds, isdigit d = true) (hch : isdigit ch = false) (acc : Nat) :
    read_digits (ds ++ ch :: rest) acc
      = some (ds.foldl (fun a c => a * 10 + (c.toNat - 48)) acc, ch :: rest) := by
  induction ds generalizing acc with
  | nil => simp [read_digits, hch]
  | cons d ds ih =>
    rw [List.cons_append, read_digits, if_pos (hds d (List.mem_cons_self _ _))]
    rw [ih (fun x hx => hds x (List.mem_cons_of_mem _ hx))]
    rfl

theorem foldl_digits_pos (ds : List Char) (acc : Nat) (h : 1 ≤ acc) :
    1 ≤ ds.foldl (fun a c => a * 10 + (c.toNat - 48)) acc := by
  induction ds generalizing acc with
  | nil => simpa using h
  | cons d ds ih =>
    simp only [List.foldl_cons]
    exact ih _ (by omega)

theorem decimal_pos (d : Char) (ds : List Char) (hd : isdigit d = true) (h0 : d ≠ '0') :
    1 ≤ decimal (d :: ds) := by
  unfold decimal
  simp only [List.foldl_cons]
  apply foldl_digits_pos
  unfold isdigit at hd
  simp only [decide_eq_true_eq] at hd
  have : d.toNat ≠ 48 := by
    intro e
    apply h0
    apply Char.ext
    have h48 : ('0' : Char).toNat = 48 := by decide
    have : d.val.toNat = ('0' : Char).val.toNat := by
      simpa [Char.toNat] using e.trans h48.symm
    exact UInt32.ext (by simpa [UInt32.toNat] using this)
  omega

/-! ### Tokens -/

theorem to_int_of_range {v : Int} (h1 : -2147483648 ≤ v) (h2 : v ≤ 2147483647) :
    to_int v = v := by
  unfold to_int; omega

theorem clamp_long_of_range {v : Int} (h1 : -2147483648 ≤ v) (h2 : v ≤ 2147483647) :
    clamp_long v = v := by
  unfold clamp_long
  rw [if_neg (by omega), if_neg (by omega)]

theorem token_value_ne_zero {t : Token} (h : t.ok) : t.value ≠ 0 :=
  h.2.2.2.2.2.2.1

/-- The first character of a token is not a blank, not `0`, not a newline and
does not start a comment. -/
theorem token_head {t : Token} (h : t.ok) (rest : List Char) :
    ∃ ch r, t.text ++ rest = ch :: r ∧ isblank ch = false ∧ ch ≠ '0' ∧ ch ≠ '\n' ∧
      ¬ (ch = 'c' ∨ ch = '%' ∨ ch = '\n') := by
  obtain ⟨hs, hd, h0, _⟩ := h
  have hdn := digit_ne hd
  rcases hs with e | e | e
  · refine ⟨t.first, t.more ++ t.sep ++ rest, by simp [Token.text, e], digit_not_blank hd, h0 e,
      hdn.1, ?_⟩
    rintro (h | h | h)
    · exact hdn.2.2.2.1 h
    · exact hdn.2.2.2.2.1 h
    · exact hdn.1 h
  · exact ⟨'-', t.first :: (t.more ++ t.sep) ++ rest, by simp [Token.text, e], by decide,
      by decide, by decide, by decide⟩
  · exact ⟨'+', t.first :: (t.more ++ t.sep) ++ rest, by simp [Token.text, e], by decide,
      by decide, by decide, by decide⟩

theorem tokens_tail_head (ts : List Token) (hts : ∀ t ∈ ts, t.ok) (x : Char)
    (rest : List Char) :
    ∃ ch r, tokens_text ts ++ '0' :: x :: rest = ch :: r ∧ isblank ch = false ∧ ch ≠ '\n' ∧
      ¬ (ch = 'c' ∨ ch = '%' ∨ ch = '\n') := by
  cases ts with
  | nil => exact ⟨'0', x :: rest, rfl, by decide, by decide, by decide⟩
  | cons t ts =>
    obtain ⟨ch, r, h1, h2, _, h4, h5⟩ :=
      token_head (hts t (List.mem_cons_self _ _)) (tokens_text ts ++ '0' :: x :: rest)
    refine ⟨ch, r, ?_, h2, h4, h5⟩
    rw [← h1]
    simp [tokens_text]

theorem strtol_token {t : Token} (h : t.ok) (b rest : List Char)
    (hb : ∀ ch ∈ b, isblank ch = true) :
    strtol (b ++ (t.text ++ rest)) = some (t.value, t.sep ++ rest) := by
  obtain ⟨hs, hd, h0, hmore, hsep, hblank, _, hlo, hhi⟩ := h
  have hdn := digit_ne hd
  obtain ⟨c, sep1, hc⟩ : ∃ c sep1, t.sep = c :: sep1 := by
    cases hse : t.sep with
    | nil => exact absurd hse hsep
    | cons c sep1 => exact ⟨c, sep1, rfl⟩
  have hcd : isdigit c = false :=
    blank_not_digit (hblank c (by rw [hc]; exact List.mem_cons_self _ _))
  have hdigits : ∀ d ∈ t.first :: t.more, isdigit d = true := by
    intro d hdm
    rcases List.mem_cons.1 hdm with rfl | hdm
    · exact hd
    · exact hmore d hdm
  have hread : read_digits (t.first :: (t.more ++ t.sep) ++ rest) 0
      = some (decimal (t.first :: t.more), t.sep ++ rest) := by
    have e : t.first :: (t.more ++ t.sep) ++ rest
        = (t.first :: t.more) ++ c :: (sep1 ++ rest) := by
      rw [hc]; simp
    rw [e, read_digits_spec _ _ _ hdigits hcd, hc]
    simp [decimal]
  have hval1 : clamp_long t.value = t.value := clamp_long_of_range hlo hhi
  unfold Token.value at hval1
  rcases hs with e | e | e
  · have htext : b ++ (t.text ++ rest) = b ++ t.first :: ((t.more ++ t.sep) ++ rest) := by
      simp [Token.text, e]
    have hne : ¬ (t.first = '-' ∨ t.first = '+') := by
      rintro (h | h)
      · exact hdn.2.1 h
      · exact hdn.2.2.1 h
    have hv : t.value = (decimal (t.first :: t.more) : Int) := by
      unfold Token.value; rw [e]; simp
    have hm : ¬ t.first = '-' := hdn.2.1
    rw [e] at hval1
    simp only [List.nil_eq, reduceCtorEq, if_false] at hval1
    unfold strtol
    rw [htext, skip_space_spec b _ _ hb (digit_not_space hd)]
    simp only [hne, if_false, hd, if_true]
    rw [show t.first :: (t.more ++ t.sep ++ rest) = t.first :: (t.more ++ t.sep) ++ rest from rfl,
      hread]
    simp only [hm, if_false, hval1, hv]
  · have htext : b ++ (t.text ++ rest) = b ++ '-' :: (t.first :: (t.more ++ t.sep) ++ rest) := by
      simp [Token.text, e]
    have hv : t.value = -(decimal (t.first :: t.more) : Int) := by
      unfold Token.value; rw [e]; simp
    rw [e] at hval1
    simp only [if_true] at hval1
    unfold strtol
    rw [htext, skip_space_spec b _ _ hb (by decide)]
    simp only [true_or, if_true]
    rw [show t.first :: (t.more ++ t.sep) ++ rest = t.first :: ((t.more ++ t.sep) ++ rest) from rfl]
    simp only [hd, if_true]
    rw [show t.first :: (t.more ++ t.sep ++ rest) = t.first :: (t.more ++ t.sep) ++ rest from rfl,
      hread]
    simp only [if_true, hval1, hv]
  · have htext : b ++ (t.text ++ rest) = b ++ '+' :: (t.first :: (t.more ++ t.sep) ++ rest) := by
      simp [Token.text, e]
    have hv : t.value = (decimal (t.first :: t.more) : Int) := by
      unfold Token.value; rw [e]; simp
    have hpm : ¬ ('+' : Char) = '-' := by decide
    rw [e] at hval1
    simp only [List.cons.injEq, hpm, and_true, if_false] at hval1
    unfold strtol
    rw [htext, skip_space_spec b _ _ hb (by decide)]
    simp only [or_true, if_true]
    rw [show t.first :: (t.more ++ t.sep) ++ rest = t.first :: ((t.more ++ t.sep) ++ rest) from rfl]
    simp only [hd, if_true]
    rw [show t.first :: (t.more ++ t.sep ++ rest) = t.first :: (t.more ++ t.sep) ++ rest from rfl,
      hread]
    simp only [hpm, if_false, hval1, hv]

theorem strtol_zero (b rest : List Char) (hb : ∀ ch ∈ b, isblank ch = true) :
    strtol (b ++ '0' :: '\n' :: rest) = some (0, '\n' :: rest) := by
  unfold strtol
  rw [skip_space_spec b _ _ hb (by decide)]
  have h1 : ¬ (('0' : Char) = '-' ∨ ('0' : Char) = '+') := by decide
  have h2 : isdigit '0' = true := by decide
  have h3 : isdigit '\n' = false := by decide
  have h4 : ¬ ('0' : Char) = '-' := by decide
  simp only [h1, if_false, h2, if_true]
  rw [show ('0' : Char) :: '\n' :: rest = ['0'] ++ '\n' :: rest from rfl,
    read_digits_spec ['0'] '\n' rest (by simp; decide) h3]
  simp only [h4, if_false]
  rfl

/-! ### One clause line -/

theorem get_line_length_step (f : Nat) (ch : Char) (rest d1 d2 : List Char) (num : Nat)
    (h : ch ≠ '0') (h1 : skip_digits rest = some d1) (h2 : skip_blanks d1 = some d2) :
    get_line_length (f + 1) (ch :: rest) num = get_line_length f d2 (num + 1) := by
  simp only [get_line_length, if_pos h, h1, h2]

theorem get_line_length_stop (f : Nat) (x : Char) (rest : List Char) (num : Nat) :
    get_line_length (f + 1) ('0' :: x :: rest) num = some (num, rest) := by
  simp [get_line_length]

theorem map_values_step (f : Nat) (ch c : Char) (rest line2 : List Char) (p : Nat)
    (row row1 : List Int) (v : Int) (h : ch ≠ '\n')
    (h1 : strtol (ch :: rest) = some (v, c :: line2))
    (h2 : wrN row p (to_int v) = some row1) (h3 : to_int v ≠ 0) :
    map_values (f + 1) (ch :: rest) p row = map_values f line2 (p + 1) row1 := by
  simp only [map_values, if_pos h, h1, h2, if_neg h3]

theorem map_values_stop (f : Nat) (ch : Char) (rest line1 : List Char) (p : Nat)
    (row row1 : List Int) (v : Int) (h : ch ≠ '\n')
    (h1 : strtol (ch :: rest) = some (v, line1))
    (h2 : wrN row p (to_int v) = some row1) (h3 : to_int v = 0) :
    map_values (f + 1) (ch :: rest) p row = some row1 := by
  simp only [map_values, if_pos h, h1, h2, if_pos h3]

theorem tokens_length (ts : List Token) : ts.length ≤ (tokens_text ts).length := by
  induction ts with
  | nil => simp
  | cons t ts ih =>
    simp only [tokens_text, Token.text, List.length_cons, List.length_append]
    omega

theorem get_line_length_spec (x : Char) (rest : List Char) :
    ∀ (ts : List Token) (num fuel : Nat), (∀ t ∈ ts, t.ok) → ts.length < fuel →
      get_line_length fuel (tokens_text ts ++ '0' :: x :: rest) num
        = some (num + ts.length, rest) := by
  intro ts
  induction ts with
  | nil =>
    intro num fuel _ hf
    obtain ⟨f, rfl⟩ : ∃ f, fuel = f + 1 := ⟨fuel - 1, by simp at hf; omega⟩
    simp [tokens_text, get_line_length]
  | cons t ts ih =>
    intro num fuel hts hf
    obtain ⟨f, rfl⟩ : ∃ f, fuel = f + 1 := ⟨fuel - 1, by simp at hf; omega⟩
    have ht := hts t (List.mem_cons_self _ _)
    have hts1 : ∀ u ∈ ts, u.ok := fun u hu => hts u (List.mem_cons_of_mem _ hu)
    obtain ⟨hs, hd, h0, hmore, hsep, hblank, _, _, _⟩ := ht
    obtain ⟨c, sep1, hc⟩ : ∃ c sep1, t.sep = c :: sep1 := by
      cases hse : t.sep with
      | nil => exact absurd hse hsep
      | cons c sep1 => exact ⟨c, sep1, rfl⟩
    have hcd : isdigit c = false :=
      blank_not_digit (hblank c (by rw [hc]; exact List.mem_cons_self _ _))
    obtain ⟨c1, r1, htail, hc1, _, _⟩ := tokens_tail_head ts hts1 x rest
    have hblanks : skip_blanks (c :: (sep1 ++ (tokens_text ts ++ '0' :: x :: rest)))
        = some (tokens_text ts ++ '0' :: x :: rest) := by
      have := skip_blanks_spec t.sep c1 r1 hblank hc1
      rw [← htail, hc] at this
      exact this
    have hdigits : ∀ d ∈ t.first :: t.more, isdigit d = true := by
      intro d hdm
      rcases List.mem_cons.1 hdm with rfl | hdm
      · exact hd
      · exact hmore d hdm
    have ih1 := ih (num + 1) f hts1 (by simp only [List.length_cons] at hf; omega)
    have hres : num + 1 + ts.length = num + (t :: ts).length := by
      simp only [List.length_cons]; omega
    rcases hs with e | e | e
    · have htext : tokens_text (t :: ts) ++ '0' :: x :: rest
          = t.first :: (t.more ++ c :: (sep1 ++ (tokens_text ts ++ '0' :: x :: rest))) := by
        simp [tokens_text, Token.text, e, hc]
      rw [htext, get_line_length_step f _ _ _ _ num (h0 e)
        (skip_digits_spec _ _ _ hmore hcd) hblanks, ih1, hres]
    · have htext : tokens_text (t :: ts) ++ '0' :: x :: rest
          = '-' :: ((t.first :: t.more) ++ c :: (sep1 ++ (tokens_text ts ++ '0' :: x :: rest))) := by
        simp [tokens_text, Token.text, e, hc]
      rw [htext, get_line_length_step f _ _ _ _ num (by decide)
        (skip_digits_spec _ _ _ hdigits hcd) hblanks, ih1, hres]
    · have htext : tokens_text (t :: ts) ++ '0' :: x :: rest
          = '+' :: ((t.first :: t.more) ++ c :: (sep1 ++ (tokens_text ts ++ '0' :: x :: rest))) := by
        simp [tokens_text, Token.text, e, hc]
      rw [htext, get_line_length_step f _ _ _ _ num (by decide)
        (skip_digits_spec _ _ _ hdigits hcd) hblanks, ih1, hres]

theorem set_at_length {α : Type} (done : List α) (a b : α) (rest : List α) :
    wrN (done ++ a :: rest) done.length b = some (done ++ b :: rest) := by
  unfold wrN
  rw [if_pos (by simp)]
  congr 1
  rw [List.set_append_right _ _ (le_refl _), Nat.sub_self]
  rfl

theorem map_values_spec (junk : Int) (rest : List Char) :
    ∀ (ts : List Token) (b : List Char) (done : List Int) (fuel : Nat),
      (∀ t ∈ ts, t.ok) → (∀ ch ∈ b, isblank ch = true) → ts.length < fuel →
      map_values fuel (b ++ (tokens_text ts ++ '0' :: '\n' :: rest)) done.length
          (done ++ List.replicate (ts.length + 1) junk)
        = some (done ++ (ts.map Token.value ++ [0])) := by
  intro ts
  induction ts with
  | nil =>
    intro b done fuel _ hb hf
    obtain ⟨f, rfl⟩ : ∃ f, fuel = f + 1 := ⟨fuel - 1, by simp at hf; omega⟩
    have hst := strtol_zero b rest hb
    obtain ⟨c0, r0, hline, hc0⟩ : ∃ c0 r0, b ++ '0' :: '\n' :: rest = c0 :: r0 ∧ c0 ≠ '\n' := by
      cases b with
      | nil => exact ⟨'0', '\n' :: rest, rfl, by decide⟩
      | cons c b1 => exact ⟨c, b1 ++ '0' :: '\n' :: rest, rfl,
          (blank_ne (hb c (List.mem_cons_self _ _))).1⟩
    simp only [tokens_text, List.nil_append, List.length_nil, Nat.zero_add, List.map_nil]
    rw [hline] at hst ⊢
    have e0 : to_int 0 = 0 := by decide
    rw [map_values_stop f c0 r0 _ done.length _ (done ++ [0]) 0 hc0 hst
      (by rw [e0]; exact set_at_length done junk 0 []) e0]
  | cons t ts ih =>
    intro b done fuel hts hb hf
    obtain ⟨f, rfl⟩ : ∃ f, fuel = f + 1 := ⟨fuel - 1, by simp at hf; omega⟩
    have ht := hts t (List.mem_cons_self _ _)
    have hts1 : ∀ u ∈ ts, u.ok := fun u hu => hts u (List.mem_cons_of_mem _ hu)
    have hst := strtol_token ht b (tokens_text ts ++ '0' :: '\n' :: rest) hb
    obtain ⟨c, sep1, hc⟩ : ∃ c sep1, t.sep = c :: sep1 := by
      cases hse : t.sep with
      | nil => exact absurd hse ht.2.2.2.2.1
      | cons c sep1 => exact ⟨c, sep1, rfl⟩
    have hb1 : ∀ ch ∈ sep1, isblank ch = true := by
      intro ch hch
      exact ht.2.2.2.2.2.1 ch (by rw [hc]; exact List.mem_cons_of_mem _ hch)
    have htext : b ++ (tokens_text (t :: ts) ++ '0' :: '\n' :: rest)
        = b ++ (t.text ++ (tokens_text ts ++ '0' :: '\n' :: rest)) := by
      simp [tokens_text]
    obtain ⟨c0, r0, hline, hc0⟩ :
        ∃ c0 r0, b ++ (t.text ++ (tokens_text ts ++ '0' :: '\n' :: rest)) = c0 :: r0 ∧
          c0 ≠ '\n' := by
      cases b with
      | nil =>
        obtain ⟨ch, r, h1, _, _, h4, _⟩ :=
          token_head ht (tokens_text ts ++ '0' :: '\n' :: rest)
        exact ⟨ch, r, by rw [List.nil_append, h1], h4⟩
      | cons c2 b1 => exact ⟨c2, _, rfl, (blank_ne (hb c2 (List.mem_cons_self _ _))).1⟩
    have hv : to_int t.value = t.value :=
      to_int_of_range ht.2.2.2.2.2.2.2.1 ht.2.2.2.2.2.2.2.2
    have hnz := token_value_ne_zero ht
    have ih1 := ih sep1 (done ++ [t.value]) f hts1 hb1
      (by simp only [List.length_cons] at hf; omega)
    have e1 : (done ++ [t.value]).length = done.length + 1 := by simp
    rw [e1, List.append_assoc] at ih1
    rw [htext, hline]
    rw [hline, hc, List.cons_append] at hst
    rw [map_values_step f c0 c r0 _ done.length _
      (done ++ ([t.value] ++ List.replicate (ts.length + 1) junk)) t.value hc0 hst
      (by rw [hv]; exact set_at_length done junk t.value _) (by rw [hv]; exact hnz), ih1]
    simp

/-! ### The clause lines and the header -/

theorem parse_lines_unfold (junk : Int) (cn : Int) (f : Nat) (data line data1 : List Char)
    (k n : Nat) (array array1 : List Cell) (row : List Int)
    (hk : (k : Int) < cn)
    (h1 : skip_comments_line (data.length + 1) data = some line)
    (h2 : get_line_length (line.length + 1) line 0 = some (n, data1))
    (hn : n > 0)
    (h3 : map_values (line.length + 1) line 0 (List.replicate (n + 1) junk) = some row)
    (h4 : wrN array k (Cell.row row) = some array1) :
    parse_lines junk cn (f + 1) data k array
      = if ((k + 1 : Nat) : Int) = cn then wrN array1 (k + 1) Cell.null
        else parse_lines junk cn f data1 (k + 1) array1 := by
  simp only [parse_lines, if_pos hk, h1, h2, if_pos hn, h3, h4]

theorem decode_row_values (vs : List Int) (h : ∀ v ∈ vs, v ≠ 0) :
    decode_row (vs ++ [0]) = some vs := by
  induction vs with
  | nil => simp [decode_row]
  | cons v vs ih =>
    have h1 := ih (fun x hx => h x (List.mem_cons_of_mem _ hx))
    simp only [List.cons_append, decode_row, if_neg (h v (List.mem_cons_self _ _)), List.append_eq, h1]

theorem values_nonzero {l : ClauseLine} (h : l.ok) : ∀ v ∈ l.values, v ≠ 0 := by
  intro v hv
  unfold ClauseLine.values at hv
  obtain ⟨t, ht, rfl⟩ := List.mem_map.1 hv
  exact token_value_ne_zero (h.2.2 t ht)

theorem decode_cells_rows (ls : List ClauseLine) (h : ∀ l ∈ ls, l.ok) :
    decode_cells (ls.map (fun l => Cell.row (l.values ++ [0])) ++ [Cell.null])
      = some (ls.map ClauseLine.values) := by
  induction ls with
  | nil => simp [decode_cells]
  | cons l ls ih =>
    have h1 := ih (fun x hx => h x (List.mem_cons_of_mem _ hx))
    have h2 := decode_row_values l.values (values_nonzero (h l (List.mem_cons_self _ _)))
    simp only [List.map_cons, List.cons_append, decode_cells, h2, List.append_eq, h1]

theorem lines_length (ls : List ClauseLine) : ls.length ≤ (lines_text ls).length := by
  induction ls with
  | nil => simp
  | cons l ls ih =>
    simp only [lines_text, ClauseLine.text, List.length_cons, List.length_append]
    omega

theorem parse_line_facts (junk : Int) (l : ClauseLine) (hl : l.ok) (rest : List Char) :
    ∃ line, skip_comments_line ((l.text ++ rest).length + 1) (l.text ++ rest) = some line ∧
      get_line_length (line.length + 1) line 0 = some (l.tokens.length, rest) ∧
      0 < l.tokens.length ∧
      map_values (line.length + 1) line 0 (List.replicate (l.tokens.length + 1) junk)
        = some (l.values ++ [0]) := by
  obtain ⟨hcs, hne, hts⟩ := hl
  obtain ⟨c1, r1, htail, _, _, hc1⟩ := tokens_tail_head l.tokens hts '\n' rest
  have htext : l.text ++ rest
      = comments_text l.comments ++ (tokens_text l.tokens ++ '0' :: '\n' :: rest) := by
    simp [ClauseLine.text]
  refine ⟨tokens_text l.tokens ++ '0' :: '\n' :: rest, ?_, ?_, ?_, ?_⟩
  · rw [htext, htail]
    apply skip_comments_spec _ _ _ hcs hc1
    have := comments_length l.comments
    simp only [List.length_append]
    omega
  · have := get_line_length_spec '\n' rest l.tokens 0
      ((tokens_text l.tokens ++ '0' :: '\n' :: rest).length + 1) hts
      (by have := tokens_length l.tokens; simp only [List.length_append]; omega)
    rw [this, Nat.zero_add]
  · exact List.length_pos.2 hne
  · have := map_values_spec junk rest l.tokens [] []
      ((tokens_text l.tokens ++ '0' :: '\n' :: rest).length + 1) hts
      (by intro ch h; cases h)
      (by have := tokens_length l.tokens; simp only [List.length_append]; omega)
    simpa [ClauseLine.values] using this

theorem parse_lines_spec (junk : Int) (trailer : List Char) :
    ∀ (ls : List ClauseLine) (done : List Cell) (fuel : Nat),
      ls ≠ [] → (∀ l ∈ ls, l.ok) → ls.length ≤ fuel →
      parse_lines junk ((done.length + ls.length : Nat) : Int) fuel
          (lines_text ls ++ trailer) done.length
          (done ++ List.replicate (ls.length + 1) Cell.junk)
        = some (done ++ (ls.map (fun l => Cell.row (l.values ++ [0])) ++ [Cell.null])) := by
  intro ls
  induction ls with
  | nil => intro _ _ h; exact absurd rfl h
  | cons l ls ih =>
    intro done fuel _ hls hf
    obtain ⟨f, rfl⟩ : ∃ f, fuel = f + 1 := ⟨fuel - 1, by simp at hf; omega⟩
    have hl := hls l (List.mem_cons_self _ _)
    have hls1 : ∀ x ∈ ls, x.ok := fun x hx => hls x (List.mem_cons_of_mem _ hx)
    obtain ⟨line, h1, h2, h3, h4⟩ := parse_line_facts junk l hl (lines_text ls ++ trailer)
    have htext : lines_text (l :: ls) ++ trailer = l.text ++ (lines_text ls ++ trailer) := by
      simp [lines_text]
    have hk : ((done.length : Nat) : Int) < ((done.length + (l :: ls).length : Nat) : Int) := by
      simp only [List.length_cons]; omega
    have hw : wrN (done ++ List.replicate ((l :: ls).length + 1) Cell.junk) done.length
        (Cell.row (l.values ++ [0]))
        = some (done ++ Cell.row (l.values ++ [0]) :: List.replicate (ls.length + 1) Cell.junk) :=
      set_at_length done Cell.junk _ _
    rw [htext, parse_lines_unfold junk _ f _ line _ _ _ _ _ _ hk h1 h2 h3 h4 hw]
    have e1 : (done ++ [Cell.row (l.values ++ [0])]).length = done.length + 1 := by simp
    cases ls with
    | nil =>
      rw [if_pos (by simp)]
      have := set_at_length (done ++ [Cell.row (l.values ++ [0])]) Cell.junk Cell.null []
      rw [e1] at this
      simpa using this
    | cons l2 ls2 =>
      rw [if_neg (by simp only [List.length_cons]; omega)]
      have := ih (done ++ [Cell.row (l.values ++ [0])]) f (by simp) hls1
        (by simp only [List.length_cons] at hf ⊢; omega)
      rw [e1] at this
      have e2 : done.length + 1 + (l2 :: ls2).length = done.length + (l :: l2 :: ls2).length := by
        simp only [List.length_cons]; omega
      rw [e2] at this
      simpa using this

theorem strtol_digits (d : Char) (ds : List Char) (ch : Char) (rest : List Char)
    (hd : isdigit d = true) (hds : ∀ x ∈ ds, isdigit x = true) (hch : isdigit ch = false) :
    strtol (d :: (ds ++ ch :: rest)) = some (clamp_long (decimal (d :: ds)), ch :: rest) := by
  have hdn := digit_ne hd
  have hall : ∀ x ∈ d :: ds, isdigit x = true := by
    intro x hx
    rcases List.mem_cons.1 hx with rfl | hx
    · exact hd
    · exact hds x hx
  have hr := read_digits_spec (d :: ds) ch rest hall hch 0
  rw [List.cons_append] at hr
  unfold strtol
  have hs : skip_space (d :: (ds ++ ch :: rest)) = some (d :: (ds ++ ch :: rest)) := by
    simp [skip_space, digit_not_space hd]
  have hsign : ¬ (d = '-' ∨ d = '+') := by
    rintro (h | h)
    · exact hdn.2.1 h
    · exact hdn.2.2.1 h
  rw [hs]
  simp only [if_neg hsign, hd, if_true, hr, if_neg hdn.2.1]
  rfl

theorem parse_lines_none (junk : Int) (fuel : Nat) (data : List Char) (array : List Cell) :
    parse_lines junk 0 (fuel + 1) data 0 array = some array := by
  simp [parse_lines]

theorem header_spec (junk : Int) (pre : List (List Char)) (w1 : List Char) (v : Char)
    (vs : List Char) (x : Char) (w2 : List Char) (c : Char) (cs : List Char) (rest : List Char)
    (hpre : ∀ l ∈ pre, comment_ok l) (hw1 : ∀ y ∈ w1, isdigit y = false)
    (hv : ∀ y ∈ v :: vs, isdigit y = true) (hw2 : ∀ y ∈ x :: w2, isdigit y = false)
    (hc : ∀ y ∈ c :: cs, isdigit y = true) (hhi : decimal (c :: cs) < 2147483647) :
    parse_cnf junk (comments_text pre ++
        ('p' :: (w1 ++ v :: (vs ++ x :: (w2 ++ c :: (cs ++ '\n' :: rest))))))
      = (parse_lines junk (decimal (c :: cs) : Int) (rest.length + 1) rest 0
          (List.replicate (decimal (c :: cs) + 1) Cell.junk)).map Loaded.array := by
  have h1 := skip_comments_spec pre 'p'
    (w1 ++ v :: (vs ++ x :: (w2 ++ c :: (cs ++ '\n' :: rest))))
    hpre (by decide)
    ((comments_text pre ++ ('p' :: (w1 ++ v :: (vs ++ x :: (w2 ++ c ::
      (cs ++ '\n' :: rest)))))).length + 1)
    (by have := comments_length pre; simp only [List.length_append]; omega)
  have hpw : ∀ y ∈ 'p' :: w1, isdigit y = false := by
    intro y hy
    rcases List.mem_cons.1 hy with rfl | hy
    · decide
    · exact hw1 y hy
  have h2 : skip_nondigits ('p' :: (w1 ++ v :: (vs ++ x :: (w2 ++ c :: (cs ++ '\n' :: rest)))))
      = some (v :: (vs ++ x :: (w2 ++ c :: (cs ++ '\n' :: rest)))) :=
    skip_nondigits_spec ('p' :: w1) v _ hpw (hv v (List.mem_cons_self _ _))
  have h3 : skip_digits (v :: (vs ++ x :: (w2 ++ c :: (cs ++ '\n' :: rest))))
      = some (x :: (w2 ++ c :: (cs ++ '\n' :: rest))) :=
    skip_digits_spec (v :: vs) x _ hv (hw2 x (List.mem_cons_self _ _))
  have h4 : skip_nondigits (x :: (w2 ++ c :: (cs ++ '\n' :: rest)))
      = some (c :: (cs ++ '\n' :: rest)) :=
    skip_nondigits_spec (x :: w2) c _ hw2 (hc c (List.mem_cons_self _ _))
  have h5 := strtol_digits c cs '\n' rest (hc c (List.mem_cons_self _ _))
    (fun y hy => hc y (List.mem_cons_of_mem _ hy)) (by decide)
  have h6 : clamp_long (decimal (c :: cs) : Int) = (decimal (c :: cs) : Int) :=
    clamp_long_of_range (by omega) (by omega)
  have h7 : to_int (decimal (c :: cs) : Int) = (decimal (c :: cs) : Int) :=
    to_int_of_range (by omega) (by omega)
  have h8 : ((decimal (c :: cs) : Int) + 1).toNat = decimal (c :: cs) + 1 := by omega
  have hp : ¬ (('p' : Char) ≠ 'p') := by decide
  unfold parse_cnf
  rw [h1]
  simp only [if_neg hp, h2, h3, h4, h5, h6, h7, h8]
  rw [if_neg (by omega), if_neg (by omega)]
  cases parse_lines junk (decimal (c :: cs) : Int) (rest.length + 1) rest 0
    (List.replicate (decimal (c :: cs) + 1) Cell.junk) <;> rfl

/-! ## The claims on the parser -/

/-- Counterexample to claim C11, part (b): on `p cnf 2 1` followed by the clause
line `1 x 2 0` the load does not fail.  `parse_cnf` returns an array whose
single clause is `[1]` (the conversion stops at the token `x`, the rest of the
row is never written), and `main` goes on to the solver. -/
theorem stray_token_counterexample :
    stray_token_input = "p cnf 2 1\n1 x 2 0\n".toList ∧
      parse_cnf 7 stray_token_input
        = some (Loaded.array [Cell.row [1, 0, 7, 7], Cell.null]) ∧
      main_action (Loaded.array [Cell.row [1, 0, 7, 7], Cell.null])
        = Action.run_solver [Cell.row [1, 0, 7, 7], Cell.null] ∧
      decode_cells [Cell.row [1, 0, 7, 7], Cell.null] = some [[1]] := by
  decide

/-- Claim C11, amended.  Let the input start with comment or empty lines.
(a) When the next line starts with a character other than `p`, `parse_cnf`
returns `NULL`, on which `main` prints `Invalid` and does not run the solver.
(b) When the next line is a header (`p`, characters other than digits, the
digits `V`, one or more characters other than digits, the digits `C` with
`C < 2147483647`, a newline), the text after it is not validated: whatever it
contains, a completed `parse_cnf` returns an array, not `NULL`, and `main` goes
on to the solver. -/
theorem missing_header_rejected (junk : Int) (pre : List (List Char))
    (hpre : ∀ l ∈ pre, comment_ok l) :
    (∀ (ch : Char) (rest : List Char), ¬ (ch = 'c' ∨ ch = '%' ∨ ch = '\n') → ch ≠ 'p' →
      parse_cnf junk (comments_text pre ++ ch :: rest) = some Loaded.null ∧
        main_action Loaded.null = Action.print_invalid) ∧
    (∀ (w1 V w2 C rest : List Char), (∀ x ∈ w1, isdigit x = false) →
      (V ≠ [] ∧ ∀ x ∈ V, isdigit x = true) → (w2 ≠ [] ∧ ∀ x ∈ w2, isdigit x = false) →
      (C ≠ [] ∧ ∀ x ∈ C, isdigit x = true) → decimal C < 2147483647 →
      ∀ r, parse_cnf junk (comments_text pre ++ ('p' :: (w1 ++ (V ++ (w2 ++ (C ++ '\n' :: rest))))))
          = some r →
        ∃ a, r = Loaded.array a ∧ main_action r = Action.run_solver a) := by
  constructor
  · intro ch rest hline hch
    have h1 := skip_comments_spec pre ch rest hpre hline
      ((comments_text pre ++ ch :: rest).length + 1)
      (by have := comments_length pre; simp only [List.length_append]; omega)
    refine ⟨?_, rfl⟩
    unfold parse_cnf
    rw [h1]
    simp only [if_pos hch]
  · intro w1 V w2 C rest hw1 hV hw2 hC hmax r hr
    obtain ⟨hVne, hVd⟩ := hV
    obtain ⟨hw2ne, hw2d⟩ := hw2
    obtain ⟨hCne, hCd⟩ := hC
    obtain ⟨v, vs, rfl⟩ := List.exists_cons_of_ne_nil hVne
    obtain ⟨x, w2r, rfl⟩ := List.exists_cons_of_ne_nil hw2ne
    obtain ⟨c, cs, rfl⟩ := List.exists_cons_of_ne_nil hCne
    have hh := header_spec junk pre w1 v vs x w2r c cs rest hpre hw1 hVd hw2d hCd hmax
    have htext : comments_text pre ++ ('p' :: (w1 ++ ((v :: vs) ++ ((x :: w2r) ++
          ((c :: cs) ++ '\n' :: rest)))))
        = comments_text pre ++ ('p' :: (w1 ++ v :: (vs ++ x :: (w2r ++ c ::
          (cs ++ '\n' :: rest))))) := by
      simp
    rw [htext, hh] at hr
    cases hp : parse_lines junk (decimal (c :: cs) : Int) (rest.length + 1) rest 0
        (List.replicate (decimal (c :: cs) + 1) Cell.junk) with
    | none => rw [hp] at hr; cases hr
    | some a =>
      rw [hp] at hr
      simp only [Option.map_some', Option.some.injEq] at hr
      subst hr
      exact ⟨a, rfl, rfl⟩

/-- Witness for C11: a comment line, then a line starting with `x`, is
rejected; `p cnf 2 1`, then the clause line `1 x 2 0`, is loaded. -/
theorem missing_header_rejected_witness :
    (∀ l ∈ ["c demo".toList], comment_ok l) ∧
      headless_input
        = comments_text ["c demo".toList] ++ 'x' :: " cnf 3 2\n1 -2 0\n".toList ∧
      parse_cnf 0 headless_input = some Loaded.null ∧
      main_action Loaded.null = Action.print_invalid ∧
      stray_token_input
        = comments_text [] ++ ('p' :: (" cnf ".toList ++ (['2'] ++ ([' '] ++ (['1'] ++
            '\n' :: "1 x 2 0\n".toList))))) ∧
      ∃ a, parse_cnf 7 stray_token_input = some (Loaded.array a) ∧
        main_action (Loaded.array a) = Action.run_solver a :=
  ⟨by decide, by decide,
    ((missing_header_rejected 0 ["c demo".toList] (by decide)).1 'x'
      " cnf 3 2\n1 -2 0\n".toList (by decide) (by decide)).1,
    ((missing_header_rejected 0 ["c demo".toList] (by decide)).1 'x'
      " cnf 3 2\n1 -2 0\n".toList (by decide) (by decide)).2,
    by decide,
    by
      obtain ⟨a, h1, h2⟩ :=
        (missing_header_rejected 7 [] (by decide)).2 " cnf ".toList ['2'] [' '] ['1']
          "1 x 2 0\n".toList (by decide) (by decide) (by decide) (by decide) (by decide)
          (Loaded.array [Cell.row [1, 0, 7, 7], Cell.null]) (by decide)
      cases h1
      exact ⟨_, by decide, h2⟩⟩

/-- On the input `p cnf 3 0`, which announces no clause, the loop of `parse_cnf`
is not entered: the one cell of the array is never written, and no database can
be read back from it. -/
theorem empty_input_unterminated :
    empty_input = "p cnf 3 0\n".toList ∧
      parse_cnf 0 empty_input = some (Loaded.array [Cell.junk]) ∧
      decode_cells [Cell.junk] = none := by
  decide

/-- Counterexample to claim C12: the input `p cnf 1 1`, then `2147483648 0`, has
the shape the claim describes and its clause line holds the integer
`2147483648`, but the clause `parse_cnf` stores is `[-2147483648]`: the value
is converted to `int`. -/
theorem wide_literal_counterexample :
    wide_literal_input = "p cnf 1 1\n2147483648 0\n".toList ∧
      wide_literal_line.values = [2147483648] ∧
      parse_cnf 0 wide_literal_input
        = some (Loaded.array [Cell.row [-2147483648, 0], Cell.null]) ∧
      decode_cells [Cell.row [-2147483648, 0], Cell.null] = some [[-2147483648]] := by
  decide

/-- Claim C12, amended.  Let the input consist of comment or empty lines; a
header line made of `p`, any characters other than digits (as ` cnf `), the
decimal digits `V`, one or more characters other than digits, the decimal
digits `C` with `C < 2147483647`, and a newline; then exactly `C` clause lines,
each preceded by any number of comment or empty lines and made of one or more
tokens and a final `0` and newline, where a token is a nonzero decimal integer
within the range of `int`, written with an optional sign and, when it has no
sign, without leading zero, and followed by one or more blanks; anything may
follow the last clause line.  Then `parse_cnf` returns an array of `C + 1`
cells whose first `C` cells are the rows of the clause lines in file order,
each row the integers of its line followed by `0`, and no clause contains `0`.
When `C >= 1` the last cell is the null pointer, and the clauses read back from
the array are exactly the lines. -/
theorem parse_cnf_well_formed (junk : Int) (pre : List (List Char)) (w1 V w2 C : List Char)
    (lines : List ClauseLine) (trailer : List Char)
    (hpre : ∀ l ∈ pre, comment_ok l)
    (hw1 : ∀ x ∈ w1, isdigit x = false)
    (hV : V ≠ [] ∧ ∀ x ∈ V, isdigit x = true)
    (hw2 : w2 ≠ [] ∧ ∀ x ∈ w2, isdigit x = false)
    (hC : C ≠ [] ∧ ∀ x ∈ C, isdigit x = true)
    (hcount : decimal C = lines.length) (hmax : lines.length < 2147483647)
    (hlines : ∀ l ∈ lines, l.ok) :
    ∃ last, parse_cnf junk (cnf_text pre w1 V w2 C lines trailer)
        = some (Loaded.array (lines.map (fun l => Cell.row (l.values ++ [0])) ++ [last])) ∧
      (lines.map (fun l => Cell.row (l.values ++ [0]))).length = decimal C ∧
      (∀ l ∈ lines, (0 : Int) ∉ l.values) ∧
      (lines ≠ [] → last = Cell.null ∧
        decode_cells (lines.map (fun l => Cell.row (l.values ++ [0])) ++ [last])
          = some (lines.map ClauseLine.values)) := by
  obtain ⟨hVne, hVd⟩ := hV
  obtain ⟨hw2ne, hw2d⟩ := hw2
  obtain ⟨hCne, hCd⟩ := hC
  obtain ⟨v, vs, rfl⟩ := List.exists_cons_of_ne_nil hVne
  obtain ⟨x, w2r, rfl⟩ := List.exists_cons_of_ne_nil hw2ne
  obtain ⟨c, cs, rfl⟩ := List.exists_cons_of_ne_nil hCne
  have hh := header_spec junk pre w1 v vs x w2r c cs (lines_text lines ++ trailer) hpre hw1 hVd
    hw2d hCd (by omega)
  have htext : cnf_text pre w1 (v :: vs) (x :: w2r) (c :: cs) lines trailer
      = comments_text pre ++ ('p' :: (w1 ++ v :: (vs ++ x :: (w2r ++ c ::
        (cs ++ '\n' :: (lines_text lines ++ trailer)))))) := by
    simp [cnf_text]
  have hzero : ∀ l ∈ lines, (0 : Int) ∉ l.values := by
    intro l hl h0
    exact values_nonzero (hlines l hl) 0 h0 rfl
  by_cases hl : lines = []
  · subst hl
    refine ⟨Cell.junk, ?_, by simp [hcount], hzero, fun h => absurd rfl h⟩
    rw [htext, hh, hcount]
    simp only [List.length_nil, Nat.cast_zero, Nat.zero_add, List.map_nil, List.nil_append]
    rw [parse_lines_none]
    rfl
  · refine ⟨Cell.null, ?_, by simp [hcount], hzero,
      fun _ => ⟨rfl, decode_cells_rows lines hlines⟩⟩
    have hp := parse_lines_spec junk trailer lines [] ((lines_text lines ++ trailer).length + 1)
      hl hlines
      (by have := lines_length lines; simp only [List.length_append]; omega)
    simp only [List.length_nil, Nat.zero_add, List.nil_append] at hp
    rw [htext, hh, hcount, hp]
    rfl

/-- Witness for C12: two comments, the header `p cnf  3`, a tab and a space,
`02`, the line `1 -02 0` with a space and a tab before the `0`, an empty line,
a comment, the line `+3 0`, and a final comment. -/
theorem parse_cnf_well_formed_witness :
    (∀ l ∈ ["c demo".toList, "% note".toList], comment_ok l) ∧
      (∀ x ∈ [' ', 'c', 'n', 'f', ' ', ' '], isdigit x = false) ∧
      ((['3'] : List Char) ≠ [] ∧ ∀ x ∈ ['3'], isdigit x = true) ∧
      ((['\t', ' '] : List Char) ≠ [] ∧ ∀ x ∈ ['\t', ' '], isdigit x = false) ∧
      ((['0', '2'] : List Char) ≠ [] ∧ ∀ x ∈ ['0', '2'], isdigit x = true) ∧
      decimal ['0', '2'] = sample_lines.length ∧ sample_lines.length < 2147483647 ∧
      (∀ l ∈ sample_lines, l.ok) ∧
      sample_input
        = "c demo\n% note\np cnf  3\t 02\n1 -02 \t0\n\nc next\n+3 0\nc end\n".toList ∧
      parse_cnf 0 sample_input
        = some (Loaded.array [Cell.row [1, -2, 0], Cell.row [3, 0], Cell.null]) ∧
      decode_cells [Cell.row [1, -2, 0], Cell.row [3, 0], Cell.null] = some [[1, -2], [3]] ∧
      ∃ last, parse_cnf 0 empty_input = some (Loaded.array [last]) :=
  ⟨by decide, by decide, by decide, by decide, by decide, by decide, by decide, by decide,
    by decide,
    let ⟨last, h1, _, _, h4⟩ :=
      parse_cnf_well_formed 0 ["c demo".toList, "% note".toList] [' ', 'c', 'n', 'f', ' ', ' ']
        ['3'] ['\t', ' '] ['0', '2'] sample_lines "c end\n".toList (by decide) (by decide)
        (by decide) (by decide) (by decide) (by decide) (by decide) (by decide)
    by rw [(h4 (by decide)).1] at h1; exact h1,
    by decide,
    let ⟨last, h1, _, _, _⟩ :=
      parse_cnf_well_formed 0 [] [' ', 'c', 'n', 'f', ' '] ['3'] [' '] ['0'] [] []
        (by decide) (by decide) (by decide) (by decide) (by decide) (by decide) (by decide)
        (by decide)
    ⟨last, h1⟩⟩

theorem two_units_width : ∀ cl ∈ two_units, cl ≠ [] ∧ cl.length ≤ 68 := by
  unfold two_units
  decide

theorem single_clause_width : ∀ cl ∈ single_clause, cl ≠ [] ∧ cl.length ≤ 68 := by
  unfold single_clause
  decide

theorem two_units_count_pos {s : Solver} (ok : ActiveOK s) (st : Setup two_units s)
    (sync : in_sync two_units s) : 0 < s.num_constraints := by
  by_cases h : satisfied s.solution [1]
  · have h2 : ¬ satisfied s.solution [-1] := fun h2 => two_units_unsat s.solution ⟨h, h2⟩
    exact count_pos_of_violated ok st sync (i := 1) (by rfl) h2
  · exact count_pos_of_violated ok st sync (i := 0) (by rfl) h

/-- Claim C13, the unsatisfiable instance `(1)`, `(-1)`.  For every stream of
random draws and every number `n`, `num_constraints > 0` holds in the state
produced by `get_size` and `initiate` and in the state after each of the first
`n` moves of `solve`; no step fails, and from each of these states the loop
performs a further move, so it never reaches `num_constraints == 0`. -/
theorem unsat_never_solved (junk : Int) (rnd : Nat → Nat) (p0 n : Nat) :
    ∃ s0, start junk two_units = some s0 ∧ 0 < s0.num_constraints ∧
      ∀ m, m ≤ n → ∃ s p s1 p1, solve_moves two_units rnd m s0 p0 = some (s, p) ∧
        0 < s.num_constraints ∧ solve_step two_units rnd s p = some (s1, p1) ∧
        solve_moves two_units rnd (m + 1) s0 p0 = some (s1, p1) ∧ 0 < s1.num_constraints := by
  obtain ⟨s0, h0, ok0, st0, sync0, _, _⟩ := start_spec junk two_units two_units_wf (fits_of_sized two_units_sized)
  refine ⟨s0, h0, two_units_count_pos ok0 st0 sync0, ?_⟩
  intro m _
  obtain ⟨⟨s, p⟩, hs⟩ := solve_moves_runs rnd two_units_width m s0 p0 ok0 st0 sync0
  obtain ⟨ok, st, sync⟩ := solve_moves_good m s0 s p0 p ok0 st0 sync0 hs
  have hpos := two_units_count_pos ok st sync
  obtain ⟨⟨s1, p1⟩, hstep⟩ := solve_step_runs rnd p ok st sync hpos two_units_width
  obtain ⟨ok1, st1, sync1⟩ := solve_step_good ok st sync hstep
  refine ⟨s, p, s1, p1, hs, hpos, hstep, ?_, two_units_count_pos ok1 st1 sync1⟩
  rw [solve_moves_succ two_units rnd m s0 s p0 p hs, if_pos hpos, hstep]

/-- Claim C14, the single clause `(1 ∨ -2)`.  For every stream of random draws,
the first move of `solve` already reaches `num_constraints == 0`, the loop then
exits (the state is the same after any number `n >= 1` of iterations), and
`verify(cnf)` returns `1` on that state. -/
theorem single_clause_solved (junk : Int) (rnd : Nat → Nat) (p0 : Nat) :
    ∃ s0 s p, start junk single_clause = some s0 ∧ s0.num_variables = 2 ∧
      solve_step single_clause rnd s0 p0 = some (s, p) ∧ s.num_constraints = 0 ∧
      (∀ n, 1 ≤ n → solve_moves single_clause rnd n s0 p0 = some (s, p)) ∧
      verify s single_clause = some 1 := by
  obtain ⟨s0, h0, ok0, st0, sync0, hcount, hsol⟩ := start_spec junk single_clause single_clause_wf (fits_of_sized single_clause_sized)
  have hpos : 0 < s0.num_constraints := by rw [hcount]; decide
  have hone : s0.num_constraints = 1 := by rw [hcount]; rfl
  obtain ⟨⟨s, p⟩, hstep⟩ := solve_step_runs rnd p0 ok0 st0 sync0 hpos single_clause_width
  obtain ⟨i, p1, x, buf, cl, _, _, _, hy, _, hb, hcl, hx, hx0, hxv, _, hm⟩ :=
    solve_step_parts ok0 st0 hstep
  obtain ⟨okb, stb, syncb⟩ := good_with_buffer ok0 st0 sync0 buf hb
  have hxpos : 1 ≤ abs x := (st0.lits cl (List.getElem?_mem hcl) x hx).1
  obtain ⟨ok, st, sync, _, _, _, hlt, _⟩ :=
    assign_move_effect okb stb syncb hcl hx hy (hsol (abs x) hxpos hxv) hm
  have hz : s.num_constraints = 0 := by
    have h1 := count_nonneg ok
    have h2 : s.num_constraints < s0.num_constraints := hlt
    omega
  have hnv : s0.num_variables = 2 := by
    unfold start at h0
    have e : (get_size single_clause boot).num_variables = 2 := by decide
    obtain ⟨s', g1, _, g3, _⟩ := initiate_spec junk single_clause (get_size single_clause boot)
      (get_size_nonneg _ _) (get_size_num_clauses _ _) (fits_of_sized single_clause_sized)
    rw [g1] at h0
    simp only [Option.some.injEq] at h0
    subst h0
    rw [g3, e]
  refine ⟨s0, s, p, h0, hnv, hstep, hz, ?_, (verify_of_count_zero ok st sync hz).1⟩
  intro n hn
  obtain ⟨k, rfl⟩ : ∃ k, n = k + 1 := ⟨n - 1, by omega⟩
  rw [solve_moves_first single_clause rnd k hpos hstep]
  exact solve_moves_done _ _ _ _ _ (by omega)

/-- Claim C15, the block-index strategy of `find`.  In a state whose count and
block index agree with the membership array, for `0 <= r < num_constraints`, the
boundary scan stops at some `j` with `1 <= j <= B`; boundary `j - 1` is the last
one whose offset is `<= r` (every later boundary up to `B` has an offset `> r`);
the `strchr` walk started in block `j - 1` stays inside `constraints` and ends at
the index `q` of the `r`-th active clause in index order (0-based), which lies
in block `j - 1`.  `find(r)` returns this `q` whenever it does not return from
the probe loop: when the density test is false (no draw is consumed) and when
all ten probes miss. -/
theorem find_block_index (s : Solver) (rnd : Nat → Nat) (p : Nat) (r : Int)
    (ok : ActiveOK s) (hr0 : 0 ≤ r) (hr1 : r < s.num_constraints) :
    ∃ (j q : Nat) (a : Int),
      find_scan s r (s.num_clauses + 1) 0 = some j ∧ 1 ≤ j ∧
      j ≤ num_blocks s.step s.num_clauses ∧
      s.milestones[j - 1]? = some a ∧ a ≤ r ∧
      (∀ k, j ≤ k → k ≤ num_blocks s.step s.num_clauses →
        ∃ m, s.milestones[k]? = some m ∧ r < m) ∧
      find_block s r = some (q : Int) ∧
      (j - 1) * s.step ≤ q ∧ q < j * s.step ∧ q < s.num_clauses ∧
      s.constraints[q]? = some 'y' ∧ (active_upto s.constraints q : Int) = r ∧
      (¬ Int.tdiv (s.num_clauses : Int) s.num_constraints < (SAMPLE_PARAM : Int) →
        find s rnd p r = some ((q : Int), p)) ∧
      (Int.tdiv (s.num_clauses : Int) s.num_constraints < (SAMPLE_PARAM : Int) →
        (∀ t, t < SAMPLE_PARAM → s.constraints[rnd (p + t) % s.num_clauses]? ≠ some 'y') →
        find s rnd p r = some ((q : Int), p + SAMPLE_PARAM)) := by
  have hB := num_blocks_le ok.step_pos s.num_clauses
  obtain ⟨j, hj1, hj2, hj3, hj4⟩ := find_scan_spec ok r (s.num_clauses + 1) 0 (Nat.zero_le _)
    (by omega) (Or.inl rfl)
  obtain ⟨q, hq1, hq2, hq3, hq4, hq5⟩ := find_block_spec ok hr0 hr1
  have hcount := ok.count
  have hfull : active_upto s.constraints
      (min (num_blocks s.step s.num_clauses * s.step) s.num_clauses)
      = active_upto s.constraints s.num_clauses := by
    rw [min_eq_right (num_blocks_mul_ge ok.step_pos _)]
  have hjpos : j ≠ 0 := by
    intro hj0
    subst hj0
    rcases hj4 with h | h
    · have hz : active_upto s.constraints s.num_clauses = 0 := by
        rw [← hfull, ← h]
        simp [active_upto]
      omega
    · have hz : active_upto s.constraints (min (0 * s.step) s.num_clauses) = 0 := by
        simp [active_upto]
      rw [hz] at h
      omega
  have ha : (active_upto s.constraints (min ((j - 1) * s.step) s.num_clauses) : Int) ≤ r := by
    rcases hj3 with h | h
    · exact absurd h hjpos
    · exact h
  have hlater : ∀ k, j ≤ k → k ≤ num_blocks s.step s.num_clauses →
      r < (active_upto s.constraints (min (k * s.step) s.num_clauses) : Int) := by
    intro k hk1 hk2
    rcases hj4 with h | h
    · have : k = num_blocks s.step s.num_clauses := by omega
      rw [this, hfull]
      omega
    · have hmono : active_upto s.constraints (min (j * s.step) s.num_clauses)
          ≤ active_upto s.constraints (min (k * s.step) s.num_clauses) := by
        apply active_upto_mono
        have : j * s.step ≤ k * s.step := Nat.mul_le_mul_right _ hk1
        omega
      omega
  have hlow : (j - 1) * s.step ≤ q := by
    by_contra hlt
    have h1 : q + 1 ≤ min ((j - 1) * s.step) s.num_clauses := by omega
    have h2 := active_upto_mono s.constraints h1
    rw [active_upto_succ _ _ hq3] at h2
    omega
  have hhigh : q < j * s.step := by
    by_contra hge
    have h1 : min (j * s.step) s.num_clauses ≤ q := by omega
    have h2 := active_upto_mono s.constraints h1
    have h3 := hlater j (le_refl _) hj2
    omega
  refine ⟨j, q, _, hj1, by omega, hj2, ok.marks (j - 1) (by omega), ha, ?_, hq1, hlow, hhigh,
    hq2, hq3, hq4, ?_, ?_⟩
  · intro k hk1 hk2
    exact ⟨_, ok.marks k hk2, hlater k hk1 hk2⟩
  · intro hd
    obtain ⟨i, p1, hf, _, _, hcase⟩ := find_spec ok rnd p hr0 hr1
    rcases hcase with ⟨hd', _⟩ | ⟨hsel, hp⟩
    · exact absurd hd' hd
    · rw [hq5] at hsel
      simp only [Option.some.injEq] at hsel
      subst hsel
      rcases hp with ⟨_, rfl⟩ | ⟨hd', _⟩
      · exact hf
      · exact absurd hd' hd
  · intro hd hmiss
    obtain ⟨i, p1, hf, _, _, hcase⟩ := find_spec ok rnd p hr0 hr1
    rcases hcase with ⟨_, k, hk1, hk2, _, _⟩ | ⟨hsel, hp⟩
    · exfalso
      obtain ⟨i', p1', hf', _, hy', _⟩ := find_spec ok rnd p hr0 hr1
      rw [hf] at hf'
      simp only [Option.some.injEq, Prod.mk.injEq, Nat.cast_inj] at hf'
      obtain ⟨rfl, _⟩ := hf'
      apply hmiss k hk1
      rw [← hk2]; exact hy'
    · rw [hq5] at hsel
      simp only [Option.some.injEq] at hsel
      subst hsel
      rcases hp with ⟨hd', _⟩ | ⟨_, rfl, _⟩
      · exact absurd hd hd'
      · exact hf

/-- Witness for C15: with clause 0 inactive and clause 1 active in the two unit
clauses, every draw `0` probes clause 0, all ten probes miss, and `find(0)`
returns index `1` through the block index. -/
theorem find_block_index_witness :
    ActiveOK two_units_mixed ∧ (0 : Int) ≤ 0 ∧ (0 : Int) < two_units_mixed.num_constraints ∧
      find_block two_units_mixed 0 = some 1 ∧
      find two_units_mixed (fun _ => 0) 0 0 = some (1, 10) ∧
      ∃ (j q : Nat), find_scan two_units_mixed 0 (two_units_mixed.num_clauses + 1) 0 = some j ∧
        find_block two_units_mixed 0 = some (q : Int) ∧
        (active_upto two_units_mixed.constraints q : Int) = 0 :=
  ⟨two_units_mixed_ok, by decide, by decide, by decide, by decide,
    let ⟨j, q, _, h1, _, _, _, _, _, h7, _, _, _, _, h12, _⟩ :=
      find_block_index two_units_mixed (fun _ => 0) 0 0 two_units_mixed_ok (by decide)
        (by decide)
    ⟨j, q, h1, h7, h12⟩⟩

/-- Claim C16, the effect of activate and deactivate on the block index.  With
`B` the number of blocks, `step > 0` and `milestones` allocated with indices
`0..B`, for every clause index `i < num_clauses`: when the flag of `i` is `'n'`,
`insert(i)` returns `'C'`, sets `constraints[i]` to `'y'`, increases
`num_constraints` by exactly 1, adds exactly 1 to `milestones[k]` for every `k`
with `i / step < k <= B`, and leaves every other milestone, every other flag and
all other variables unchanged; every access to `milestones` is inside `0..B`
(the call does not fault).  When the flag of `i` is `'y'`, `extract(i)` does the
same with `-1` and `'n'`. -/
theorem insert_extract_effect (s : Solver) (i : Nat) (hstep : 0 < s.step)
    (hlen : s.milestones.length = num_blocks s.step s.num_clauses + 1)
    (hi : i < s.num_clauses) :
    (s.constraints[i]? = some 'n' →
      ∃ ms, insert s i = some ('C', { s with milestones := ms, constraints := s.constraints.set i 'y', num_constraints := s.num_constraints + 1 }) ∧
        ms.length = s.milestones.length ∧
        ∀ k, ms[k]? = if i / s.step < k ∧ k ≤ num_blocks s.step s.num_clauses
          then (s.milestones[k]?).map (fun v => v + 1) else s.milestones[k]?) ∧
    (s.constraints[i]? = some 'y' →
      ∃ ms, extract s i = some ('C', { s with milestones := ms, constraints := s.constraints.set i 'n', num_constraints := s.num_constraints - 1 }) ∧
        ms.length = s.milestones.length ∧
        ∀ k, ms[k]? = if i / s.step < k ∧ k ≤ num_blocks s.step s.num_clauses
          then (s.milestones[k]?).map (fun v => v + -1) else s.milestones[k]?) := by
  have hB := num_blocks_le hstep s.num_clauses
  have hblock : i / s.step + 1 ≤ num_blocks s.step s.num_clauses := by
    have : i / s.step < num_blocks s.step s.num_clauses := by
      rw [← lt_num_blocks hstep]
      exact lt_of_le_of_lt (Nat.div_mul_le_self _ _) hi
    omega
  have hk : ∀ k, (i / s.step + 1 ≤ k ∧ k ≤ num_blocks s.step s.num_clauses)
      ↔ (i / s.step < k ∧ k ≤ num_blocks s.step s.num_clauses) := by
    intro k; omega
  constructor
  · intro hin
    obtain ⟨ms1, hm1, hm2, hm3⟩ := bump_spec 1 hstep s.num_clauses (s.num_clauses + 1)
      (i / s.step + 1) s.milestones hblock
      (Nat.lt_succ_of_le (le_trans (Nat.sub_le _ _) hB)) (by omega)
    have hne : ('n' : Char) ≠ 'y' := by decide
    refine ⟨ms1, ?_, hm2, ?_⟩
    · simp only [insert, hin, hne, if_false, block_after_start hstep i, hm1]
    · intro k
      rw [hm3 k]
      simp only [hk k]
  · intro hiy
    obtain ⟨ms1, hm1, hm2, hm3⟩ := bump_spec (-1) hstep s.num_clauses (s.num_clauses + 1)
      (i / s.step + 1) s.milestones hblock
      (Nat.lt_succ_of_le (le_trans (Nat.sub_le _ _) hB)) (by omega)
    have hne : ('y' : Char) ≠ 'n' := by decide
    refine ⟨ms1, ?_, hm2, ?_⟩
    · simp only [extract, hiy, hne, if_false, block_after_start hstep i, hm1]
    · intro k
      rw [hm3 k]
      simp only [hk k]

/-- Witness for C16.  In the start state of the two unit clauses every clause is
active: `extract(0)` gives the state with clause 0 inactive, and subtracts 1
from `milestones[1]`.  In that state `insert(0)` restores the start state, and
adds 1 to `milestones[1]`. -/
theorem insert_extract_effect_witness :
    0 < two_units_start.step ∧
      two_units_start.milestones.length
        = num_blocks two_units_start.step two_units_start.num_clauses + 1 ∧
      0 < two_units_start.num_clauses ∧
      two_units_start.constraints[0]? = some 'y' ∧
      extract two_units_start 0 = some ('C', two_units_mixed) ∧
      (∃ ms : List Int,
        (extract two_units_start 0).map (fun r => r.2.milestones) = some ms ∧
        ms.length = two_units_start.milestones.length ∧
        ms[1]? = (two_units_start.milestones[1]?).map (fun v => v + -1)) ∧
      two_units_mixed.constraints[0]? = some 'n' ∧
      insert two_units_mixed 0 = some ('C', two_units_start) ∧
      (∃ ms : List Int,
        (insert two_units_mixed 0).map (fun r => r.2.milestones) = some ms ∧
        ms.length = two_units_mixed.milestones.length ∧
        ms[1]? = (two_units_mixed.milestones[1]?).map (fun v => v + 1)) :=
  ⟨by decide, by decide, by decide, by decide, by decide,
    let ⟨ms, h1, h2, h3⟩ :=
      (insert_extract_effect two_units_start 0 (by decide) (by decide) (by decide)).2
        (by decide)
    ⟨ms, by rw [h1]; rfl, h2, by rw [h3 1]; rfl⟩,
    by decide, by decide,
    let ⟨ms, h1, h2, h3⟩ :=
      (insert_extract_effect two_units_mixed 0 (by decide) (by decide) (by decide)).1
        (by decide)
    ⟨ms, by rw [h1]; rfl, h2, by rw [h3 1]; rfl⟩⟩

theorem single_clause_start_good :
    ActiveOK single_clause_start ∧ Setup single_clause single_clause_start ∧
      in_sync single_clause single_clause_start := by
  obtain ⟨s0, h0, ok, st, sync, _, _⟩ := start_spec 0 single_clause single_clause_wf (fits_of_sized single_clause_sized)
  have e : start 0 single_clause = some single_clause_start := by decide
  rw [e] at h0
  simp only [Option.some.injEq] at h0
  subst h0
  exact ⟨ok, st, sync⟩

/-- Claim C17, the count and block-index invariant.  In the state produced by
`initiate` and after any sequence of `insert`/`extract` calls on clause indices,
`num_constraints` is the number of indices `i < num_clauses` with
`constraints[i] == 'y'`, and for every boundary `k` with `0 <= k <= B` (`B` the
number of blocks) `milestones[k]` is the number of active clauses with index
below `min(k * step, num_clauses)`; in particular `milestones[0] == 0` and
`milestones[B] == num_constraints`. -/
theorem count_and_index_invariant (junk : Int) (cnf : Cnf) (s0 s : Solver)
    (h0 : start junk cnf = some s0) (hreach : Reach s0 s) :
    s.num_constraints
        = (((List.range s.num_clauses).filter
            (fun i => decide (s.constraints[i]? = some 'y'))).length : Int) ∧
      (∀ k, k ≤ num_blocks s.step s.num_clauses →
        s.milestones[k]? = some ((((List.range (min (k * s.step) s.num_clauses)).filter
            (fun i => decide (s.constraints[i]? = some 'y'))).length : Nat) : Int)) ∧
      s.milestones[0]? = some 0 ∧
      s.milestones[num_blocks s.step s.num_clauses]? = some s.num_constraints := by
  have ok := reach_activeOK (start_activeOK h0) hreach
  refine ⟨?_, ?_, ?_, ?_⟩
  · rw [ok.count, active_upto_eq_filter]
  · intro k hk
    rw [ok.marks k hk, active_upto_eq_filter]
  · rw [ok.marks 0 (Nat.zero_le _)]
    simp [active_upto]
  · rw [ok.marks _ (le_refl _), min_eq_right (num_blocks_mul_ge ok.step_pos _), ok.count]

/-- Witness for C17: the two unit clauses after `extract(0)`. -/
theorem count_and_index_invariant_witness :
    start 0 two_units = some two_units_start ∧ Reach two_units_start two_units_mixed ∧
      two_units_mixed.num_constraints
        = (((List.range two_units_mixed.num_clauses).filter
            (fun i => decide (two_units_mixed.constraints[i]? = some 'y'))).length : Int) ∧
      two_units_mixed.milestones[0]? = some 0 ∧
      two_units_mixed.milestones[num_blocks two_units_mixed.step two_units_mixed.num_clauses]?
        = some two_units_mixed.num_constraints :=
  ⟨by decide, two_units_mixed_reach,
    (count_and_index_invariant 0 two_units two_units_start two_units_mixed (by decide)
      two_units_mixed_reach).1,
    (count_and_index_invariant 0 two_units two_units_start two_units_mixed (by decide)
      two_units_mixed_reach).2.2⟩

/-- Counterexample to C18 as stated.  For a database of 10099 unit clauses,
`initiate` computes `step = 10099 / 100 = 100`, and the boundaries `j` with
`j * step < num_clauses` are exactly `j = 0, ..., 100`: there are 101 of them
(and `milestones` gets 102 entries). -/
theorem block_count_counterexample :
    ∃ s0, start 0 (List.replicate 10099 [1]) = some s0 ∧ s0.num_clauses = 10099 ∧
      s0.step = 100 ∧ (∀ j, j * s0.step < s0.num_clauses ↔ j < 101) ∧
      count_blocks s0.step s0.num_clauses (s0.num_clauses + 1) 0 = some 101 ∧
      s0.milestones.length = 102 := by
  have hsz : int_sized (List.replicate 10099 [1]) := by
    refine ⟨by rw [List.length_replicate]; omega, ?_, ?_⟩
    · rw [List.map_replicate, List.sum_replicate]
      simp
    intro c hc l hl
    rw [List.eq_of_mem_replicate hc] at hl
    simp only [List.mem_singleton] at hl
    subst hl
    omega
  obtain ⟨s0, g1, ok, _, g4, _, _, _, _, g9, g10, _⟩ := initiate_spec 0
    (List.replicate 10099 [1]) (get_size (List.replicate 10099 [1]) boot)
    (get_size_nonneg _ _) (get_size_num_clauses _ _) (fits_of_sized hsz)
  have hnc : s0.num_clauses = 10099 := by
    rw [g4, get_size_num_clauses, List.length_replicate]
  have hst : s0.step = 100 := by
    rw [g9, get_size_num_clauses, List.length_replicate]
    decide
  have hB : num_blocks 100 10099 = 101 := by decide
  refine ⟨s0, g1, hnc, hst, ?_, ?_, ?_⟩
  · intro j
    rw [hst, hnc]
    omega
  · rw [hst, hnc, count_blocks_spec (by omega) 10099 (by rw [hB]; omega) _ 0 (Nat.zero_le _)
      (by rw [hB]; omega), hB]
  · rw [g10, hst, hnc, hB]

/-- Claim C18 as amended.  In every state `s0` that `get_size` and `initiate`
produce, with the block size `step = max(num_clauses / 100, 100)` that
`initiate` computes, the boundaries that `find` scans (the indices `j` with
`j * step < num_clauses`) are exactly the `j` below the number of blocks
`ceil(num_clauses / step)`, which is the value the counting loop of `initiate`
returns, and there are at most 101 of them; `milestones` has one entry more.
Such a state exists whenever the `int` arithmetic of `initiate` does not
overflow, in particular for every database with at most `2000000000` clauses
and literal magnitudes of at most `1073741822`. -/
theorem block_count_bound (junk : Int) (cnf : Cnf) :
    (int_sized cnf → ∃ s0, start junk cnf = some s0) ∧
      ∀ s0, start junk cnf = some s0 →
        s0.num_clauses = cnf.length ∧
        s0.step = (if cnf.length / MILESTONE_PARAM < 100 then 100
                    else cnf.length / MILESTONE_PARAM) ∧
        count_blocks s0.step s0.num_clauses (s0.num_clauses + 1) 0
          = some (num_blocks s0.step s0.num_clauses) ∧
        (∀ j, j * s0.step < s0.num_clauses ↔ j < num_blocks s0.step s0.num_clauses) ∧
        num_blocks s0.step s0.num_clauses ≤ 101 ∧
        s0.milestones.length = num_blocks s0.step s0.num_clauses + 1 := by
  constructor
  · intro hsz
    obtain ⟨s0, g1, _⟩ := initiate_spec junk cnf (get_size cnf boot)
      (get_size_nonneg _ _) (get_size_num_clauses _ _) (fits_of_sized hsz)
    exact ⟨s0, g1⟩
  · intro s0 h0
    have hfit := fits_of_start h0
    obtain ⟨s, g1, ok, _, g4, _, _, _, _, g9, g10, _⟩ := initiate_spec junk cnf
      (get_size cnf boot) (get_size_nonneg _ _) (get_size_num_clauses _ _) hfit
    unfold start at h0
    rw [g1] at h0
    simp only [Option.some.injEq] at h0
    subst h0
    have hnc : s.num_clauses = cnf.length := by rw [g4, get_size_num_clauses]
    have hst : s.step = (if cnf.length / MILESTONE_PARAM < 100 then 100
        else cnf.length / MILESTONE_PARAM) := by
      rw [g9, get_size_num_clauses]
    have hle := num_blocks_le ok.step_pos s.num_clauses
    have hprod : num_blocks s.step s.num_clauses * s.step ≤ 2147483647 := by
      have := hfit.prod
      rw [get_size_num_clauses] at this
      rw [hst, hnc]
      exact this
    refine ⟨hnc, hst, ?_, ?_, ?_, g10⟩
    · exact count_blocks_spec ok.step_pos _ hprod _ 0 (Nat.zero_le _) (by omega)
    · intro j
      exact lt_num_blocks ok.step_pos _ j
    · rw [hst, hnc]
      exact num_blocks_initial cnf.length

/-- Claim C19, assign moves only shrink the active set.  In a state that
satisfies the ActiveSet consistency invariant, a completed iteration of `solve`
selects an active clause `i` and elects a literal `x` of it.  If the variable of
`x` is Unassigned, the move deactivates clause `i`, leaves every inactive clause
inactive, strictly decreases `num_constraints`, and its re-check loop over the
occurrences of `-x` never calls `insert`: the state after the `extract` loop is
already the final state.  If the variable is assigned (the move reverts it to
Unassigned), every active clause stays active and `num_constraints` does not
decrease. -/
theorem assign_moves_shrink (cnf : Cnf) (rnd : Nat → Nat) (s s2 : Solver) (p p2 : Nat)
    (ok : ActiveOK s) (st : Setup cnf s) (sync : in_sync cnf s)
    (h : solve_step cnf rnd s p = some (s2, p2)) :
    ∃ (i p1 : Nat) (x : Int) (s1 : Solver),
      find s rnd (p + 1) (Int.tmod (rnd p : Int) s.num_constraints) = some ((i : Int), p1) ∧
      s.constraints[i]? = some 'y' ∧
      elect s cnf rnd p1 (i : Int) = some (x, s1, p2) ∧ move cnf s1 x = some s2 ∧
      (rd s.solution (abs x) = some '|' →
        s2.constraints[i]? = some 'n' ∧
        (∀ k : Nat, s.constraints[k]? = some 'n' → s2.constraints[k]? = some 'n') ∧
        s2.num_constraints < s.num_constraints ∧
        ∃ sol row1 row2,
          wr s1.solution (abs x) (if x > 0 then '}' else '{') = some sol ∧
          rd s1.hold (s1.num_variables + x + 1) = some row1 ∧
          extract_all row1 { s1 with solution := sol } = some s2 ∧
          rd s2.hold (s2.num_variables - x + 1) = some row2 ∧
          insert_all cnf row2 s2 = some s2) ∧
      (rd s.solution (abs x) ≠ some '|' →
        (∀ k : Nat, s.constraints[k]? = some 'y' → s2.constraints[k]? = some 'y') ∧
        s.num_constraints ≤ s2.num_constraints) := by
  obtain ⟨i, p1, x, buf, cl, _, hf, _, hy, he, hb, hcl, hx, _, _, _, hm⟩ :=
    solve_step_parts ok st h
  obtain ⟨okb, stb, syncb⟩ := good_with_buffer ok st sync buf hb
  refine ⟨i, p1, x, { s with buffer := buf }, hf, hy, he, hm, ?_, ?_⟩
  · intro hu
    obtain ⟨_, _, _, h1, h2, _, h4, h5⟩ := assign_move_effect okb stb syncb hcl hx hy hu hm
    exact ⟨h1, h2, h4, h5⟩
  · intro hu
    obtain ⟨_, _, _, h1, h2⟩ :=
      revert_move_effect okb stb syncb (List.getElem?_mem hcl) hx hu hm
    exact ⟨h1, h2⟩

/-- Witness for C19: the first move on `(1 ∨ -2)` assigns variable 1 and the
count drops from 1 to 0. -/
theorem assign_moves_shrink_witness :
    ActiveOK single_clause_start ∧ Setup single_clause single_clause_start ∧
      in_sync single_clause single_clause_start ∧
      solve_step single_clause (fun _ => 0) single_clause_start 0
        = some (single_clause_end, 3) ∧
      single_clause_end.num_constraints < single_clause_start.num_constraints ∧
      ∃ (i p1 : Nat) (x : Int) (s1 : Solver),
        find single_clause_start (fun _ => 0) (0 + 1)
          (Int.tmod (((fun _ => 0) 0 : Nat) : Int) single_clause_start.num_constraints)
            = some ((i : Int), p1) ∧
        elect single_clause_start single_clause (fun _ => 0) p1 (i : Int) = some (x, s1, 3) ∧
        move single_clause s1 x = some single_clause_end :=
  ⟨single_clause_start_good.1, single_clause_start_good.2.1, single_clause_start_good.2.2,
    by decide, by decide,
    let ⟨i, p1, x, s1, h1, _, h3, h4, _⟩ :=
      assign_moves_shrink single_clause (fun _ => 0) single_clause_start single_clause_end 0 3
        single_clause_start_good.1 single_clause_start_good.2.1 single_clause_start_good.2.2
        (by decide)
    ⟨i, p1, x, s1, h1, h3, h4⟩⟩

theorem single_clause_start_reads :
    ∀ l ∈ ([1, -2] : Clause), ∃ ch, rd single_clause_start.solution (abs l) = some ch := by
  intro l hl
  simp only [List.mem_cons, List.mem_singleton, List.not_mem_nil, or_false] at hl
  rcases hl with rfl | rfl
  · exact ⟨'|', by decide⟩
  · exact ⟨'|', by decide⟩

/-- Claim C20, the election buffer bound.  For a clause `cl = cnf[i]` and an
assignment under which every variable of the clause can be read, with the
69-entry `buffer` (indices `0..68`): every index that `elect` writes is in
bounds exactly when the clause has at most 68 literals whose variable is
Unassigned; with 69 or more such literals `elect` writes at an index `>= 69`.
Accordingly the call on a non-empty clause is defined exactly in the first
case. -/
theorem elect_buffer_bound (s : Solver) (cnf : Cnf) (rnd : Nat → Nat) (p : Nat) (i : Int)
    (cl : Clause) (hc : rd cnf i = some cl) (hne : cl ≠ [])
    (hv : ∀ l ∈ cl, ∃ ch, rd s.solution (abs l) = some ch)
    (hbuf : s.buffer.length = 69) :
    ((∀ w ∈ elect_trace s.solution cl, w < s.buffer.length) ↔
        (unassigned_lits s.solution cl).length ≤ 68) ∧
      (69 ≤ (unassigned_lits s.solution cl).length →
        ∃ w ∈ elect_trace s.solution cl, 69 ≤ w) ∧
      ((∃ r, elect s cnf rnd p i = some r) ↔ (unassigned_lits s.solution cl).length ≤ 68) := by
  refine ⟨?_, ?_, ?_⟩
  · rw [hbuf]
    constructor
    · intro hall
      by_contra hn
      have hmem : (unassigned_lits s.solution cl).length ∈ elect_trace s.solution cl :=
        List.mem_cons_of_mem _
          ((mem_elect_trace_scan s.solution cl 0 _).2 ⟨by omega, by omega, by omega⟩)
      have := hall _ hmem
      omega
    · intro hle w hw
      unfold elect_trace at hw
      rcases List.mem_cons.1 hw with rfl | hw
      · omega
      · rw [mem_elect_trace_scan] at hw
        omega
  · intro hge
    exact ⟨(unassigned_lits s.solution cl).length, List.mem_cons_of_mem _
      ((mem_elect_trace_scan s.solution cl 0 _).2 ⟨by omega, by omega, by omega⟩), hge⟩
  · constructor
    · rintro ⟨r, hr⟩
      by_contra hn
      rw [elect_none_of_wide rnd p hc hbuf (by omega)] at hr
      cases hr
    · intro hle
      exact elect_runs rnd p hc hne hv hbuf hle

/-- Witness for C20 on `(1 ∨ -2)` with both variables Unassigned: two
unassigned literals, and `elect` writes the indices `0, 0, 1, 1, 2`. -/
theorem elect_buffer_bound_witness :
    rd single_clause 0 = some [1, -2] ∧ single_clause_start.buffer.length = 69 ∧
      elect_trace single_clause_start.solution [1, -2] = [0, 0, 1, 1, 2] ∧
      ((∀ w ∈ elect_trace single_clause_start.solution [1, -2],
          w < single_clause_start.buffer.length) ↔
        (unassigned_lits single_clause_start.solution [1, -2]).length ≤ 68) ∧
      ((∃ r, elect single_clause_start single_clause (fun _ => 0) 0 0 = some r) ↔
        (unassigned_lits single_clause_start.solution [1, -2]).length ≤ 68) :=
  ⟨by decide, by decide, by decide,
    (elect_buffer_bound single_clause_start single_clause (fun _ => 0) 0 0 [1, -2] (by decide)
      (by decide) single_clause_start_reads (by decide)).1,
    (elect_buffer_bound single_clause_start single_clause (fun _ => 0) 0 0 [1, -2] (by decide)
      (by decide) single_clause_start_reads (by decide)).2.2⟩

end Uniform
